import Mathlib

/-! # nginxfmt: a shallow embedding of `nginxfmt.go`

Text is modelled as `List Char` (the code points of a valid UTF-8 text; every
byte-level test of the source, a one-byte prefix, suffix or separator, is an ASCII
character, so it sees the same thing on code points as on bytes).  Go's `int` is
modelled by `Int`: `indent` and `maxLength` are bounded by the size of the input, so no
overflow occurs.  A run-time panic is modelled by `none`.
-/

namespace Nginxfmt

/-- Text: the code points of a Go string. -/
abbrev Str := List Char

/-- The five results of `getType` (`"comment"`, `"block_start"`, `"block_end"`,
`"newline"`, `"directive"`). -/
inductive Kind
  | comment
  | block_start
  | block_end
  | newline
  | directive
  deriving DecidableEq, Repr

/-- Go `unicode.IsSpace`: the Latin-1 spaces and the code points of category Z with
property `White_Space`. -/
def isSpace (c : Char) : Bool :=
  let n := c.toNat
  n = 0x09 || n = 0x0A || n = 0x0B || n = 0x0C || n = 0x0D || n = 0x20 ||
  n = 0x85 || n = 0xA0 || n = 0x1680 || (0x2000 ≤ n && n ≤ 0x200A) ||
  n = 0x2028 || n = 0x2029 || n = 0x202F || n = 0x205F || n = 0x3000

/-- Go `strings.TrimSpace`: leading and trailing white space removed. -/
def TrimSpace (s : Str) : Str :=
  (s.dropWhile isSpace).rdropWhile isSpace

/-- Go `strings.SplitN(s, " ", 2)`: cut at the first space, if there is one. -/
def SplitN2 (s : Str) : List Str :=
  match s.span (fun c => c != ' ') with
  | (a, []) => [a]
  | (a, _ :: b) => [a, b]

/-- Go `strings.Repeat(s, count)`; it panics on a negative count. -/
def Repeat (s : Str) (count : Int) : Option Str :=
  if count < 0 then none else some (List.replicate count.toNat s).flatten

/-- Byte length of a text as a Go `int`. -/
def len (s : Str) : Int := ((s.map (fun c => c.utf8Size)).sum : Nat)

/-- The character class `[a-zA-Z_]`. -/
def isWordChar (c : Char) : Bool :=
  ('a' ≤ c && c ≤ 'z') || ('A' ≤ c && c ≤ 'Z') || c = '_'

/-- The matcher `isWord` of the regular expression `^[a-zA-Z_]+$`. -/
def isWord (s : Str) : Bool :=
  !s.isEmpty && s.all isWordChar

def isComment (l : Str) : Bool := ['#'].isPrefixOf l

def isBlockStart (l : Str) : Bool := ['{'].isSuffixOf l

def isBlockEnd (l : Str) : Bool := l = ['}']

def isNewLine (l : Str) : Bool := l = []

def getType (l : Str) : Kind :=
  if isComment l then Kind.comment
  else if isBlockStart l then Kind.block_start
  else if isBlockEnd l then Kind.block_end
  else if isNewLine l then Kind.newline
  else Kind.directive

/-- The function `writeString`: the buffer after the writes, `none` when
`strings.Repeat` panics. -/
def writeString (buf : Str) (str : Str) (indent : Int) (newlineStart newlineEnd : Bool) :
    Option Str :=
  let buf := if newlineStart then buf ++ ['\n'] else buf
  match Repeat [' ', ' '] indent with
  | none => none
  | some sp =>
    let buf := buf ++ sp
    let buf := buf ++ str
    let buf := if newlineEnd then buf ++ ['\n'] else buf
    some buf

def max (x y : Int) : Int := if x < y then y else x

def times (str : Str) (n : Int) : Str :=
  if n ≤ 0 then [] else (List.replicate n.toNat str).flatten

def rightPad (str : Str) (length : Int) (pad : Str) : Str :=
  str ++ times pad (length - len str)

/-- First loop of `flushDirectives`: the width after the run. -/
def flushWidth : List Str → Int → Int
  | [], maxLength => maxLength
  | directive :: rest, maxLength =>
    let parts := SplitN2 directive
    if parts.length ≠ 1 ∧ isWord (parts.headD []) = true then
      flushWidth rest (max maxLength (len (parts.headD [])))
    else flushWidth rest maxLength

/-- Second loop of `flushDirectives`: the buffer after the run is written. -/
def flushWrite (maxLength indent : Int) : List Str → Str → Option Str
  | [], buf => some buf
  | directive :: rest, buf =>
    let parts := SplitN2 directive
    if parts.length = 2 ∧ isWord (parts.headD []) = true then
      let directiveFront := rightPad (parts.headD []) maxLength [' ']
      let directiveSuffix := TrimSpace (parts.getD 1 [])
      match writeString buf (directiveFront ++ [' '] ++ directiveSuffix) indent false true with
      | none => none
      | some buf => flushWrite maxLength indent rest buf
    else
      match writeString buf directive indent false true with
      | none => none
      | some buf => flushWrite maxLength indent rest buf

def flushDirectives (buf : Str) (directives : List Str) (indent : Int) (maxLength : Int) :
    Option (Str × Int) :=
  let maxLength := flushWidth directives maxLength
  match flushWrite maxLength indent directives buf with
  | none => none
  | some buf => some (buf, maxLength)

/-- The local variables of `fmtFile` that live across iterations of the read loop;
`prevType = none` is the initial value `"nil"`. -/
structure State where
  buf : Str
  indent : Int
  prevType : Option Kind
  started : Bool
  directives : List Str
  maxLength : Int
  deriving DecidableEq, Repr

/-- The state before the read loop. -/
def State.init : State :=
  { buf := [], indent := 0, prevType := none, started := false, directives := [],
    maxLength := 0 }

/-- The successive results of `rd.ReadString('\n')` that come without `io.EOF`: every
line with its terminator; text after the last terminator is never returned without
`io.EOF` and is dropped by the `break`. -/
def readLines : Str → Str → List Str
  | _, [] => []
  | acc, c :: cs =>
    if c = '\n' then (acc ++ [c]) :: readLines [] cs else readLines (acc ++ [c]) cs

/-- One iteration of the read loop of `fmtFile` on the line `raw`. -/
def step (minify : Bool) (s : State) (raw : Str) : Option State :=
  let l := TrimSpace raw
  let currType := getType l
  if minify && (currType = Kind.comment || currType = Kind.newline) then some s
  else
    let flushed : Option State :=
      if currType ≠ Kind.directive then
        match flushDirectives s.buf s.directives s.indent s.maxLength with
        | none => none
        | some (buf, maxLength) => some { s with buf := buf, maxLength := maxLength, directives := [] }
      else some s
    match flushed with
    | none => none
    | some s =>
      let switched : Option State :=
        match currType with
        | Kind.comment =>
          let newlineStart := s.prevType ≠ some Kind.comment ∧ s.prevType ≠ some Kind.block_start
          match writeString s.buf (['#', ' '] ++ TrimSpace (l.drop 1)) s.indent newlineStart true with
          | none => none
          | some buf => some { s with buf := buf }
        | Kind.block_start =>
          let newlineStart := s.prevType ≠ some Kind.comment ∧ s.started = true
          match writeString s.buf l s.indent newlineStart true with
          | none => none
          | some buf => some { s with buf := buf, maxLength := 0, indent := s.indent + 1 }
        | Kind.block_end =>
          match writeString s.buf l (s.indent - 1) false true with
          | none => none
          | some buf => some { s with buf := buf, maxLength := 0, indent := s.indent - 1 }
        | Kind.directive => some { s with directives := s.directives ++ [l] }
        | Kind.newline => some s
      match switched with
      | none => none
      | some s =>
        some { s with prevType := some currType,
                      started := if currType ≠ Kind.newline then true else s.started }

/-- The read loop of `fmtFile` over the lines of the input. -/
def run (minify : Bool) : State → List Str → Option State
  | s, [] => some s
  | s, raw :: rest =>
    match step minify s raw with
    | none => none
    | some s => run minify s rest

/-- The formatting pass of `fmtFile`: the output buffer after the read loop, `none` when
the pass panics. -/
def fmtFile (minify : Bool) (input : Str) : Option Str :=
  (run minify State.init (readLines [] input)).map State.buf

/-! ## Definitions used to state the properties -/

/-- The text made of the lines `ls`, each followed by a newline. -/
def render (ls : List Str) : Str := (ls.map (fun l => l ++ ['\n'])).flatten

/-- The lines of a text: its pieces between newlines, without the (empty) piece after the
last newline. -/
def outLines (out : Str) : List Str := (out.splitOn '\n').dropLast

/-- The indentation `writeString` writes for a non-negative indent: two spaces per
level. -/
def spaces (indent : Int) : Str := List.replicate (2 * indent.toNat) ' '

/-- The text that the second loop of `flushDirectives` writes for one directive at the
width `W` (before indentation and newline). -/
def fmtDirective (W : Int) (d : Str) : Str :=
  if (SplitN2 d).length = 2 ∧ isWord ((SplitN2 d).headD []) = true then
    rightPad ((SplitN2 d).headD []) W [' '] ++ [' '] ++ TrimSpace ((SplitN2 d).getD 1 [])
  else d

/-- The text of a directive before its first space (the whole text when it has none). -/
def firstToken (d : Str) : Str := d.takeWhile (fun c => c != ' ')

/-- The text of a directive after its first space. -/
def afterToken (d : Str) : Str := (d.dropWhile (fun c => c != ' ')).drop 1

/-- An alignable directive: it contains a space and the text before its first space is
one or more ASCII letters or underscores. -/
def alignable (d : Str) : Bool :=
  decide (' ' ∈ d) && !(firstToken d).isEmpty &&
    (firstToken d).all (fun c => c.isAlpha || c == '_')

/-- The width of a run: the maximum of the carried-in width and of the lengths of the
first tokens of its alignable directives. -/
def alignWidth (w : Int) (ds : List Str) : Int :=
  ((ds.filter alignable).map (fun d => ((firstToken d).length : Int))).foldl Max.max w

/-- The output line of an alignable directive at indent `n` and width `W`: the
indentation, the name, the padding, one space, the trimmed rest, a newline. -/
def alignedLine (n W : Int) (d : Str) : Str :=
  List.replicate (2 * n.toNat) ' ' ++ firstToken d ++
    List.replicate (W - (firstToken d).length).toNat ' ' ++ [' '] ++
    TrimSpace (afterToken d) ++ ['\n']

/-- The output line of a directive written as it is at indent `n`. -/
def verbatimLine (n : Int) (d : Str) : Str :=
  List.replicate (2 * n.toNat) ' ' ++ d ++ ['\n']

/-- The lines `flushDirectives` writes for the pending run of a state. -/
def flushLines (s : State) : List Str :=
  s.directives.map
    (fun d => spaces s.indent ++ fmtDirective (flushWidth s.directives s.maxLength) d)

/-- The blank line written by `writeString` when `newlineStart` holds. -/
def sepLines (newlineStart : Bool) : List Str := if newlineStart then [[]] else []

/-- The text written for a comment line `l`: `# ` and the trimmed text after the `#`. -/
def commentText (l : Str) : Str := ['#', ' '] ++ TrimSpace (l.drop 1)

/-- A pending directive as the loop stores it: trimmed, on one line, of kind directive. -/
def IsDir (d : Str) : Prop := TrimSpace d = d ∧ '\n' ∉ d ∧ getType d = Kind.directive

/-- What holds of every state the loop reaches: the indent is not negative and the pending
run is made of directive lines. -/
def Good (s : State) : Prop := 0 ≤ s.indent ∧ ∀ d ∈ s.directives, IsDir d

/-- The text of a line after its leading indentation spaces does not begin with `#`. -/
def NoHash (l : Str) : Prop := (l.dropWhile (fun c => c == ' ')).head? ≠ some '#'

/-- Between two successive lines: an empty line is followed by a line that ends with
`{`. -/
def SepRel (a b : Str) : Prop := a = [] → b.getLast? = some '{'

/-- The shape of the output lines in minify mode: every line is free of newlines and of
a leading `#`, the first and the last line are not empty, and an empty line is followed
by a line that ends with `{`. -/
def LinesOk (ls : List Str) : Prop :=
  (∀ l ∈ ls, '\n' ∉ l ∧ NoHash l) ∧ ls.head? ≠ some [] ∧ ls.getLast? ≠ some [] ∧
    ls.Chain' SepRel

/-- The invariant of the loop in minify mode. -/
def MinifyInv (s : State) : Prop :=
  Good s ∧ ∃ ls : List Str, s.buf = render ls ∧ LinesOk ls ∧
    (s.started = false → ls = [] ∧ s.directives = []) ∧
    (s.started = true → ls ≠ [] ∨ s.directives ≠ [])

/-- The kind of a line as the loop reads it. -/
def kindOf (raw : Str) : Kind := getType (TrimSpace raw)

/-- The kinds of the lines of an input, in order. -/
def lineKinds (input : Str) : List Kind := (readLines [] input).map kindOf

/-- Well-formed nesting: no prefix of the lines has more block_end than block_start lines,
and the input has as many block_start as block_end lines. -/
def wellFormed (ks : List Kind) : Bool :=
  (List.range (ks.length + 1)).all
      (fun i => decide ((ks.take i).count Kind.block_end ≤ (ks.take i).count Kind.block_start))
    && decide (ks.count Kind.block_start = ks.count Kind.block_end)

/-- The nesting depth of line `i`: the number of block_start lines minus the number of
block_end lines before it, a block_end line counting itself. -/
def depthOf (ks : List Kind) (i : Nat) : Nat :=
  (ks.take i).count Kind.block_start -
    (ks.take (if ks[i]? = some Kind.block_end then i + 1 else i)).count Kind.block_end

/-- The kinds of line at which the loop flushes the pending run. -/
def flushes (minify : Bool) (k : Kind) : Bool :=
  k = Kind.block_start || k = Kind.block_end ||
    (!minify && (k = Kind.comment || k = Kind.newline))

/-- Whether line `i` of the input reaches the output: a comment unless minify is on, a
block_start, a block_end, and a directive that is followed by a line that flushes. -/
def emittedAt (minify : Bool) (ks : List Kind) (i : Nat) : Bool :=
  match ks[i]? with
  | some Kind.comment => !minify
  | some Kind.block_start => true
  | some Kind.block_end => true
  | some Kind.directive => (ks.drop (i + 1)).any (flushes minify)
  | _ => false

/-- A line made of exactly `2 * d` spaces followed by a character that is not white
space. -/
def Indented (line : Str) (d : Nat) : Prop :=
  ∃ c t, line = List.replicate (2 * d) ' ' ++ c :: t ∧ isSpace c = false

/-- The depths of the lines that reach the output, computed along the lines from the
depth `d` of the first one. -/
def emittedDepths (minify : Bool) : Nat → List Kind → List Nat
  | _, [] => []
  | d, Kind.comment :: ks => (if minify then [] else [d]) ++ emittedDepths minify d ks
  | d, Kind.block_start :: ks => d :: emittedDepths minify (d + 1) ks
  | d, Kind.block_end :: ks => (d - 1) :: emittedDepths minify (d - 1) ks
  | d, Kind.newline :: ks => emittedDepths minify d ks
  | d, Kind.directive :: ks =>
    (if ks.any (flushes minify) then [d] else []) ++ emittedDepths minify d ks

/-- Following, in a pass with minify off, the directives that blank lines flush: whether,
after a line of kind `k` read with pending run `D`, directives that a blank line has
flushed are the last lines written (`o` tells it before the line). A blank line that
flushes a run opens such a group; a comment, block_start or block_end line closes it. -/
def nextOpen (o : Bool) (D : List Str) : Kind → Bool
  | Kind.directive => o
  | Kind.newline => o || !D.isEmpty
  | _ => false

/-- Whether, after a line of kind `k` read with pending run `D`, an alignable directive
is among the directives that blank lines have flushed and that are the last lines written
(`g` tells it before the line). -/
def nextAligned (g : Bool) (D : List Str) : Kind → Bool
  | Kind.directive => g
  | Kind.newline => g || D.any alignable
  | _ => false

/-- The carried width `maxLength` after a line of kind `k` read, with minify off, at
carried width `w` and pending run `D`. -/
def nextWidth (w : Int) (D : List Str) : Kind → Int
  | Kind.directive => w
  | Kind.newline => flushWidth D w
  | Kind.comment => flushWidth D w
  | _ => 0

/-- The pending run after the line `raw` read, with minify off, with pending run `D`. -/
def nextPending (D : List Str) (raw : Str) : List Str :=
  if kindOf raw = Kind.directive then D ++ [TrimSpace raw] else []

/-- The runs that blank lines flush are stable, along the lines still to read, `w` being
the carried width and `D` the pending run: once a blank line has flushed an alignable
directive (`g`), every flush up to and including the one of the next comment, block_start
or block_end line leaves the carried width as it is; and the input does not end while
directives flushed by a blank line are the last lines written (`o`). -/
def runsStable : Bool → Bool → Int → List Str → List Str → Bool
  | o, _, _, _, [] => !o
  | o, g, w, D, raw :: rest =>
    (decide (kindOf raw = Kind.directive) || !g || decide (flushWidth D w = w)) &&
      runsStable (nextOpen o D (kindOf raw)) (nextAligned g D (kindOf raw))
        (nextWidth w D (kindOf raw)) (nextPending D raw) rest

/-- The relation between the state `s1` of a pass after some lines and the state `s2` of
a second pass that has read the buffer of `s1`; `o` and `g` follow the directives that
blank lines have flushed, which are pending in the second pass. -/
structure Sim (m o g : Bool) (s1 s2 : State) : Prop where
  good : Good s1
  indent : s2.indent = s1.indent
  flush : flushDirectives s2.buf s2.directives s2.indent s2.maxLength
    = some (s1.buf, s1.maxLength)
  pending : s2.directives ≠ [] → m = false ∧ o = true
  aligned : ∀ d ∈ s2.directives, alignable d = true → g = true
  prevComment : s1.prevType = some Kind.comment → s2.prevType = some Kind.comment
  prevBlock : s1.prevType = some Kind.block_start → s2.prevType = some Kind.block_start
  minifyPrev : m = true → s2.prevType ≠ some Kind.comment
  notStarted : s1.started = false →
    s1.directives = [] ∧ s2.started = false ∧ s2.directives = []
  started : s1.started = true → s2.started = true ∨ s1.directives ≠ []
  prevDirective : s1.directives ≠ [] → s1.prevType = some Kind.directive
  good2 : Good s2
  openPending : m = false → o = true → s2.directives ≠ []
  alignedPending : m = false → g = true → ∃ d ∈ s2.directives, alignable d = true

/-- The lines that minify drops: those whose trimmed form is a comment or is blank. -/
def dropped (raw : Str) : Bool :=
  decide (kindOf raw = Kind.comment) || decide (kindOf raw = Kind.newline)

/-- The output line of a directive of a run flushed at indent `n` and width `W`. -/
def directiveLine (n W : Int) (d : Str) : Str :=
  if alignable d = true then alignedLine n W d else verbatimLine n d

/-- The nesting depth never goes negative: no prefix of the lines has more block_end than
block_start lines. -/
def neverNegative (ks : List Kind) : Bool :=
  (List.range (ks.length + 1)).all
    (fun i => decide ((ks.take i).count Kind.block_end ≤ (ks.take i).count Kind.block_start))

/-- Between two successive lines of the output: an empty line is followed by a comment
line or a block_start line. -/
def SepFollow (a b : Str) : Prop :=
  a = [] → kindOf b = Kind.comment ∨ kindOf b = Kind.block_start

/-- The shape of the output lines in both modes: every line is free of newlines, the last
line is not empty, and an empty line is followed by a comment or a block_start line. -/
def LinesSep (ls : List Str) : Prop :=
  (∀ l ∈ ls, '\n' ∉ l) ∧ ls.getLast? ≠ some [] ∧ ls.Chain' SepFollow

/-- The invariant of the loop on the lines of the buffer. -/
def OutInv (s : State) : Prop := Good s ∧ ∃ ls : List Str, s.buf = render ls ∧ LinesSep ls

/-- A text without its white space: the characters `strings.TrimSpace` removes, the newline
among them, are deleted wherever they stand. -/
def strip (s : Str) : Str := s.filter (fun c => !isSpace c)

/-! ## Properties -/

/-! ### `TrimSpace` -/

theorem rdropWhile_cons_of_neg {p : Char → Bool} {c : Char} (h : p c = false) (l : Str) :
    (c :: l).rdropWhile p = c :: l.rdropWhile p := by
  induction l using List.reverseRecOn with
  | nil => simp [List.rdropWhile_singleton, h]
  | append_singleton l x ih =>
    rw [← List.cons_append, List.rdropWhile_concat, List.rdropWhile_concat, ih]
    split_ifs <;> rfl

theorem TrimSpace_nil : TrimSpace [] = [] := rfl

theorem TrimSpace_cons_space {c : Char} (h : isSpace c = true) (l : Str) :
    TrimSpace (c :: l) = TrimSpace l := by
  simp [TrimSpace, List.dropWhile, h]

theorem TrimSpace_cons_of_neg {c : Char} (h : isSpace c = false) (l : Str) :
    TrimSpace (c :: l) = c :: l.rdropWhile isSpace := by
  simp [TrimSpace, List.dropWhile, h, rdropWhile_cons_of_neg h]

theorem TrimSpace_concat_space {c : Char} (h : isSpace c = true) (l : Str) :
    TrimSpace (l ++ [c]) = TrimSpace l := by
  induction l with
  | nil => simp [TrimSpace, List.dropWhile, h]
  | cons x l ih =>
    cases hx : isSpace x
    · rw [List.cons_append, TrimSpace_cons_of_neg hx, TrimSpace_cons_of_neg hx,
        List.rdropWhile_concat_pos _ _ _ h]
    · rw [List.cons_append, TrimSpace_cons_space hx, TrimSpace_cons_space hx, ih]

theorem TrimSpace_spaces_append {a : Str} (ha : ∀ c ∈ a, isSpace c = true) (l : Str) :
    TrimSpace (a ++ l) = TrimSpace l := by
  induction a with
  | nil => rfl
  | cons x a ih =>
    rw [List.cons_append, TrimSpace_cons_space (ha x (List.mem_cons_self _ _)),
      ih (fun c hc => ha c (List.mem_cons_of_mem _ hc))]

theorem TrimSpace_append_spaces {b : Str} (hb : ∀ c ∈ b, isSpace c = true) (l : Str) :
    TrimSpace (l ++ b) = TrimSpace l := by
  induction b using List.reverseRecOn with
  | nil => simp
  | append_singleton b x ih =>
    rw [← List.append_assoc, TrimSpace_concat_space (hb x (by simp)),
      ih (fun c hc => hb c (by simp [hc]))]

theorem mem_of_mem_TrimSpace {c : Char} {s : Str} (h : c ∈ TrimSpace s) : c ∈ s :=
  (List.dropWhile_suffix isSpace).subset
    ((List.rdropWhile_prefix isSpace (s.dropWhile isSpace)).subset h)

/-- A text without white space at either end. -/
theorem TrimSpace_eq_self_of {l : Str} (h1 : ∀ c, l.head? = some c → isSpace c = false)
    (h2 : ∀ c, l.getLast? = some c → isSpace c = false) : TrimSpace l = l := by
  cases l with
  | nil => rfl
  | cons c t =>
    rw [TrimSpace_cons_of_neg (h1 c rfl), ← rdropWhile_cons_of_neg (h1 c rfl),
      List.rdropWhile_eq_self_iff]
    intro hl
    have := h2 ((c :: t).getLast hl) (List.getLast?_eq_getLast _ hl)
    simp [this]

theorem head_TrimSpace (s : Str) : ∀ c, (TrimSpace s).head? = some c → isSpace c = false := by
  induction s with
  | nil => intro c h; simp [TrimSpace_nil] at h
  | cons x s ih =>
    cases hx : isSpace x
    · intro c h
      rw [TrimSpace_cons_of_neg hx] at h
      simp at h
      exact h ▸ hx
    · rw [TrimSpace_cons_space hx]
      exact ih

theorem getLast_TrimSpace (s : Str) :
    ∀ c, (TrimSpace s).getLast? = some c → isSpace c = false := by
  intro c h
  have hne : (s.dropWhile isSpace).rdropWhile isSpace ≠ [] := by
    intro h0
    rw [TrimSpace, h0] at h
    simp at h
  have := List.rdropWhile_last_not isSpace (s.dropWhile isSpace) hne
  rw [TrimSpace, List.getLast?_eq_getLast _ hne] at h
  simp only [Option.some.injEq] at h
  rw [h] at this
  simpa using this

theorem TrimSpace_idem (s : Str) : TrimSpace (TrimSpace s) = TrimSpace s :=
  TrimSpace_eq_self_of (head_TrimSpace s) (getLast_TrimSpace s)

/-! ### Reading and rendering lines -/

theorem render_nil : render [] = [] := rfl

theorem render_append (a b : List Str) : render (a ++ b) = render a ++ render b := by
  simp [render]

theorem render_cons (a : Str) (b : List Str) : render (a :: b) = a ++ '\n' :: render b := by
  simp [render]


theorem readLines_line (acc l rest : Str) (hl : '\n' ∉ l) :
    readLines acc (l ++ '\n' :: rest) = (acc ++ l ++ ['\n']) :: readLines [] rest := by
  induction l generalizing acc with
  | nil => simp [readLines]
  | cons c l ih =>
    have hc : c ≠ '\n' := fun h => hl (h ▸ List.mem_cons_self _ _)
    have hl' : '\n' ∉ l := fun h => hl (List.mem_cons_of_mem _ h)
    rw [List.cons_append, readLines, if_neg hc, ih _ hl']
    simp

theorem readLines_render (ls : List Str) (h : ∀ l ∈ ls, '\n' ∉ l) :
    readLines [] (render ls) = ls.map (fun l => l ++ ['\n']) := by
  induction ls with
  | nil => rfl
  | cons l ls ih =>
    rw [render_cons, readLines_line _ _ _ (h l (List.mem_cons_self _ _)),
      ih (fun x hx => h x (List.mem_cons_of_mem _ hx))]
    simp

theorem readLines_mem {raw acc x : Str} (h : raw ∈ readLines acc x) (hacc : '\n' ∉ acc) :
    ∃ a, raw = a ++ ['\n'] ∧ '\n' ∉ a := by
  induction x generalizing acc with
  | nil => simp [readLines] at h
  | cons c x ih =>
    rw [readLines] at h
    by_cases hc : c = '\n'
    · rw [if_pos hc] at h
      rcases List.mem_cons.1 h with h | h
      · exact ⟨acc, by rw [h, hc], hacc⟩
      · exact ih h (by simp)
    · rw [if_neg hc] at h
      refine ih h ?_
      intro hm
      rcases List.mem_append.1 hm with hm | hm
      · exact hacc hm
      · simp at hm
        exact hc hm.symm

theorem isSpace_newline : isSpace '\n' = true := by decide

theorem isSpace_space : isSpace ' ' = true := by decide

theorem spaces_isSpace (n : Int) : ∀ c ∈ spaces n, isSpace c = true := by
  intro c hc
  rw [spaces, List.mem_replicate] at hc
  rw [hc.2]
  exact isSpace_space

/-- Every line the loop reads is, once trimmed, free of newlines. -/
theorem readLines_noNewline {raw x : Str} (h : raw ∈ readLines [] x) :
    '\n' ∉ TrimSpace raw := by
  obtain ⟨a, rfl, ha⟩ := readLines_mem h (by simp)
  rw [TrimSpace_concat_space isSpace_newline]
  exact fun hm => ha (mem_of_mem_TrimSpace hm)

theorem render_eq_intercalate (ls : List Str) :
    render ls = ['\n'].intercalate (ls ++ [[]]) := by
  induction ls with
  | nil => rfl
  | cons l ls ih =>
    rw [render_cons, ih]
    cases ls <;> simp [List.intercalate, List.intersperse]

theorem outLines_render (ls : List Str) (h : ∀ l ∈ ls, '\n' ∉ l) : outLines (render ls) = ls := by
  rw [outLines, render_eq_intercalate, List.splitOn_intercalate]
  · simp
  · intro l hl
    rcases List.mem_append.1 hl with hl | hl
    · exact h l hl
    · simp at hl
      simp [hl]
  · simp

/-! ### Classification -/

theorem isComment_iff (l : Str) : isComment l = true ↔ l.head? = some '#' := by
  cases l with
  | nil => simp [isComment, List.isPrefixOf]
  | cons c cs =>
    simp only [isComment, List.isPrefixOf, List.head?_cons, Option.some.injEq, Bool.and_true,
      beq_iff_eq]
    exact eq_comm

theorem isBlockStart_iff (l : Str) : isBlockStart l = true ↔ l.getLast? = some '{' := by
  unfold isBlockStart
  rw [List.isSuffixOf_iff_suffix, List.getLast?_eq_some_iff]
  constructor
  · rintro ⟨t, rfl⟩
    exact ⟨t, rfl⟩
  · rintro ⟨t, rfl⟩
    exact ⟨t, rfl⟩

theorem getType_eq (l : Str) :
    getType l =
      if l.head? = some '#' then Kind.comment
      else if l.getLast? = some '{' then Kind.block_start
      else if l = ['}'] then Kind.block_end
      else if l = [] then Kind.newline
      else Kind.directive := by
  have h1 := isComment_iff l
  have h2 := isBlockStart_iff l
  unfold getType
  by_cases c1 : l.head? = some '#'
  · simp [c1, h1.2 c1]
  · have : isComment l = false := by
      cases h : isComment l
      · rfl
      · exact absurd (h1.1 h) c1
    by_cases c2 : l.getLast? = some '{'
    · simp [c1, this, c2, h2.2 c2]
    · have h2' : isBlockStart l = false := by
        cases h : isBlockStart l
        · rfl
        · exact absurd (h2.1 h) c2
      simp [c1, this, c2, h2', isBlockEnd, isNewLine]

theorem getType_comment_iff (l : Str) : getType l = Kind.comment ↔ l.head? = some '#' := by
  rw [getType_eq]
  split_ifs <;> simp_all

theorem getType_block_start_iff (l : Str) :
    getType l = Kind.block_start ↔ l.head? ≠ some '#' ∧ l.getLast? = some '{' := by
  rw [getType_eq]
  split_ifs <;> simp_all

theorem getType_block_end_iff (l : Str) : getType l = Kind.block_end ↔ l = ['}'] := by
  rw [getType_eq]
  split_ifs with h1 h2 h3 h4
  · simp only [reduceCtorEq, false_iff]
    rintro rfl
    simp at h1
  · simp only [reduceCtorEq, false_iff]
    rintro rfl
    simp at h2
  · simp [h3]
  · simp [h3]
  · simp [h3]

theorem getType_newline_iff (l : Str) : getType l = Kind.newline ↔ l = [] := by
  rw [getType_eq]
  split_ifs with h1 h2 h3 h4
  · simp only [reduceCtorEq, false_iff]
    rintro rfl
    simp at h1
  · simp only [reduceCtorEq, false_iff]
    rintro rfl
    simp at h2
  · simp only [reduceCtorEq, false_iff]
    rintro rfl
    simp at h3
  · simp [h4]
  · simp [h4]

theorem getType_directive_iff (l : Str) :
    getType l = Kind.directive ↔
      l.head? ≠ some '#' ∧ l.getLast? ≠ some '{' ∧ l ≠ ['}'] ∧ l ≠ [] := by
  rw [getType_eq]
  split_ifs <;> simp_all

/-! ### Splitting a directive -/

theorem SplitN2_of_mem {d : Str} (h : ' ' ∈ d) : SplitN2 d = [firstToken d, afterToken d] := by
  unfold SplitN2 firstToken afterToken
  rw [List.span_eq_take_drop]
  have hne : d.dropWhile (fun c => c != ' ') ≠ [] := by
    rw [Ne, List.dropWhile_eq_nil_iff]
    intro hall
    have := hall ' ' h
    simp at this
  cases hd : d.dropWhile (fun c => c != ' ') with
  | nil => exact absurd hd hne
  | cons x t => simp

theorem SplitN2_of_not_mem {d : Str} (h : ' ' ∉ d) : SplitN2 d = [d] := by
  unfold SplitN2
  rw [List.span_eq_take_drop]
  have h1 : d.dropWhile (fun c => c != ' ') = [] := by
    rw [List.dropWhile_eq_nil_iff]
    intro x hx
    have : x ≠ ' ' := fun e => h (e ▸ hx)
    simpa using this
  have h2 : d.takeWhile (fun c => c != ' ') = d := by
    have := List.takeWhile_append_dropWhile (fun c => c != ' ') d
    rw [h1, List.append_nil] at this
    exact this
  rw [h1, h2]

theorem isWordChar_eq (c : Char) : isWordChar c = (c.isAlpha || c == '_') := by
  simp only [isWordChar, Char.isAlpha, Char.isUpper, Char.isLower]
  have h1 : ('a' ≤ c) ↔ (c.val ≥ 97) := Iff.rfl
  have h2 : (c ≤ 'z') ↔ (c.val ≤ 122) := Iff.rfl
  have h3 : ('A' ≤ c) ↔ (c.val ≥ 65) := Iff.rfl
  have h4 : (c ≤ 'Z') ↔ (c.val ≤ 90) := Iff.rfl
  simp only [h1, h2, h3, h4, beq_iff_eq, Bool.decide_eq_true, ← Bool.decide_and, Bool.decide_or]
  cases decide (c.val ≥ 97 ∧ c.val ≤ 122) <;> cases decide (c.val ≥ 65 ∧ c.val ≤ 90) <;>
    cases hc : (c == '_') <;> simp_all

theorem isWordChar_utf8Size {c : Char} (h : isWordChar c = true) : c.utf8Size = 1 := by
  have h1 : ('a' ≤ c) ↔ (97 ≤ c.val.toNat) := Iff.rfl
  have h2 : (c ≤ 'z') ↔ (c.val.toNat ≤ 122) := Iff.rfl
  have h3 : ('A' ≤ c) ↔ (65 ≤ c.val.toNat) := Iff.rfl
  have h4 : (c ≤ 'Z') ↔ (c.val.toNat ≤ 90) := Iff.rfl
  simp only [isWordChar, Bool.or_eq_true, Bool.and_eq_true, decide_eq_true_eq, h1, h2, h3,
    h4] at h
  have : c.val.toNat ≤ 127 := by
    rcases h with (h | h) | h
    · omega
    · omega
    · rw [h]; decide
  have h5 : c.val ≤ 127 := this
  simp [Char.utf8Size, h5]

theorem isWordChar_not_space {c : Char} (h : isWordChar c = true) : isSpace c = false := by
  have h1 : ('a' ≤ c) ↔ (97 ≤ c.toNat) := Iff.rfl
  have h2 : (c ≤ 'z') ↔ (c.toNat ≤ 122) := Iff.rfl
  have h3 : ('A' ≤ c) ↔ (65 ≤ c.toNat) := Iff.rfl
  have h4 : (c ≤ 'Z') ↔ (c.toNat ≤ 90) := Iff.rfl
  simp only [isWordChar, Bool.or_eq_true, Bool.and_eq_true, decide_eq_true_eq, h1, h2, h3,
    h4] at h
  have : 65 ≤ c.toNat ∧ c.toNat ≤ 122 := by
    rcases h with (h | h) | h
    · omega
    · omega
    · rw [h]; decide
  simp only [isSpace, Bool.or_eq_false_iff, Bool.and_eq_false_imp, decide_eq_false_iff_not,
    decide_eq_true_eq]
  omega

theorem len_of_all_wordChar {s : Str} (h : s.all isWordChar = true) : len s = s.length := by
  unfold len
  congr 1
  induction s with
  | nil => rfl
  | cons c s ih =>
    simp only [List.all_cons, Bool.and_eq_true] at h
    simp only [List.map_cons, List.sum_cons, List.length_cons, isWordChar_utf8Size h.1, ih h.2]
    omega

theorem len_of_isWord {s : Str} (h : isWord s = true) : len s = s.length := by
  simp only [isWord, Bool.and_eq_true] at h
  exact len_of_all_wordChar h.2

theorem isWord_firstToken (d : Str) :
    isWord (firstToken d) = (!(firstToken d).isEmpty &&
      (firstToken d).all (fun c => c.isAlpha || c == '_')) := by
  unfold isWord
  congr 2
  funext c
  exact isWordChar_eq c

theorem alignable_iff (d : Str) :
    ((SplitN2 d).length = 2 ∧ isWord ((SplitN2 d).headD []) = true) ↔ alignable d = true := by
  by_cases h : ' ' ∈ d
  · rw [SplitN2_of_mem h]
    simp [alignable, h, isWord_firstToken]
  · rw [SplitN2_of_not_mem h]
    simp [alignable, h]

theorem alignable_iff_ne_one (d : Str) :
    ((SplitN2 d).length ≠ 1 ∧ isWord ((SplitN2 d).headD []) = true) ↔ alignable d = true := by
  by_cases h : ' ' ∈ d
  · rw [SplitN2_of_mem h]
    simp [alignable, h, isWord_firstToken]
  · rw [SplitN2_of_not_mem h]
    simp [alignable, h]

theorem alignable_mem {d : Str} (h : alignable d = true) : ' ' ∈ d := by
  simp only [alignable, Bool.and_eq_true, decide_eq_true_eq] at h
  exact h.1.1

theorem alignable_isWord {d : Str} (h : alignable d = true) : isWord (firstToken d) = true := by
  rw [isWord_firstToken]
  simp only [alignable, Bool.and_eq_true, decide_eq_true_eq] at h
  simp [h.1.2, h.2]

theorem times_space (n : Int) : times [' '] n = List.replicate n.toNat ' ' := by
  unfold times
  by_cases h : n ≤ 0
  · rw [if_pos h, Int.toNat_eq_zero.2 h]
    rfl
  · rw [if_neg h]
    generalize n.toNat = k
    induction k with
    | zero => rfl
    | succ k ih => rw [List.replicate_succ, List.flatten_cons, ih, List.replicate_succ]; rfl

theorem fmtDirective_of_alignable (W : Int) {d : Str} (h : alignable d = true) :
    fmtDirective W d = firstToken d ++ List.replicate (W - (firstToken d).length).toNat ' ' ++
      [' '] ++ TrimSpace (afterToken d) := by
  rw [fmtDirective, if_pos ((alignable_iff d).2 h), SplitN2_of_mem (alignable_mem h)]
  simp only [List.headD_cons, rightPad, times_space, len_of_isWord (alignable_isWord h)]
  rfl

theorem fmtDirective_of_not_alignable (W : Int) {d : Str} (h : alignable d = false) :
    fmtDirective W d = d := by
  rw [fmtDirective, if_neg]
  rw [alignable_iff, h]
  simp

theorem flushWidth_eq (ds : List Str) (w : Int) : flushWidth ds w = alignWidth w ds := by
  induction ds generalizing w with
  | nil => rfl
  | cons d ds ih =>
    rw [flushWidth]
    cases h : alignable d
    · rw [if_neg (by rw [alignable_iff_ne_one, h]; simp), ih]
      simp [alignWidth, h]
    · rw [if_pos ((alignable_iff_ne_one d).2 h), ih, SplitN2_of_mem (alignable_mem h)]
      simp only [List.headD_cons, len_of_isWord (alignable_isWord h), alignWidth,
        List.filter_cons, h, if_true, List.map_cons, List.foldl_cons]
      congr 1
      unfold max
      split_ifs with c
      · exact (max_eq_right (le_of_lt c)).symm
      · exact (max_eq_left (not_lt.1 c)).symm

/-! ### Writing lines -/

theorem Repeat_of_nonneg {n : Int} (h : 0 ≤ n) : Repeat [' ', ' '] n = some (spaces n) := by
  have : ¬ n < 0 := not_lt.mpr h
  simp only [Repeat, this, if_false, spaces, Option.some.injEq]
  generalize n.toNat = k
  induction k with
  | zero => rfl
  | succ k ih =>
    rw [List.replicate_succ, List.flatten_cons, ih, Nat.mul_succ, List.replicate_add]
    rw [← List.replicate_add, Nat.add_comm, List.replicate_add]
    rfl

theorem Repeat_of_neg {n : Int} (h : n < 0) : Repeat [' ', ' '] n = none := by
  simp [Repeat, h]

theorem writeString_of_nonneg (buf str : Str) {indent : Int} (h : 0 ≤ indent) (b : Bool) :
    writeString buf str indent b true
      = some (buf ++ render ((if b then [[]] else []) ++ [spaces indent ++ str])) := by
  cases b <;> simp [writeString, Repeat_of_nonneg h, render]

theorem writeString_of_neg (buf str : Str) {indent : Int} (h : indent < 0) (b c : Bool) :
    writeString buf str indent b c = none := by
  simp [writeString, Repeat_of_neg h]

theorem flushWrite_cons (W indent : Int) (d : Str) (ds : List Str) (buf : Str) :
    flushWrite W indent (d :: ds) buf
      = (writeString buf (fmtDirective W d) indent false true).bind (flushWrite W indent ds) := by
  rw [flushWrite, fmtDirective]
  by_cases c : (SplitN2 d).length = 2 ∧ isWord ((SplitN2 d).headD []) = true
  · rw [if_pos c, if_pos c]
    dsimp only
    cases writeString buf (rightPad ((SplitN2 d).headD []) W [' '] ++ [' '] ++
      TrimSpace ((SplitN2 d).getD 1 [])) indent false true <;> rfl
  · rw [if_neg c, if_neg c]
    cases writeString buf d indent false true <;> rfl

theorem flushWrite_of_nonneg (W : Int) {indent : Int} (h : 0 ≤ indent) (ds : List Str)
    (buf : Str) :
    flushWrite W indent ds buf
      = some (buf ++ render (ds.map (fun d => spaces indent ++ fmtDirective W d))) := by
  induction ds generalizing buf with
  | nil => simp [flushWrite, render]
  | cons d ds ih =>
    rw [flushWrite_cons, writeString_of_nonneg _ _ h, Option.some_bind, ih, List.map_cons,
      render_cons, render_append]
    simp [render]

theorem flushWrite_nil (W indent : Int) (buf : Str) : flushWrite W indent [] buf = some buf :=
  rfl

theorem flushWrite_of_neg (W : Int) {indent : Int} (h : indent < 0) (d : Str) (ds : List Str)
    (buf : Str) : flushWrite W indent (d :: ds) buf = none := by
  rw [flushWrite_cons, writeString_of_neg _ _ h]
  rfl

theorem flushDirectives_of_nonneg (buf : Str) (ds : List Str) {indent : Int} (h : 0 ≤ indent)
    (w : Int) :
    flushDirectives buf ds indent w
      = some (buf ++ render (ds.map (fun d => spaces indent ++ fmtDirective (flushWidth ds w) d)),
          flushWidth ds w) := by
  simp [flushDirectives, flushWrite_of_nonneg _ h]

theorem flushDirectives_nil (buf : Str) (indent w : Int) :
    flushDirectives buf [] indent w = some (buf, w) := rfl

/-! ### One iteration of the loop, kind by kind -/

theorem step_skip {s : State} {raw : Str}
    (hk : getType (TrimSpace raw) = Kind.comment ∨ getType (TrimSpace raw) = Kind.newline) :
    step true s raw = some s := by
  unfold step
  rcases hk with hk | hk <;> simp [hk]

theorem step_directive (m : Bool) {s : State} {raw : Str}
    (hk : getType (TrimSpace raw) = Kind.directive) :
    step m s raw = some { s with directives := s.directives ++ [TrimSpace raw],
                                 prevType := some Kind.directive, started := true } := by
  unfold step
  simp [hk]

theorem step_newline {s : State} {raw : Str} (hk : getType (TrimSpace raw) = Kind.newline) :
    step false s raw
      = (flushDirectives s.buf s.directives s.indent s.maxLength).map
          (fun r => { s with buf := r.1, maxLength := r.2, directives := [],
                             prevType := some Kind.newline }) := by
  unfold step
  simp only [hk]
  cases flushDirectives s.buf s.directives s.indent s.maxLength <;> simp

theorem step_comment {s : State} {raw : Str} (hk : getType (TrimSpace raw) = Kind.comment) :
    step false s raw
      = (flushDirectives s.buf s.directives s.indent s.maxLength).bind (fun r =>
          (writeString r.1 (['#', ' '] ++ TrimSpace ((TrimSpace raw).drop 1)) s.indent
              (decide (s.prevType ≠ some Kind.comment ∧ s.prevType ≠ some Kind.block_start))
              true).map
            (fun b => { s with buf := b, maxLength := r.2, directives := [],
                               prevType := some Kind.comment, started := true })) := by
  unfold step
  simp only [hk]
  generalize flushDirectives s.buf s.directives s.indent s.maxLength = F
  rcases F with _ | ⟨b, w⟩
  · simp
  · simp only [Bool.false_and, Bool.false_eq_true, if_false, ne_eq, reduceCtorEq,
      not_false_eq_true, if_true, Option.some_bind]
    generalize writeString b _ _ _ _ = Wr
    cases Wr <;> rfl

theorem step_block_start (m : Bool) {s : State} {raw : Str}
    (hk : getType (TrimSpace raw) = Kind.block_start) :
    step m s raw
      = (flushDirectives s.buf s.directives s.indent s.maxLength).bind (fun r =>
          (writeString r.1 (TrimSpace raw) s.indent
              (decide (s.prevType ≠ some Kind.comment ∧ s.started = true)) true).map
            (fun b => { s with buf := b, maxLength := 0, directives := [],
                               indent := s.indent + 1,
                               prevType := some Kind.block_start, started := true })) := by
  unfold step
  simp only [hk]
  generalize flushDirectives s.buf s.directives s.indent s.maxLength = F
  rcases F with _ | ⟨b, w⟩
  · simp
  · simp only [Bool.and_false, Bool.or_false, decide_False, Bool.false_eq_true, if_false, ne_eq,
      reduceCtorEq, not_false_eq_true, if_true, Option.some_bind]
    generalize writeString b _ _ _ _ = Wr
    cases Wr <;> rfl

theorem step_block_end (m : Bool) {s : State} {raw : Str}
    (hk : getType (TrimSpace raw) = Kind.block_end) :
    step m s raw
      = (flushDirectives s.buf s.directives s.indent s.maxLength).bind (fun r =>
          (writeString r.1 (TrimSpace raw) (s.indent - 1) false true).map
            (fun b => { s with buf := b, maxLength := 0, directives := [],
                               indent := s.indent - 1,
                               prevType := some Kind.block_end, started := true })) := by
  unfold step
  simp only [hk]
  generalize flushDirectives s.buf s.directives s.indent s.maxLength = F
  rcases F with _ | ⟨b, w⟩
  · simp
  · simp only [Bool.and_false, Bool.or_false, decide_False, Bool.false_eq_true, if_false, ne_eq,
      reduceCtorEq, not_false_eq_true, if_true, Option.some_bind]
    generalize writeString b _ _ _ _ = Wr
    cases Wr <;> rfl

theorem flushDirectives_state {s : State} (h : 0 ≤ s.indent) :
    flushDirectives s.buf s.directives s.indent s.maxLength
      = some (s.buf ++ render (flushLines s), flushWidth s.directives s.maxLength) :=
  flushDirectives_of_nonneg _ _ h _

theorem step_newline_eq {s : State} {raw : Str} (h : 0 ≤ s.indent)
    (hk : getType (TrimSpace raw) = Kind.newline) :
    step false s raw
      = some { s with buf := s.buf ++ render (flushLines s),
                      maxLength := flushWidth s.directives s.maxLength, directives := [],
                      prevType := some Kind.newline } := by
  rw [step_newline hk, flushDirectives_state h]
  rfl

theorem step_comment_eq {s : State} {raw : Str} (h : 0 ≤ s.indent)
    (hk : getType (TrimSpace raw) = Kind.comment) :
    step false s raw
      = some { s with
          buf := s.buf ++ render (flushLines s ++
            sepLines (decide (s.prevType ≠ some Kind.comment ∧
              s.prevType ≠ some Kind.block_start)) ++
            [spaces s.indent ++ commentText (TrimSpace raw)]),
          maxLength := flushWidth s.directives s.maxLength, directives := [],
          prevType := some Kind.comment, started := true } := by
  rw [step_comment hk, flushDirectives_state h, Option.some_bind, writeString_of_nonneg _ _ h]
  simp only [Option.map_some', render_append, List.append_assoc, sepLines, commentText]

theorem step_block_start_eq (m : Bool) {s : State} {raw : Str} (h : 0 ≤ s.indent)
    (hk : getType (TrimSpace raw) = Kind.block_start) :
    step m s raw
      = some { s with
          buf := s.buf ++ render (flushLines s ++
            sepLines (decide (s.prevType ≠ some Kind.comment ∧ s.started = true)) ++
            [spaces s.indent ++ TrimSpace raw]),
          maxLength := 0, directives := [], indent := s.indent + 1,
          prevType := some Kind.block_start, started := true } := by
  rw [step_block_start m hk, flushDirectives_state h, Option.some_bind,
    writeString_of_nonneg _ _ h]
  simp only [Option.map_some', render_append, List.append_assoc, sepLines]

theorem step_block_end_eq (m : Bool) {s : State} {raw : Str} (h : 1 ≤ s.indent)
    (hk : getType (TrimSpace raw) = Kind.block_end) :
    step m s raw
      = some { s with
          buf := s.buf ++ render (flushLines s ++ [spaces (s.indent - 1) ++ TrimSpace raw]),
          maxLength := 0, directives := [], indent := s.indent - 1,
          prevType := some Kind.block_end, started := true } := by
  rw [step_block_end m hk, flushDirectives_state (by omega), Option.some_bind,
    writeString_of_nonneg _ _ (by omega)]
  simp only [Option.map_some', render_append, List.append_assoc]
  simp [render_nil]

theorem step_block_end_none (m : Bool) {s : State} {raw : Str} (h : s.indent < 1)
    (hk : getType (TrimSpace raw) = Kind.block_end) : step m s raw = none := by
  rw [step_block_end m hk]
  cases flushDirectives s.buf s.directives s.indent s.maxLength with
  | none => rfl
  | some r => rw [Option.some_bind, writeString_of_neg _ _ (by omega)]; rfl

/-- The possible outcomes of one iteration of the loop from a state of non-negative
indent. -/
theorem step_cases {m : Bool} {s s' : State} {raw : Str} (hi : 0 ≤ s.indent)
    (h : step m s raw = some s') :
    (m = true ∧ (getType (TrimSpace raw) = Kind.comment ∨
        getType (TrimSpace raw) = Kind.newline) ∧ s' = s) ∨
    (getType (TrimSpace raw) = Kind.directive ∧
      s' = { s with directives := s.directives ++ [TrimSpace raw],
                    prevType := some Kind.directive, started := true }) ∨
    (m = false ∧ getType (TrimSpace raw) = Kind.newline ∧
      s' = { s with buf := s.buf ++ render (flushLines s),
                    maxLength := flushWidth s.directives s.maxLength, directives := [],
                    prevType := some Kind.newline }) ∨
    (m = false ∧ getType (TrimSpace raw) = Kind.comment ∧
      s' = { s with
          buf := s.buf ++ render (flushLines s ++
            sepLines (decide (s.prevType ≠ some Kind.comment ∧
              s.prevType ≠ some Kind.block_start)) ++
            [spaces s.indent ++ commentText (TrimSpace raw)]),
          maxLength := flushWidth s.directives s.maxLength, directives := [],
          prevType := some Kind.comment, started := true }) ∨
    (getType (TrimSpace raw) = Kind.block_start ∧
      s' = { s with
          buf := s.buf ++ render (flushLines s ++
            sepLines (decide (s.prevType ≠ some Kind.comment ∧ s.started = true)) ++
            [spaces s.indent ++ TrimSpace raw]),
          maxLength := 0, directives := [], indent := s.indent + 1,
          prevType := some Kind.block_start, started := true }) ∨
    (getType (TrimSpace raw) = Kind.block_end ∧ 1 ≤ s.indent ∧
      s' = { s with
          buf := s.buf ++ render (flushLines s ++ [spaces (s.indent - 1) ++ TrimSpace raw]),
          maxLength := 0, directives := [], indent := s.indent - 1,
          prevType := some Kind.block_end, started := true }) := by
  cases hk : getType (TrimSpace raw) with
  | comment =>
    cases m with
    | true =>
      rw [step_skip (Or.inl hk)] at h
      exact Or.inl ⟨rfl, Or.inl rfl, (Option.some.inj h).symm⟩
    | false =>
      rw [step_comment_eq hi hk] at h
      exact Or.inr (Or.inr (Or.inr (Or.inl ⟨rfl, rfl, (Option.some.inj h).symm⟩)))
  | block_start =>
    rw [step_block_start_eq m hi hk] at h
    exact Or.inr (Or.inr (Or.inr (Or.inr (Or.inl ⟨rfl, (Option.some.inj h).symm⟩))))
  | block_end =>
    by_cases h1 : 1 ≤ s.indent
    · rw [step_block_end_eq m h1 hk] at h
      exact Or.inr (Or.inr (Or.inr (Or.inr (Or.inr ⟨rfl, h1, (Option.some.inj h).symm⟩))))
    · rw [step_block_end_none m (by omega) hk] at h
      exact absurd h (by simp)
  | newline =>
    cases m with
    | true =>
      rw [step_skip (Or.inr hk)] at h
      exact Or.inl ⟨rfl, Or.inr rfl, (Option.some.inj h).symm⟩
    | false =>
      rw [step_newline_eq hi hk] at h
      exact Or.inr (Or.inr (Or.inl ⟨rfl, rfl, (Option.some.inj h).symm⟩))
  | directive =>
    rw [step_directive m hk] at h
    exact Or.inr (Or.inl ⟨rfl, (Option.some.inj h).symm⟩)

theorem le_foldl_max (l : List Int) (w : Int) :
    w ≤ l.foldl Max.max w ∧ ∀ x ∈ l, x ≤ l.foldl Max.max w := by
  induction l generalizing w with
  | nil => simp
  | cons a l ih =>
    rw [List.foldl_cons]
    refine ⟨le_trans (le_max_left w a) (ih _).1, ?_⟩
    intro x hx
    rcases List.mem_cons.1 hx with rfl | hx
    · exact le_trans (le_max_right w x) (ih _).1
    · exact (ih _).2 x hx

theorem le_alignWidth (w : Int) (ds : List Str) : w ≤ alignWidth w ds :=
  (le_foldl_max _ w).1

theorem length_le_alignWidth (w : Int) {ds : List Str} {d : Str} (hd : d ∈ ds)
    (ha : alignable d = true) : ((firstToken d).length : Int) ≤ alignWidth w ds := by
  refine (le_foldl_max _ w).2 _ ?_
  exact List.mem_map.2 ⟨d, List.mem_filter.2 ⟨hd, ha⟩, rfl⟩

theorem render_map_eq (n W : Int) (ds : List Str) :
    render (ds.map (fun d => spaces n ++ fmtDirective W d))
      = (ds.map (fun d => if alignable d = true then alignedLine n W d
                          else verbatimLine n d)).flatten := by
  unfold render
  rw [List.map_map]
  congr 1
  refine List.map_congr_left ?_
  intro d _
  cases h : alignable d
  · simp [fmtDirective_of_not_alignable W h, verbatimLine, spaces]
  · simp [fmtDirective_of_alignable W h, alignedLine, spaces]

/-! ### The lines the loop writes -/

theorem run_cons (m : Bool) (s : State) (raw : Str) (rest : List Str) :
    run m s (raw :: rest) = (step m s raw).bind (fun s' => run m s' rest) := by
  rw [run]
  cases step m s raw <;> rfl

theorem run_append (m : Bool) (s : State) (a b : List Str) :
    run m s (a ++ b) = (run m s a).bind (fun s' => run m s' b) := by
  induction a generalizing s with
  | nil => rfl
  | cons raw a ih =>
    rw [List.cons_append, run_cons, run_cons]
    cases step m s raw with
    | none => rfl
    | some s1 => simp only [Option.some_bind, ih]

/-- An invariant of the iterations is an invariant of the loop. -/
theorem run_invariant {P : State → Prop} {m : Bool}
    (hstep : ∀ s raw s', P s → '\n' ∉ TrimSpace raw → step m s raw = some s' → P s') :
    ∀ (ls : List Str) (s s' : State), (∀ raw ∈ ls, '\n' ∉ TrimSpace raw) → P s →
      run m s ls = some s' → P s' := by
  intro ls
  induction ls with
  | nil =>
    intro s s' _ hP h
    rw [run] at h
    exact Option.some.inj h ▸ hP
  | cons raw ls ih =>
    intro s s' hls hP h
    rw [run_cons] at h
    cases hs : step m s raw with
    | none => rw [hs] at h; exact absurd h (by simp)
    | some s1 =>
      rw [hs, Option.some_bind] at h
      exact ih s1 s' (fun r hr => hls r (List.mem_cons_of_mem _ hr))
        (hstep s raw s1 hP (hls raw (List.mem_cons_self _ _)) hs) h

theorem head_of_trimmed {l : Str} (h : TrimSpace l = l) (hne : l ≠ []) :
    ∃ c t, l = c :: t ∧ isSpace c = false := by
  cases l with
  | nil => exact absurd rfl hne
  | cons c t =>
    refine ⟨c, t, rfl, ?_⟩
    have := head_TrimSpace (c :: t) c
    rw [h] at this
    exact this rfl

theorem IsDir.head {d : Str} (h : IsDir d) :
    ∃ c t, d = c :: t ∧ isSpace c = false ∧ c ≠ '#' := by
  obtain ⟨h1, _, h3⟩ := h
  rw [getType_directive_iff] at h3
  obtain ⟨c, t, rfl, hc⟩ := head_of_trimmed h1 h3.2.2.2
  refine ⟨c, t, rfl, hc, ?_⟩
  rintro rfl
  exact h3.1 rfl

theorem ne_space_of_not_isSpace {c : Char} (h : isSpace c = false) : c ≠ ' ' := by
  rintro rfl
  simp [isSpace_space] at h

theorem firstToken_cons {c : Char} (h : c ≠ ' ') (t : Str) :
    firstToken (c :: t) = c :: firstToken t := by
  have : (c != ' ') = true := by simpa using h
  simp [firstToken, List.takeWhile_cons, this]

theorem fmtDirective_cons (W : Int) {c : Char} (hc : c ≠ ' ') (t : Str) :
    ∃ t', fmtDirective W (c :: t) = c :: t' := by
  cases h : alignable (c :: t)
  · exact ⟨t, fmtDirective_of_not_alignable W h⟩
  · rw [fmtDirective_of_alignable W h, firstToken_cons hc]
    exact ⟨_, rfl⟩

theorem mem_firstToken {c : Char} {d : Str} (h : c ∈ firstToken d) : c ∈ d :=
  (List.takeWhile_prefix _).subset h

theorem mem_afterToken {c : Char} {d : Str} (h : c ∈ afterToken d) : c ∈ d :=
  (List.dropWhile_suffix _).subset ((List.drop_suffix 1 _).subset h)

theorem fmtDirective_noNewline (W : Int) {d : Str} (h : '\n' ∉ d) :
    '\n' ∉ fmtDirective W d := by
  cases ha : alignable d
  · rw [fmtDirective_of_not_alignable W ha]
    exact h
  · rw [fmtDirective_of_alignable W ha]
    simp only [List.mem_append, List.mem_replicate, List.mem_singleton, not_or]
    refine ⟨⟨⟨fun hm => h (mem_firstToken hm), ?_⟩, by decide⟩,
      fun hm => h (mem_afterToken (mem_of_mem_TrimSpace hm))⟩
    rintro ⟨_, hh⟩
    exact absurd hh (by decide)

theorem spaces_noNewline (n : Int) : '\n' ∉ spaces n := by
  intro h
  rw [spaces, List.mem_replicate] at h
  exact absurd h.2 (by decide)

theorem dropWhile_spaces (n : Int) {c : Char} (hc : c ≠ ' ') (t : Str) :
    (spaces n ++ c :: t).dropWhile (fun c => c == ' ') = c :: t := by
  unfold spaces
  generalize 2 * n.toNat = k
  induction k with
  | zero =>
    have : (c == ' ') = false := by simpa using hc
    simp [List.dropWhile_cons, this]
  | succ k ih => simpa [List.replicate_succ, List.dropWhile_cons] using ih

theorem Good_init : Good State.init := ⟨le_refl _, by simp [State.init]⟩

theorem Good_step {m : Bool} {s s' : State} {raw : Str} (hg : Good s)
    (hraw : '\n' ∉ TrimSpace raw) (h : step m s raw = some s') : Good s' := by
  obtain ⟨hi, hd⟩ := hg
  rcases step_cases hi h with ⟨_, _, rfl⟩ | ⟨hk, rfl⟩ | ⟨_, _, rfl⟩ | ⟨_, _, rfl⟩ | ⟨_, rfl⟩ |
    ⟨_, h1, rfl⟩
  · exact ⟨hi, hd⟩
  · refine ⟨hi, ?_⟩
    intro d hm
    rcases List.mem_append.1 hm with hm | hm
    · exact hd d hm
    · rw [List.mem_singleton] at hm
      subst hm
      exact ⟨TrimSpace_idem raw, hraw, hk⟩
  · exact ⟨hi, by simp⟩
  · exact ⟨hi, by simp⟩
  · exact ⟨by show 0 ≤ s.indent + 1; omega, by simp⟩
  · exact ⟨by show 0 ≤ s.indent - 1; omega, by simp⟩

/-! ### The output lines in minify mode -/

theorem LinesOk_nil : LinesOk [] := by
  refine ⟨by simp, by simp, by simp, List.chain'_nil⟩

theorem LinesOk_snoc {ls : List Str} {f : Str} (h : LinesOk ls) (hne : f ≠ [])
    (hnl : '\n' ∉ f) (hh : NoHash f) : LinesOk (ls ++ [f]) := by
  obtain ⟨h1, h2, h3, h4⟩ := h
  refine ⟨?_, ?_, ?_, ?_⟩
  · intro l hl
    rcases List.mem_append.1 hl with hl | hl
    · exact h1 l hl
    · rw [List.mem_singleton] at hl
      subst hl
      exact ⟨hnl, hh⟩
  · cases ls with
    | nil => simpa using fun e => hne e
    | cons a ls => simpa using h2
  · rw [List.getLast?_concat]
    simpa using fun e => hne e
  · rw [List.chain'_append]
    refine ⟨h4, List.chain'_singleton _, ?_⟩
    intro x hx y _ hxe
    rw [Option.mem_def] at hx
    rw [hxe] at hx
    exact absurd hx h3

theorem LinesOk_append {ls fs : List Str} (h : LinesOk ls)
    (hf : ∀ f ∈ fs, f ≠ [] ∧ '\n' ∉ f ∧ NoHash f) : LinesOk (ls ++ fs) := by
  induction fs generalizing ls with
  | nil => simpa using h
  | cons f fs ih =>
    have hf1 := hf f (List.mem_cons_self _ _)
    have := ih (LinesOk_snoc h hf1.1 hf1.2.1 hf1.2.2)
      (fun g hg => hf g (List.mem_cons_of_mem _ hg))
    simpa using this

theorem NoHash_nil : NoHash [] := by simp [NoHash]

theorem LinesOk_sep {ls : List Str} {f : Str} (h : LinesOk ls) (hls : ls ≠ []) (hne : f ≠ [])
    (hnl : '\n' ∉ f) (hh : NoHash f) (hb : f.getLast? = some '{') :
    LinesOk (ls ++ [[], f]) := by
  obtain ⟨h1, h2, h3, h4⟩ := h
  refine ⟨?_, ?_, ?_, ?_⟩
  · intro l hl
    rcases List.mem_append.1 hl with hl | hl
    · exact h1 l hl
    · simp only [List.mem_cons, List.mem_singleton, List.not_mem_nil, or_false] at hl
      rcases hl with rfl | rfl
      · exact ⟨by simp, NoHash_nil⟩
      · exact ⟨hnl, hh⟩
  · cases ls with
    | nil => exact absurd rfl hls
    | cons a ls => simpa using h2
  · have : ls ++ [[], f] = (ls ++ [[]]) ++ [f] := by simp
    rw [this, List.getLast?_concat]
    simpa using fun e => hne e
  · rw [List.chain'_append]
    refine ⟨h4, ?_, ?_⟩
    · rw [List.chain'_cons]
      exact ⟨fun _ => hb, List.chain'_singleton _⟩
    · intro x hx y _ hxe
      rw [Option.mem_def] at hx
      rw [hxe] at hx
      exact absurd hx h3

theorem NoHash_spaces (n : Int) {c : Char} (hc : c ≠ ' ') (hh : c ≠ '#') (t : Str) :
    NoHash (spaces n ++ c :: t) := by
  rw [NoHash, dropWhile_spaces n hc]
  simpa using hh

theorem flushLines_ok {s : State} (hg : Good s) :
    ∀ f ∈ flushLines s, f ≠ [] ∧ '\n' ∉ f ∧ NoHash f := by
  intro f hf
  rw [flushLines, List.mem_map] at hf
  obtain ⟨d, hd, rfl⟩ := hf
  have hD := hg.2 d hd
  obtain ⟨c, t, rfl, hc, hh⟩ := hD.head
  obtain ⟨t', ht'⟩ := fmtDirective_cons (flushWidth s.directives s.maxLength)
    (ne_space_of_not_isSpace hc) t
  refine ⟨by simp [ht'], ?_, ?_⟩
  · intro hm
    rcases List.mem_append.1 hm with hm | hm
    · exact spaces_noNewline _ hm
    · exact fmtDirective_noNewline _ hD.2.1 hm
  · rw [ht']
    exact NoHash_spaces _ (ne_space_of_not_isSpace hc) hh t'

theorem block_start_line {l : Str} (n : Int) (ht : TrimSpace l = l) (hnl : '\n' ∉ l)
    (hk : getType l = Kind.block_start) :
    spaces n ++ l ≠ [] ∧ '\n' ∉ spaces n ++ l ∧ NoHash (spaces n ++ l) ∧
      (spaces n ++ l).getLast? = some '{' := by
  rw [getType_block_start_iff] at hk
  have hne : l ≠ [] := by
    rintro rfl
    simp at hk
  obtain ⟨c, t, rfl, hc⟩ := head_of_trimmed ht hne
  refine ⟨by simp, ?_, ?_, ?_⟩
  · intro hm
    rcases List.mem_append.1 hm with hm | hm
    · exact spaces_noNewline _ hm
    · exact hnl hm
  · refine NoHash_spaces n (ne_space_of_not_isSpace hc) ?_ t
    rintro rfl
    exact hk.1 rfl
  · rw [List.getLast?_append_of_ne_nil _ hne]
    exact hk.2

theorem block_end_line {l : Str} (n : Int) (hk : getType l = Kind.block_end) :
    spaces n ++ l ≠ [] ∧ '\n' ∉ spaces n ++ l ∧ NoHash (spaces n ++ l) := by
  rw [getType_block_end_iff] at hk
  subst hk
  refine ⟨by simp, ?_, NoHash_spaces n (by decide) (by decide) []⟩
  intro hm
  rcases List.mem_append.1 hm with hm | hm
  · exact spaces_noNewline _ hm
  · exact absurd hm (by decide)

theorem MinifyInv_init : MinifyInv State.init :=
  ⟨Good_init, [], rfl, LinesOk_nil, fun _ => ⟨rfl, rfl⟩, fun h => by simp [State.init] at h⟩

theorem MinifyInv_step {s s' : State} {raw : Str} (hinv : MinifyInv s)
    (hraw : '\n' ∉ TrimSpace raw) (h : step true s raw = some s') : MinifyInv s' := by
  obtain ⟨hg, ls, hbuf, hls, hst0, hst1⟩ := hinv
  refine ⟨Good_step hg hraw h, ?_⟩
  have hF := flushLines_ok hg
  rcases step_cases hg.1 h with ⟨_, _, rfl⟩ | ⟨hk, rfl⟩ | ⟨hm, _⟩ | ⟨hm, _⟩ | ⟨hk, rfl⟩ |
    ⟨hk, h1, rfl⟩
  · exact ⟨ls, hbuf, hls, hst0, hst1⟩
  · exact ⟨ls, hbuf, hls, fun hf => by simp at hf, fun _ => Or.inr (by simp)⟩
  · exact absurd hm (by simp)
  · exact absurd hm (by simp)
  · obtain ⟨b1, b2, b3, b4⟩ := block_start_line s.indent (TrimSpace_idem raw) hraw hk
    cases hs : s.started with
    | false =>
      obtain ⟨rfl, hd⟩ := hst0 hs
      refine ⟨[spaces s.indent ++ TrimSpace raw], ?_, ?_, fun hf => by simp at hf,
        fun _ => Or.inl (by simp)⟩
      · simp [hbuf, flushLines, hd, hs, sepLines, render_nil]
      · exact LinesOk_snoc LinesOk_nil b1 b2 b3
    | true =>
      have hne : ls ++ flushLines s ≠ [] := by
        rcases hst1 hs with h0 | h0
        · simp [h0]
        · simp [flushLines, h0]
      by_cases hp : s.prevType = some Kind.comment
      · refine ⟨(ls ++ flushLines s) ++ [spaces s.indent ++ TrimSpace raw], ?_, ?_,
          fun hf => by simp at hf, fun _ => Or.inl (by simp)⟩
        · simp [hbuf, hp, sepLines, render_append]
        · exact LinesOk_snoc (LinesOk_append hls hF) b1 b2 b3
      · refine ⟨(ls ++ flushLines s) ++ [[], spaces s.indent ++ TrimSpace raw], ?_, ?_,
          fun hf => by simp at hf, fun _ => Or.inl (by simp)⟩
        · simp [hbuf, hp, hs, sepLines, render_append]
        · exact LinesOk_sep (LinesOk_append hls hF) hne b1 b2 b3 b4
  · obtain ⟨b1, b2, b3⟩ := block_end_line (s.indent - 1) hk
    refine ⟨(ls ++ flushLines s) ++ [spaces (s.indent - 1) ++ TrimSpace raw], ?_, ?_,
      fun hf => by simp at hf, fun _ => Or.inl (by simp)⟩
    · simp [hbuf, render_append]
    · exact LinesOk_snoc (LinesOk_append hls hF) b1 b2 b3

/-- The output of a completed minify pass is a sequence of well-shaped lines. -/
theorem minify_lines {x out : Str} (h : fmtFile true x = some out) :
    ∃ ls, out = render ls ∧ LinesOk ls := by
  unfold fmtFile at h
  cases hr : run true State.init (readLines [] x) with
  | none => rw [hr] at h; exact absurd h (by simp)
  | some sf =>
    rw [hr] at h
    simp only [Option.map_some', Option.some.injEq] at h
    obtain ⟨_, ls, hbuf, hls, _⟩ :=
      run_invariant (P := MinifyInv) (fun s raw s' hP hraw hs => MinifyInv_step hP hraw hs)
        (readLines [] x) State.init sf (fun raw hr => readLines_noNewline hr) MinifyInv_init hr
    exact ⟨ls, by rw [← h, hbuf], hls⟩

theorem head_render_ne_newline {ls : List Str} (h1 : ∀ l ∈ ls, '\n' ∉ l)
    (h2 : ls.head? ≠ some []) : (render ls).head? ≠ some '\n' := by
  cases ls with
  | nil => simp [render_nil]
  | cons l ls =>
    cases l with
    | nil => simp at h2
    | cons c t =>
      rw [render_cons]
      simp only [List.cons_append, List.head?_cons, ne_eq, Option.some.injEq]
      rintro rfl
      exact h1 _ (List.mem_cons_self _ _) (List.mem_cons_self _ _)

/-! ### Indentation and nesting depth -/

theorem spaces_natCast (d : Nat) : spaces (d : Int) = List.replicate (2 * d) ' ' := by
  simp [spaces]

theorem Indented_of_head (d : Nat) {c : Char} (hc : isSpace c = false) (t : Str) :
    Indented (spaces (d : Int) ++ c :: t) d :=
  ⟨c, t, by rw [spaces_natCast], hc⟩

theorem forall₂_map_replicate {f : Str → Str} {d : Nat} (ds : List Str)
    (h : ∀ x ∈ ds, Indented (f x) d) :
    List.Forall₂ Indented (ds.map f) (List.replicate ds.length d) := by
  induction ds with
  | nil => exact List.Forall₂.nil
  | cons x ds ih =>
    exact List.Forall₂.cons (h x (List.mem_cons_self _ _))
      (ih (fun y hy => h y (List.mem_cons_of_mem _ hy)))

theorem flushLines_indented {s : State} {d : Nat} (hg : Good s) (hd : s.indent = d) :
    List.Forall₂ Indented (flushLines s) (List.replicate s.directives.length d) := by
  unfold flushLines
  refine forall₂_map_replicate _ ?_
  intro x hx
  obtain ⟨c, t, rfl, hc, _⟩ := (hg.2 x hx).head
  obtain ⟨t', ht'⟩ := fmtDirective_cons (flushWidth s.directives s.maxLength)
    (ne_space_of_not_isSpace hc) t
  rw [ht', hd]
  exact Indented_of_head d hc t'

theorem filter_flushLines {s : State} (hg : Good s) :
    (flushLines s).filter (fun l => !l.isEmpty) = flushLines s := by
  rw [List.filter_eq_self]
  intro f hf
  have := (flushLines_ok hg f hf).1
  cases f with
  | nil => exact absurd rfl this
  | cons c t => rfl

theorem filter_sepLines (b : Bool) : (sepLines b).filter (fun l => !l.isEmpty) = [] := by
  cases b <;> rfl

theorem sepLines_noNewline (b : Bool) : ∀ l ∈ sepLines b, '\n' ∉ l := by
  intro l hl
  cases b
  · simp [sepLines] at hl
  · simp only [sepLines, if_true, List.mem_singleton] at hl
    simp [hl]

theorem commentText_noNewline {l : Str} (h : '\n' ∉ l) : '\n' ∉ commentText l := by
  intro hm
  simp only [commentText, List.cons_append, List.nil_append, List.mem_cons] at hm
  rcases hm with hm | hm | hm
  · exact absurd hm (by decide)
  · exact absurd hm (by decide)
  · exact h ((List.drop_suffix 1 l).subset (mem_of_mem_TrimSpace hm))

theorem comment_line (d : Nat) {l : Str} (h : '\n' ∉ l) :
    Indented (spaces (d : Int) ++ commentText l) d ∧ '\n' ∉ spaces (d : Int) ++ commentText l := by
  refine ⟨Indented_of_head d (c := '#') (by decide) _, ?_⟩
  intro hm
  rcases List.mem_append.1 hm with hm | hm
  · exact spaces_noNewline _ hm
  · exact commentText_noNewline h hm

theorem structural_line (d : Nat) {l : Str} (ht : TrimSpace l = l) (hne : l ≠ [])
    (h : '\n' ∉ l) :
    Indented (spaces (d : Int) ++ l) d ∧ '\n' ∉ spaces (d : Int) ++ l := by
  obtain ⟨c, t, rfl, hc⟩ := head_of_trimmed ht hne
  refine ⟨Indented_of_head d hc t, ?_⟩
  intro hm
  rcases List.mem_append.1 hm with hm | hm
  · exact spaces_noNewline _ hm
  · exact h hm

theorem nesting_tail {k : Kind} {ks : List Kind} {d d1 : Nat}
    (h : ∀ i ≤ (k :: ks).length,
      ((k :: ks).take i).count Kind.block_end ≤ d + ((k :: ks).take i).count Kind.block_start)
    (hd : d1 + (if k = Kind.block_end then 1 else 0)
      = d + (if k = Kind.block_start then 1 else 0)) :
    ∀ i ≤ ks.length,
      (ks.take i).count Kind.block_end ≤ d1 + (ks.take i).count Kind.block_start := by
  intro i hi
  have := h (i + 1) (by simp; omega)
  rw [List.take_succ_cons, List.count_cons, List.count_cons] at this
  cases k <;> simp at this hd <;> omega

theorem nesting_head {ks : List Kind} {d : Nat}
    (h : ∀ i ≤ (Kind.block_end :: ks).length,
      ((Kind.block_end :: ks).take i).count Kind.block_end
        ≤ d + ((Kind.block_end :: ks).take i).count Kind.block_start) : 1 ≤ d := by
  have := h 1 (by simp)
  simpa using this

/-- From a reachable state at depth `d`, over lines whose nesting never falls below zero,
the loop completes, and the non-empty lines it writes are indented by the depths of the
lines they come from: first the pending run, if a later line flushes it, then the
lines read. -/
theorem run_indented (m : Bool) : ∀ (ls : List Str) (s : State) (d : Nat),
    (∀ raw ∈ ls, '\n' ∉ TrimSpace raw) → Good s → s.indent = d →
    (∀ i ≤ (ls.map kindOf).length,
      ((ls.map kindOf).take i).count Kind.block_end
        ≤ d + ((ls.map kindOf).take i).count Kind.block_start) →
    ∃ s' out, run m s ls = some s' ∧ s'.buf = s.buf ++ render out ∧ (∀ l ∈ out, '\n' ∉ l) ∧
      List.Forall₂ Indented (out.filter (fun l => !l.isEmpty))
        ((if (ls.map kindOf).any (flushes m) then List.replicate s.directives.length d
          else []) ++ emittedDepths m d (ls.map kindOf)) := by
  intro ls
  induction ls with
  | nil =>
    intro s d _ _ _ _
    exact ⟨s, [], rfl, by simp [render_nil], by simp, by simp [emittedDepths]⟩
  | cons raw ls ih =>
    intro s d hraw hg hd hnest
    have hraw0 := hraw raw (List.mem_cons_self _ _)
    have hrest : ∀ r ∈ ls, '\n' ∉ TrimSpace r := fun r hr => hraw r (List.mem_cons_of_mem _ hr)
    have hi : 0 ≤ s.indent := hg.1
    have hF := flushLines_indented hg hd
    have hFnl : ∀ l ∈ flushLines s, '\n' ∉ l := fun l hl => (flushLines_ok hg l hl).2.1
    rw [List.map_cons] at hnest ⊢
    cases hk : kindOf raw with
    | directive =>
      rw [hk] at hnest
      have hstep := step_directive m (s := s) hk
      obtain ⟨s', out, hrun, hbuf, hnl, hall⟩ :=
        ih _ d hrest (Good_step hg hraw0 hstep) hd (nesting_tail hnest (by simp))
      refine ⟨s', out, by rw [run_cons, hstep]; exact hrun, hbuf, hnl, ?_⟩
      simp only [List.length_append, List.length_singleton, List.replicate_succ'] at hall
      simp only [List.any_cons, flushes, emittedDepths, reduceCtorEq, decide_False,
        Bool.or_false, Bool.and_false, Bool.false_or]
      cases hany : (ls.map kindOf).any (flushes m)
      · simpa [hany, flushes] using hall
      · simpa [hany, flushes] using hall
    | newline =>
      rw [hk] at hnest
      cases m with
      | true =>
        have hstep := step_skip (s := s) (Or.inr hk)
        obtain ⟨s', out, hrun, hbuf, hnl, hall⟩ :=
          ih s d hrest hg hd (nesting_tail hnest (by simp))
        refine ⟨s', out, by rw [run_cons, hstep]; exact hrun, hbuf, hnl, ?_⟩
        simpa [flushes, emittedDepths] using hall
      | false =>
        have hstep := step_newline_eq hi hk
        obtain ⟨s', out, hrun, hbuf, hnl, hall⟩ :=
          ih _ d hrest (Good_step hg hraw0 hstep) hd (nesting_tail hnest (by simp))
        refine ⟨s', flushLines s ++ out, by rw [run_cons, hstep]; exact hrun, ?_, ?_, ?_⟩
        · simp only [hbuf, render_append, List.append_assoc]
        · intro l hl
          rcases List.mem_append.1 hl with hl | hl
          · exact hFnl l hl
          · exact hnl l hl
        · rw [List.filter_append, filter_flushLines hg]
          simp only [List.length_nil, List.replicate_zero, ite_self, List.nil_append] at hall
          simp only [List.any_cons, flushes, emittedDepths, decide_True, Bool.not_false,
            Bool.or_true, Bool.and_true, Bool.true_or, if_true]
          exact List.rel_append hF hall
    | comment =>
      rw [hk] at hnest
      cases m with
      | true =>
        have hstep := step_skip (s := s) (Or.inl hk)
        obtain ⟨s', out, hrun, hbuf, hnl, hall⟩ :=
          ih s d hrest hg hd (nesting_tail hnest (by simp))
        refine ⟨s', out, by rw [run_cons, hstep]; exact hrun, hbuf, hnl, ?_⟩
        simpa [flushes, emittedDepths] using hall
      | false =>
        have hstep := step_comment_eq hi hk
        obtain ⟨s', out, hrun, hbuf, hnl, hall⟩ :=
          ih _ d hrest (Good_step hg hraw0 hstep) hd (nesting_tail hnest (by simp))
        obtain ⟨c1, c2⟩ := comment_line d hraw0
        refine ⟨s', (flushLines s ++ sepLines (decide (s.prevType ≠ some Kind.comment ∧
            s.prevType ≠ some Kind.block_start)) ++
            [spaces s.indent ++ commentText (TrimSpace raw)]) ++ out,
          by rw [run_cons, hstep]; exact hrun, ?_, ?_, ?_⟩
        · simp only [hbuf, render_append, List.append_assoc]
        · intro l hl
          simp only [List.mem_append, List.mem_singleton] at hl
          rcases hl with ((hl | hl) | hl) | hl
          · exact hFnl l hl
          · exact sepLines_noNewline _ l hl
          · rw [hl, hd]; exact c2
          · exact hnl l hl
        · simp only [List.filter_append, filter_flushLines hg, filter_sepLines,
            List.append_nil]
          simp only [List.length_nil, List.replicate_zero, ite_self, List.nil_append] at hall
          simp only [List.any_cons, flushes, emittedDepths, decide_True, Bool.not_false,
            Bool.or_true, Bool.and_true, Bool.true_or, if_true, Bool.false_eq_true, if_false,
            Bool.true_and, Bool.or_self]
          try simp only [List.append_assoc]
          refine List.rel_append hF (List.rel_append ?_ hall)
          rw [hd]
          simp only [List.filter_cons, List.filter_nil]
          have : (spaces (d : Int) ++ commentText (TrimSpace raw)).isEmpty = false := by
            simp [commentText]
          simp only [this, Bool.not_false, if_true]
          exact List.Forall₂.cons c1 List.Forall₂.nil
    | block_start =>
      rw [hk] at hnest
      have hstep := step_block_start_eq m hi hk
      have hk' : getType (TrimSpace raw) = Kind.block_start := hk
      rw [getType_block_start_iff] at hk'
      have hne : TrimSpace raw ≠ [] := by
        intro h0
        rw [h0] at hk'
        simp at hk'
      obtain ⟨s', out, hrun, hbuf, hnl, hall⟩ :=
        ih _ (d + 1) hrest (Good_step hg hraw0 hstep) (by simp [hd])
          (nesting_tail hnest (by simp))
      obtain ⟨c1, c2⟩ := structural_line d (TrimSpace_idem raw) hne hraw0
      refine ⟨s', (flushLines s ++ sepLines (decide (s.prevType ≠ some Kind.comment ∧
          s.started = true)) ++ [spaces s.indent ++ TrimSpace raw]) ++ out,
        by rw [run_cons, hstep]; exact hrun, ?_, ?_, ?_⟩
      · simp only [hbuf, render_append, List.append_assoc]
      · intro l hl
        simp only [List.mem_append, List.mem_singleton] at hl
        rcases hl with ((hl | hl) | hl) | hl
        · exact hFnl l hl
        · exact sepLines_noNewline _ l hl
        · rw [hl, hd]; exact c2
        · exact hnl l hl
      · simp only [List.filter_append, filter_flushLines hg, filter_sepLines, List.append_nil]
        simp only [List.length_nil, List.replicate_zero, ite_self, List.nil_append] at hall
        simp only [List.any_cons, flushes, emittedDepths, decide_True, Bool.true_or, if_true]
        try simp only [List.append_assoc]
        refine List.rel_append hF ?_
        rw [hd]
        simp only [List.filter_cons, List.filter_nil]
        have : (spaces (d : Int) ++ TrimSpace raw).isEmpty = false := by
          cases h : TrimSpace raw with
          | nil => exact absurd h hne
          | cons c t => simp
        simp only [this, Bool.not_false, if_true]
        exact List.Forall₂.cons c1 hall
    | block_end =>
      rw [hk] at hnest
      have h1 : 1 ≤ d := nesting_head hnest
      have hstep := @step_block_end_eq m s raw (by omega) hk
      have hk' : getType (TrimSpace raw) = Kind.block_end := hk
      rw [getType_block_end_iff] at hk'
      have hne : TrimSpace raw ≠ [] := by simp [hk']
      have hd' : s.indent - 1 = ((d - 1 : Nat) : Int) := by omega
      obtain ⟨s', out, hrun, hbuf, hnl, hall⟩ :=
        ih _ (d - 1) hrest (Good_step hg hraw0 hstep) hd'
          (nesting_tail hnest (by simp; omega))
      obtain ⟨c1, c2⟩ := structural_line (d - 1) (TrimSpace_idem raw) hne hraw0
      refine ⟨s', (flushLines s ++ [spaces (s.indent - 1) ++ TrimSpace raw]) ++ out,
        by rw [run_cons, hstep]; exact hrun, ?_, ?_, ?_⟩
      · simp only [hbuf, render_append, List.append_assoc]
      · intro l hl
        simp only [List.mem_append, List.mem_singleton] at hl
        rcases hl with (hl | hl) | hl
        · exact hFnl l hl
        · rw [hl, hd']; exact c2
        · exact hnl l hl
      · simp only [List.filter_append, filter_flushLines hg]
        simp only [List.length_nil, List.replicate_zero, ite_self, List.nil_append] at hall
        simp only [List.any_cons, flushes, emittedDepths, decide_True, Bool.true_or,
          Bool.or_true, if_true]
        try simp only [List.append_assoc]
        refine List.rel_append hF ?_
        rw [hd']
        simp only [List.filter_cons, List.filter_nil]
        have : (spaces ((d - 1 : Nat) : Int) ++ TrimSpace raw).isEmpty = false := by
          simp [hk']
        simp only [this, Bool.not_false, if_true]
        exact List.Forall₂.cons c1 hall

theorem getElem?_length_append_cons (pre : List Kind) (k : Kind) (suf : List Kind) :
    (pre ++ k :: suf)[pre.length]? = some k := by
  rw [List.getElem?_append_right (le_refl _)]
  simp

theorem emittedAt_length (m : Bool) (pre : List Kind) (k : Kind) (suf : List Kind) :
    emittedAt m (pre ++ k :: suf) pre.length =
      match k with
      | Kind.comment => !m
      | Kind.block_start => true
      | Kind.block_end => true
      | Kind.directive => suf.any (flushes m)
      | Kind.newline => false := by
  unfold emittedAt
  rw [getElem?_length_append_cons]
  have : (pre ++ k :: suf).drop (pre.length + 1) = suf := by
    rw [show pre ++ k :: suf = (pre ++ [k]) ++ suf by simp]
    exact List.drop_left' (by simp)
  cases k <;> simp only [this]

theorem depthOf_length (pre : List Kind) (k : Kind) (suf : List Kind) :
    depthOf (pre ++ k :: suf) pre.length =
      pre.count Kind.block_start -
        (pre.count Kind.block_end + if k = Kind.block_end then 1 else 0) := by
  unfold depthOf
  rw [getElem?_length_append_cons, List.take_left]
  by_cases h : k = Kind.block_end
  · subst h
    have : (pre ++ Kind.block_end :: suf).take (pre.length + 1) = pre ++ [Kind.block_end] := by
      rw [show pre ++ Kind.block_end :: suf = (pre ++ [Kind.block_end]) ++ suf by simp]
      exact List.take_left' (by simp)
    simp [this]
  · have h' : ¬ (some k = some Kind.block_end) := fun e => h (Option.some.inj e)
    rw [if_neg h', if_neg h, List.take_left]
    rfl

/-- The depths of the emitted lines, read off the indices of the input lines, are those
computed along the lines. -/
theorem emitted_indices (m : Bool) : ∀ (suf pre : List Kind),
    pre.count Kind.block_end ≤ pre.count Kind.block_start →
    (∀ i ≤ suf.length, (suf.take i).count Kind.block_end
      ≤ (pre.count Kind.block_start - pre.count Kind.block_end)
        + (suf.take i).count Kind.block_start) →
    ((List.range' pre.length suf.length).filter (emittedAt m (pre ++ suf))).map
        (depthOf (pre ++ suf))
      = emittedDepths m (pre.count Kind.block_start - pre.count Kind.block_end) suf := by
  intro suf
  induction suf with
  | nil => intro pre _ _; rfl
  | cons k suf ih =>
    intro pre hpre hnest
    have hassoc : pre ++ k :: suf = (pre ++ [k]) ++ suf := by simp
    have hlen : pre.length + 1 = (pre ++ [k]).length := by simp
    rw [List.length_cons, List.range'_succ, List.filter_cons, emittedAt_length]
    have htail := fun (d1 : Nat) (hd1 : d1 + (if k = Kind.block_end then 1 else 0)
        = (pre.count Kind.block_start - pre.count Kind.block_end)
          + (if k = Kind.block_start then 1 else 0)) =>
      @nesting_tail _ _ _ d1 hnest hd1
    cases k with
    | comment =>
      have e := ih (pre ++ [Kind.comment]) (by simpa using hpre)
        (by simpa using htail _ (by simp))
      rw [← hassoc, ← hlen] at e
      simp only [List.count_append, List.count_singleton, reduceCtorEq, if_false, beq_iff_eq,
        Nat.add_zero] at e
      cases m
      · simp only [Bool.not_false, if_true, List.map_cons, e, emittedDepths, Bool.false_eq_true,
          if_false, depthOf_length, reduceCtorEq, Nat.add_zero]
        rfl
      · simp only [Bool.not_true, Bool.false_eq_true, if_false, e, emittedDepths, if_true,
          List.nil_append]
    | newline =>
      have e := ih (pre ++ [Kind.newline]) (by simpa using hpre)
        (by simpa using htail _ (by simp))
      rw [← hassoc, ← hlen] at e
      simp only [List.count_append, List.count_singleton, reduceCtorEq, if_false, beq_iff_eq,
        Nat.add_zero] at e
      simp only [Bool.false_eq_true, if_false, e, emittedDepths]
    | directive =>
      have e := ih (pre ++ [Kind.directive]) (by simpa using hpre)
        (by simpa using htail _ (by simp))
      rw [← hassoc, ← hlen] at e
      simp only [List.count_append, List.count_singleton, reduceCtorEq, if_false, beq_iff_eq,
        Nat.add_zero] at e
      cases hany : suf.any (flushes m)
      · simp only [Bool.false_eq_true, if_false, e, emittedDepths, hany, List.nil_append]
      · simp only [if_true, List.map_cons, e, emittedDepths, hany, depthOf_length,
          reduceCtorEq, if_false, Nat.add_zero]
        rfl
    | block_start =>
      have e := ih (pre ++ [Kind.block_start]) (by simp; omega)
        (by
          have := htail (pre.count Kind.block_start - pre.count Kind.block_end + 1) (by simp)
          simpa [show pre.count Kind.block_start + 1 - pre.count Kind.block_end
            = pre.count Kind.block_start - pre.count Kind.block_end + 1 by omega] using this)
      rw [← hassoc, ← hlen] at e
      simp only [List.count_append, List.count_singleton, reduceCtorEq, if_false, beq_iff_eq,
        Nat.add_zero, if_true] at e
      rw [show pre.count Kind.block_start + 1 - pre.count Kind.block_end
            = pre.count Kind.block_start - pre.count Kind.block_end + 1 by omega] at e
      simp only [if_true, List.map_cons, e, emittedDepths, depthOf_length, reduceCtorEq,
        if_false, Nat.add_zero]
    | block_end =>
      have h1 : 1 ≤ pre.count Kind.block_start - pre.count Kind.block_end :=
        nesting_head hnest
      have e := ih (pre ++ [Kind.block_end]) (by simp; omega)
        (by
          have := htail (pre.count Kind.block_start - pre.count Kind.block_end - 1)
            (by simp; omega)
          simpa [show pre.count Kind.block_start - (pre.count Kind.block_end + 1)
            = pre.count Kind.block_start - pre.count Kind.block_end - 1 by omega] using this)
      rw [← hassoc, ← hlen] at e
      simp only [List.count_append, List.count_singleton, reduceCtorEq, if_false, beq_iff_eq,
        Nat.add_zero, if_true] at e
      rw [show pre.count Kind.block_start - (pre.count Kind.block_end + 1)
            = pre.count Kind.block_start - pre.count Kind.block_end - 1 by omega] at e
      simp only [if_true, List.map_cons, e, emittedDepths, depthOf_length]
      rw [show pre.count Kind.block_start - (pre.count Kind.block_end + 1)
            = pre.count Kind.block_start - pre.count Kind.block_end - 1 by omega]

theorem wellFormed_prefix {ks : List Kind} (h : wellFormed ks = true) :
    ∀ i ≤ ks.length, (ks.take i).count Kind.block_end ≤ (ks.take i).count Kind.block_start := by
  intro i hi
  simp only [wellFormed, Bool.and_eq_true, List.all_eq_true, List.mem_range,
    decide_eq_true_eq] at h
  exact h.1 i (by omega)

/-! ### Reading back what was written -/

theorem TrimSpace_line (n : Int) (str : Str) :
    TrimSpace (spaces n ++ str ++ ['\n']) = TrimSpace str := by
  rw [TrimSpace_concat_space isSpace_newline, TrimSpace_spaces_append (spaces_isSpace n)]

theorem TrimSpace_blank : TrimSpace ([] ++ ['\n']) = [] := by decide

theorem commentText_readback (l : Str) :
    getType (TrimSpace (commentText l)) = Kind.comment ∧
      commentText (TrimSpace (commentText l)) = commentText l := by
  have h0 : TrimSpace (commentText l) = '#' :: (' ' :: TrimSpace (l.drop 1)).rdropWhile isSpace :=
    TrimSpace_cons_of_neg (by decide) _
  cases hb : TrimSpace (l.drop 1) with
  | nil =>
    rw [hb] at h0
    have h1 : TrimSpace (commentText l) = ['#'] := by
      rw [h0]
      rfl
    rw [h1]
    refine ⟨by decide, ?_⟩
    rw [commentText, commentText, hb]
    rfl
  | cons c t =>
    have hlast : ∀ x, (c :: t).getLast? = some x → isSpace x = false := by
      rw [← hb]
      exact getLast_TrimSpace _
    have h1 : (' ' :: c :: t).rdropWhile isSpace = ' ' :: c :: t := by
      rw [List.rdropWhile_eq_self_iff]
      intro hne
      have e : (' ' :: c :: t).getLast hne = (c :: t).getLast (by simp) :=
        List.getLast_cons (by simp)
      have := hlast _ (List.getLast?_eq_getLast (c :: t) (by simp))
      rw [e, this]
      exact Bool.false_ne_true
    rw [hb] at h0
    rw [h1] at h0
    rw [h0]
    refine ⟨(getType_comment_iff _).2 rfl, ?_⟩
    simp only [commentText, List.drop_succ_cons, List.drop_zero, hb]
    rw [TrimSpace_cons_space isSpace_space, ← hb, TrimSpace_idem]

theorem afterToken_spec {d : Str} (h : ' ' ∈ d) : d = firstToken d ++ ' ' :: afterToken d := by
  unfold firstToken afterToken
  have hsplit := List.takeWhile_append_dropWhile (fun c => c != ' ') d
  cases hd : d.dropWhile (fun c => c != ' ') with
  | nil =>
    rw [List.dropWhile_eq_nil_iff] at hd
    have := hd ' ' h
    simp at this
  | cons x t =>
    have hx : x = ' ' := by
      have := List.head_dropWhile_not (fun c => c != ' ') d (by rw [hd]; simp)
      simp only [hd, List.head_cons] at this
      simpa using this
    rw [hd] at hsplit
    subst hx
    rw [List.drop_succ_cons, List.drop_zero]
    exact hsplit.symm

theorem firstToken_no_space (d : Str) : ' ' ∉ firstToken d := by
  intro h
  have := List.mem_takeWhile_imp h
  simp at this

theorem firstToken_append_space (a b : Str) (ha : ' ' ∉ a) :
    firstToken (a ++ ' ' :: b) = a := by
  unfold firstToken
  induction a with
  | nil => simp [List.takeWhile_cons]
  | cons c a ih =>
    have hc : (c != ' ') = true := by
      have : c ≠ ' ' := fun e => ha (e ▸ List.mem_cons_self _ _)
      simpa using this
    rw [List.cons_append, List.takeWhile_cons, hc]
    simp only [if_true]
    rw [ih (fun hm => ha (List.mem_cons_of_mem _ hm))]

theorem afterToken_append_space (a b : Str) (ha : ' ' ∉ a) :
    afterToken (a ++ ' ' :: b) = b := by
  unfold afterToken
  induction a with
  | nil => simp [List.dropWhile_cons]
  | cons c a ih =>
    have hc : (c != ' ') = true := by
      have : c ≠ ' ' := fun e => ha (e ▸ List.mem_cons_self _ _)
      simpa using this
    rw [List.cons_append, List.dropWhile_cons, hc]
    simp only [if_true]
    exact ih (fun hm => ha (List.mem_cons_of_mem _ hm))

/-- The padded form of an alignable directive: name, `k` spaces, one space, the rest. -/
theorem padded_shape (name rest : Str) (k : Nat) :
    name ++ List.replicate k ' ' ++ [' '] ++ rest
      = name ++ ' ' :: (List.replicate k ' ' ++ rest) := by
  have : List.replicate k ' ' ++ [' '] = ' ' :: List.replicate k ' ' := by
    rw [← List.replicate_succ', List.replicate_succ]
  rw [List.append_assoc, List.append_assoc, ← List.append_assoc (List.replicate k ' '), this]
  rfl

theorem alignable_padded {name rest : Str} (k : Nat) (hw : isWord name = true) :
    alignable (name ++ List.replicate k ' ' ++ [' '] ++ rest) = true ∧
    firstToken (name ++ List.replicate k ' ' ++ [' '] ++ rest) = name ∧
    TrimSpace (afterToken (name ++ List.replicate k ' ' ++ [' '] ++ rest)) = TrimSpace rest := by
  have hns : ' ' ∉ name := by
    intro hm
    simp only [isWord, Bool.and_eq_true, List.all_eq_true] at hw
    have := isWordChar_not_space (hw.2 ' ' hm)
    simp [isSpace_space] at this
  rw [padded_shape]
  have hft := firstToken_append_space name (List.replicate k ' ' ++ rest) hns
  have hat := afterToken_append_space name (List.replicate k ' ' ++ rest) hns
  refine ⟨?_, hft, ?_⟩
  · have h1 : isWord (firstToken (name ++ ' ' :: (List.replicate k ' ' ++ rest))) = true := by
      rw [hft]; exact hw
    rw [isWord_firstToken] at h1
    simp only [alignable, Bool.and_eq_true, decide_eq_true_eq]
    simp only [Bool.and_eq_true] at h1
    exact ⟨⟨by simp, h1.1⟩, h1.2⟩
  · rw [hat]
    exact TrimSpace_spaces_append (fun c hc => by
      rw [List.mem_replicate] at hc
      rw [hc.2]; exact isSpace_space) rest

theorem alignable_fmtDirective (W : Int) (d : Str) :
    alignable (fmtDirective W d) = alignable d ∧
      (alignable d = true → firstToken (fmtDirective W d) = firstToken d) := by
  cases h : alignable d
  · rw [fmtDirective_of_not_alignable W h]
    exact ⟨h, fun e => absurd e (by simp)⟩
  · rw [fmtDirective_of_alignable W h]
    obtain ⟨h1, h2, _⟩ := @alignable_padded _ (TrimSpace (afterToken d))
      (W - (firstToken d).length).toNat (alignable_isWord h)
    exact ⟨h1, fun _ => h2⟩

theorem fmtDirective_idem (W : Int) (d : Str) :
    fmtDirective W (fmtDirective W d) = fmtDirective W d := by
  cases h : alignable d
  · rw [fmtDirective_of_not_alignable W h, fmtDirective_of_not_alignable W h]
  · have h' : alignable (fmtDirective W d) = true := by rw [(alignable_fmtDirective W d).1, h]
    rw [fmtDirective_of_alignable W h', (alignable_fmtDirective W d).2 h]
    conv_lhs => rw [fmtDirective_of_alignable W h]
    rw [(@alignable_padded _ (TrimSpace (afterToken d))
      (W - (firstToken d).length).toNat (alignable_isWord h)).2.2, TrimSpace_idem,
      fmtDirective_of_alignable W h]

theorem alignWidth_map_fmtDirective (W w : Int) (ds : List Str) :
    alignWidth w (ds.map (fmtDirective W)) = alignWidth w ds := by
  unfold alignWidth
  induction ds generalizing w with
  | nil => rfl
  | cons d ds ih =>
    rw [List.map_cons, List.filter_cons, List.filter_cons, (alignable_fmtDirective W d).1]
    cases h : alignable d
    · simpa using ih w
    · simp only [if_true, List.map_cons, List.foldl_cons,
        (alignable_fmtDirective W d).2 h]
      exact ih _

theorem TrimSpace_eq_nil_iff (s : Str) : TrimSpace s = [] ↔ ∀ c ∈ s, isSpace c = true := by
  unfold TrimSpace
  rw [List.rdropWhile_eq_nil_iff]
  constructor
  · intro h
    have h0 : s.dropWhile isSpace = [] := by
      by_contra hne
      have h1 := List.head_dropWhile_not isSpace s hne
      have h2 := h _ (List.head_mem hne)
      rw [h2] at h1
      simp at h1
    exact List.dropWhile_eq_nil_iff.1 h0
  · intro h x hx
    exact h x ((List.dropWhile_suffix isSpace).subset hx)

theorem getLast?_TrimSpace_of {s : Str} (h : ∀ c, s.getLast? = some c → isSpace c = false) :
    (TrimSpace s).getLast? = s.getLast? := by
  unfold TrimSpace
  rcases List.eq_nil_or_concat s with rfl | ⟨p, c, hs⟩
  · rfl
  · rw [List.concat_eq_append] at hs
    subst hs
    have hc : isSpace c = false := h c (List.getLast?_concat _)
    have hd : ∃ q, (p ++ [c]).dropWhile isSpace = q ++ [c] := by
      clear h
      induction p with
      | nil => exact ⟨[], by simp [List.dropWhile_cons, hc]⟩
      | cons x p ih =>
        rw [List.cons_append, List.dropWhile_cons]
        split_ifs
        · exact ih
        · exact ⟨x :: p, rfl⟩
    obtain ⟨q, hq⟩ := hd
    rw [hq, List.rdropWhile_concat_neg _ _ _ (by simp [hc])]
    simp

theorem IsDir_fmtDirective (W : Int) {d : Str} (h : IsDir d) : IsDir (fmtDirective W d) := by
  cases ha : alignable d
  · rw [fmtDirective_of_not_alignable W ha]
    exact h
  · obtain ⟨ht, hnl, hk⟩ := h
    rw [getType_directive_iff] at hk
    have hspec := afterToken_spec (alignable_mem ha)
    have hw := alignable_isWord ha
    have hlast : ∀ c, d.getLast? = some c → isSpace c = false := by
      rw [← ht]
      exact getLast_TrimSpace d
    have hA : (afterToken d).getLast? = d.getLast? ∧ afterToken d ≠ [] := by
      cases hA : afterToken d with
      | nil =>
        rw [hA] at hspec
        have := hlast ' ' (by rw [hspec]; exact List.getLast?_concat _)
        simp [isSpace_space] at this
      | cons a A =>
        rw [hA] at hspec
        refine ⟨?_, by simp⟩
        conv_rhs => rw [hspec]
        rw [show firstToken d ++ ' ' :: a :: A = (firstToken d ++ [' ']) ++ a :: A by simp,
          List.getLast?_append_of_ne_nil _ (by simp)]
    have hrest : (TrimSpace (afterToken d)).getLast? = d.getLast? := by
      rw [getLast?_TrimSpace_of (by rw [hA.1]; exact hlast), hA.1]
    have hdne : d.getLast? ≠ none := by
      rw [Ne, List.getLast?_eq_none_iff]
      exact hk.2.2.2
    have hrne : TrimSpace (afterToken d) ≠ [] := by
      intro h0
      rw [h0] at hrest
      exact hdne hrest.symm
    obtain ⟨c, t, hname, hc⟩ : ∃ c t, firstToken d = c :: t ∧ isWordChar c = true := by
      simp only [isWord, Bool.and_eq_true, List.all_eq_true] at hw
      cases hf : firstToken d with
      | nil => simp [hf] at hw
      | cons c t => exact ⟨c, t, rfl, hw.2 c (by rw [hf]; exact List.mem_cons_self _ _)⟩
    have hform := fmtDirective_of_alignable W ha
    have hflast : (fmtDirective W d).getLast? = d.getLast? := by
      rw [hform, List.getLast?_append_of_ne_nil _ hrne, hrest]
    have hfhead : (fmtDirective W d).head? = some c := by
      rw [hform, hname]
      rfl
    refine ⟨?_, fmtDirective_noNewline W hnl, ?_⟩
    · refine TrimSpace_eq_self_of ?_ ?_
      · intro x hx
        rw [hfhead] at hx
        exact Option.some.inj hx ▸ isWordChar_not_space hc
      · intro x hx
        rw [hflast] at hx
        exact hlast x hx
    · rw [getType_directive_iff, hfhead, hflast]
      refine ⟨?_, hk.2.1, ?_, ?_⟩
      · intro e
        have := Option.some.inj e
        subst this
        exact absurd hc (by decide)
      · intro e
        rw [e] at hfhead
        have := Option.some.inj hfhead
        subst this
        exact absurd hc (by decide)
      · intro e
        rw [e] at hfhead
        simp at hfhead

theorem kindOf_line (n : Int) (str : Str) : kindOf (spaces n ++ str ++ ['\n']) = getType (TrimSpace str) := by
  rw [kindOf, TrimSpace_line]

/-- Reading back a run of written directive lines only extends the pending run. -/
theorem run_directive_lines (m : Bool) (n : Int) : ∀ (fs : List Str) (s : State),
    (∀ f ∈ fs, IsDir f) → fs ≠ [] →
    run m s (fs.map (fun f => spaces n ++ f ++ ['\n']))
      = some { s with directives := s.directives ++ fs, prevType := some Kind.directive,
                      started := true } := by
  intro fs
  induction fs with
  | nil => intro s _ h; exact absurd rfl h
  | cons f fs ih =>
    intro s hfs _
    have hf := hfs f (List.mem_cons_self _ _)
    have hT : TrimSpace (spaces n ++ f ++ ['\n']) = f := by rw [TrimSpace_line, hf.1]
    have hk : getType (TrimSpace (spaces n ++ f ++ ['\n'])) = Kind.directive := by
      rw [hT]; exact hf.2.2
    rw [List.map_cons, run_cons, step_directive m hk, Option.some_bind, hT]
    cases fs with
    | nil => simp [run]
    | cons g gs =>
      rw [ih _ (fun x hx => hfs x (List.mem_cons_of_mem _ hx)) (by simp)]
      simp

/-! ### One iteration, the result of the flush being known -/

theorem step_newline_of {s : State} {raw b1 : Str} {W1 : Int}
    (hfl : flushDirectives s.buf s.directives s.indent s.maxLength = some (b1, W1))
    (hk : getType (TrimSpace raw) = Kind.newline) :
    step false s raw
      = some { s with buf := b1, maxLength := W1, directives := [],
                      prevType := some Kind.newline } := by
  rw [step_newline hk, hfl]
  rfl

theorem step_comment_of {s : State} {raw b1 : Str} {W1 : Int}
    (hfl : flushDirectives s.buf s.directives s.indent s.maxLength = some (b1, W1))
    (hi : 0 ≤ s.indent) (hk : getType (TrimSpace raw) = Kind.comment) :
    step false s raw
      = some { s with
          buf := b1 ++ render (sepLines (decide (s.prevType ≠ some Kind.comment ∧
              s.prevType ≠ some Kind.block_start)) ++
            [spaces s.indent ++ commentText (TrimSpace raw)]),
          maxLength := W1, directives := [],
          prevType := some Kind.comment, started := true } := by
  rw [step_comment hk, hfl, Option.some_bind, writeString_of_nonneg _ _ hi]
  rfl

theorem step_block_start_of (m : Bool) {s : State} {raw b1 : Str} {W1 : Int}
    (hfl : flushDirectives s.buf s.directives s.indent s.maxLength = some (b1, W1))
    (hi : 0 ≤ s.indent) (hk : getType (TrimSpace raw) = Kind.block_start) :
    step m s raw
      = some { s with
          buf := b1 ++ render (sepLines (decide (s.prevType ≠ some Kind.comment ∧
              s.started = true)) ++ [spaces s.indent ++ TrimSpace raw]),
          maxLength := 0, directives := [], indent := s.indent + 1,
          prevType := some Kind.block_start, started := true } := by
  rw [step_block_start m hk, hfl, Option.some_bind, writeString_of_nonneg _ _ hi]
  rfl

theorem step_block_end_of (m : Bool) {s : State} {raw b1 : Str} {W1 : Int}
    (hfl : flushDirectives s.buf s.directives s.indent s.maxLength = some (b1, W1))
    (hi : 1 ≤ s.indent) (hk : getType (TrimSpace raw) = Kind.block_end) :
    step m s raw
      = some { s with
          buf := b1 ++ render [spaces (s.indent - 1) ++ TrimSpace raw],
          maxLength := 0, directives := [], indent := s.indent - 1,
          prevType := some Kind.block_end, started := true } := by
  rw [step_block_end m hk, hfl, Option.some_bind, writeString_of_nonneg _ _ (by omega)]
  rfl

theorem run_one (m : Bool) (s : State) (raw : Str) : run m s [raw] = step m s raw := by
  rw [run_cons]
  cases step m s raw <;> rfl

theorem run_two (m : Bool) (s : State) (r1 r2 : Str) :
    run m s [r1, r2] = (step m s r1).bind (fun s' => step m s' r2) := by
  rw [run_cons]
  cases step m s r1 with
  | none => rfl
  | some s' => simp only [Option.some_bind, run_one]

/-- The second pass over a written block_start line and its separator. -/
theorem pass2_block_start (m : Bool) {a : State} {b1 l : Str} {W1 : Int} (b : Bool)
    (hfl : flushDirectives a.buf a.directives a.indent a.maxLength = some (b1, W1))
    (hi : 0 ≤ a.indent) (hl : TrimSpace l = l) (hk : getType l = Kind.block_start)
    (hb1 : b = true → a.started = true ∧ (m = true → a.prevType ≠ some Kind.comment))
    (hb0 : b = false → a.prevType = some Kind.comment ∨ a.started = false) :
    run m a ((sepLines b ++ [spaces a.indent ++ l]).map (fun x => x ++ ['\n']))
      = some { a with
          buf := b1 ++ render (sepLines b ++ [spaces a.indent ++ l]),
          maxLength := 0, directives := [], indent := a.indent + 1,
          prevType := some Kind.block_start, started := true } := by
  have hT : TrimSpace (spaces a.indent ++ l ++ ['\n']) = l := by rw [TrimSpace_line, hl]
  have hk2 : getType (TrimSpace (spaces a.indent ++ l ++ ['\n'])) = Kind.block_start := by
    rw [hT]; exact hk
  cases b with
  | false =>
    have hdec : decide (a.prevType ≠ some Kind.comment ∧ a.started = true) = false := by
      rcases hb0 rfl with h | h <;> simp [h]
    simp only [sepLines, Bool.false_eq_true, if_false, List.nil_append, List.map_cons,
      List.map_nil]
    rw [run_one, step_block_start_of m hfl hi hk2, hdec, hT]
    rfl
  | true =>
    obtain ⟨hs, hp⟩ := hb1 rfl
    simp only [sepLines, if_true, List.singleton_append, List.map_cons, List.map_nil]
    rw [run_two]
    cases m with
    | false =>
      have h2 := @step_block_start_of false
        { a with buf := b1, maxLength := W1, directives := [], prevType := some Kind.newline }
        (spaces a.indent ++ l ++ ['\n']) b1 W1 (flushDirectives_nil b1 a.indent W1) hi hk2
      rw [step_newline_of hfl (by rw [TrimSpace_blank]; decide), Option.some_bind, h2, hT]
      simp [hs, sepLines]
    | true =>
      have hdec : decide (a.prevType ≠ some Kind.comment ∧ a.started = true) = true :=
        decide_eq_true ⟨hp rfl, hs⟩
      rw [step_skip (Or.inr (by rw [TrimSpace_blank]; decide)), Option.some_bind,
        step_block_start_of true hfl hi hk2, hT, hdec]
      rfl

/-- The second pass over a written comment line and its separator. -/
theorem pass2_comment {a : State} {b1 : Str} {W1 : Int} (l : Str) (b : Bool)
    (hfl : flushDirectives a.buf a.directives a.indent a.maxLength = some (b1, W1))
    (hi : 0 ≤ a.indent)
    (hb0 : b = false → a.prevType = some Kind.comment ∨ a.prevType = some Kind.block_start) :
    run false a ((sepLines b ++ [spaces a.indent ++ commentText l]).map (fun x => x ++ ['\n']))
      = some { a with
          buf := b1 ++ render (sepLines b ++ [spaces a.indent ++ commentText l]),
          maxLength := W1, directives := [],
          prevType := some Kind.comment, started := true } := by
  have hT : TrimSpace (spaces a.indent ++ commentText l ++ ['\n']) = TrimSpace (commentText l) :=
    TrimSpace_line _ _
  have hk2 : getType (TrimSpace (spaces a.indent ++ commentText l ++ ['\n'])) = Kind.comment := by
    rw [hT]; exact (commentText_readback l).1
  cases b with
  | false =>
    have hdec : decide (a.prevType ≠ some Kind.comment ∧ a.prevType ≠ some Kind.block_start)
        = false := by
      rcases hb0 rfl with h | h <;> simp [h]
    simp only [sepLines, Bool.false_eq_true, if_false, List.nil_append, List.map_cons,
      List.map_nil]
    rw [run_one, step_comment_of hfl hi hk2, hdec, hT, (commentText_readback l).2]
    rfl
  | true =>
    simp only [sepLines, if_true, List.singleton_append, List.map_cons, List.map_nil]
    have h2 := @step_comment_of
      { a with buf := b1, maxLength := W1, directives := [], prevType := some Kind.newline }
      (spaces a.indent ++ commentText l ++ ['\n']) b1 W1 (flushDirectives_nil b1 a.indent W1)
      hi hk2
    rw [run_two, step_newline_of hfl (by rw [TrimSpace_blank]; decide), Option.some_bind, h2,
      hT, (commentText_readback l).2]
    simp [sepLines]

/-- The second pass over a written block_end line. -/
theorem pass2_block_end (m : Bool) {a : State} {b1 l : Str} {W1 : Int}
    (hfl : flushDirectives a.buf a.directives a.indent a.maxLength = some (b1, W1))
    (hi : 1 ≤ a.indent) (hl : TrimSpace l = l) (hk : getType l = Kind.block_end) :
    run m a ([spaces (a.indent - 1) ++ l].map (fun x => x ++ ['\n']))
      = some { a with
          buf := b1 ++ render [spaces (a.indent - 1) ++ l],
          maxLength := 0, directives := [], indent := a.indent - 1,
          prevType := some Kind.block_end, started := true } := by
  have hT : TrimSpace (spaces (a.indent - 1) ++ l ++ ['\n']) = l := by rw [TrimSpace_line, hl]
  have hk2 : getType (TrimSpace (spaces (a.indent - 1) ++ l ++ ['\n'])) = Kind.block_end := by
    rw [hT]; exact hk
  simp only [List.map_cons, List.map_nil]
  rw [run_one, step_block_end_of m hfl hi hk2, hT]

/-! ### The second pass follows the first -/

theorem Sim.flush_nil {m o g : Bool} {s1 s2 : State} (h : Sim m o g s1 s2)
    (hd : s2.directives = []) : s2.buf = s1.buf ∧ s2.maxLength = s1.maxLength := by
  have := h.flush
  rw [hd, flushDirectives_nil] at this
  simpa using this

/-- Flushing, in the second pass, the pending run extended with the lines of the run that
the first pass flushes: the lines already accounted for are written as before, as soon
as the width does not change when one of them is alignable. -/
theorem flush_merged {s1 s2 : State} (hi : 0 ≤ s1.indent) (hind : s2.indent = s1.indent)
    (hfl : flushDirectives s2.buf s2.directives s2.indent s2.maxLength
      = some (s1.buf, s1.maxLength))
    (hc : (∃ d ∈ s2.directives, alignable d = true) →
      flushWidth s1.directives s1.maxLength = s1.maxLength) :
    flushDirectives s2.buf
        (s2.directives ++
          s1.directives.map (fmtDirective (flushWidth s1.directives s1.maxLength)))
        s2.indent s2.maxLength
      = some (s1.buf ++ render (flushLines s1), flushWidth s1.directives s1.maxLength) := by
  have hi2 : 0 ≤ s2.indent := by rw [hind]; exact hi
  rw [flushDirectives_of_nonneg _ _ hi2] at hfl
  simp only [Option.some.injEq, Prod.mk.injEq] at hfl
  obtain ⟨hb, hw⟩ := hfl
  have hW : flushWidth (s2.directives ++
        s1.directives.map (fmtDirective (flushWidth s1.directives s1.maxLength))) s2.maxLength
      = flushWidth s1.directives s1.maxLength := by
    have happ : ∀ (w : Int) (ds es : List Str),
        alignWidth w (ds ++ es) = alignWidth (alignWidth w ds) es := by
      intro w ds es
      simp [alignWidth, List.filter_append, List.foldl_append]
    rw [flushWidth_eq, happ, ← flushWidth_eq s2.directives, hw, alignWidth_map_fmtDirective,
      ← flushWidth_eq]
  rw [flushDirectives_of_nonneg _ _ hi2, hW, List.map_append, render_append,
    ← List.append_assoc]
  have h1 : s2.directives.map
        (fun d => spaces s2.indent ++ fmtDirective (flushWidth s1.directives s1.maxLength) d)
      = s2.directives.map
        (fun d => spaces s2.indent ++ fmtDirective (flushWidth s2.directives s2.maxLength) d) := by
    apply List.map_congr_left
    intro d hd
    cases ha : alignable d
    · rw [fmtDirective_of_not_alignable _ ha, fmtDirective_of_not_alignable _ ha]
    · rw [hc ⟨d, hd, ha⟩, hw]
  have h2 : (s1.directives.map (fmtDirective (flushWidth s1.directives s1.maxLength))).map
        (fun d => spaces s2.indent ++ fmtDirective (flushWidth s1.directives s1.maxLength) d)
      = flushLines s1 := by
    rw [List.map_map, flushLines]
    apply List.map_congr_left
    intro d _
    simp only [Function.comp, fmtDirective_idem, hind]
  rw [h1, hb, h2]

/-- The second pass reads the run that the first pass flushes: the run is added to its
own pending run, which it will flush to the same lines. -/
theorem read_flush {m o g : Bool} {s1 s2 : State} (h : Sim m o g s1 s2)
    (hc : (∃ d ∈ s2.directives, alignable d = true) →
      flushWidth s1.directives s1.maxLength = s1.maxLength) :
    ∃ s2a, run m s2 ((flushLines s1).map (fun l => l ++ ['\n'])) = some s2a ∧
      s2a.indent = s1.indent ∧
      flushDirectives s2a.buf s2a.directives s2a.indent s2a.maxLength
        = some (s1.buf ++ render (flushLines s1), flushWidth s1.directives s1.maxLength) ∧
      (s1.directives = [] → s2a = s2) ∧
      (s1.directives ≠ [] → s2a.prevType = some Kind.directive ∧ s2a.started = true) ∧
      s2a.directives = s2.directives ++
        s1.directives.map (fmtDirective (flushWidth s1.directives s1.maxLength)) := by
  have hm := flush_merged h.good.1 h.indent h.flush hc
  by_cases hD : s1.directives = []
  · refine ⟨s2, by simp [flushLines, hD, run], h.indent, ?_, fun _ => rfl,
      fun hne => absurd hD hne, by simp [hD]⟩
    rw [hD, List.map_nil, List.append_nil] at hm
    rw [hm, hD]
  · have hfs : ∀ f ∈ s1.directives.map (fmtDirective (flushWidth s1.directives s1.maxLength)),
        IsDir f := by
      intro f hf
      obtain ⟨d, hd, rfl⟩ := List.mem_map.1 hf
      exact IsDir_fmtDirective _ (h.good.2 d hd)
    have hrun := run_directive_lines m s1.indent _ s2 hfs (by simpa using hD)
    refine ⟨{ s2 with
        directives := s2.directives ++
          s1.directives.map (fmtDirective (flushWidth s1.directives s1.maxLength)),
        prevType := some Kind.directive, started := true },
      ?_, h.indent, hm, fun e => absurd e hD, fun _ => ⟨rfl, rfl⟩, rfl⟩
    rw [← hrun, flushLines, List.map_map, List.map_map]
    rfl

theorem line_noNewline (n : Int) {str : Str} (h : '\n' ∉ str) : '\n' ∉ spaces n ++ str := by
  intro hm
  rcases List.mem_append.1 hm with hm | hm
  · exact spaces_noNewline _ hm
  · exact h hm

/-- Reading written lines keeps the state good. -/
theorem run_good {m : Bool} {s s' : State} {out : List Str} (hg : Good s)
    (hnl : ∀ l ∈ out, '\n' ∉ l) (h : run m s (out.map (fun l => l ++ ['\n'])) = some s') :
    Good s' := by
  refine run_invariant (fun _ _ _ hP hraw hs => Good_step hP hraw hs) _ s s' ?_ hg h
  intro raw hr
  obtain ⟨l, hl, rfl⟩ := List.mem_map.1 hr
  rw [TrimSpace_concat_space isSpace_newline]
  exact fun hm => hnl l hl (mem_of_mem_TrimSpace hm)

/-- One iteration of the first pass is followed by the second pass on the lines it
writes. -/
theorem sim_step {m o g : Bool} {s1 s2 s1' : State} {raw : Str} (h : Sim m o g s1 s2)
    (hraw : '\n' ∉ TrimSpace raw) (hstep : step m s1 raw = some s1')
    (hc : m = false → g = true → kindOf raw ≠ Kind.directive →
      flushWidth s1.directives s1.maxLength = s1.maxLength) :
    ∃ out s2', s1'.buf = s1.buf ++ render out ∧ (∀ l ∈ out, '\n' ∉ l) ∧
      run m s2 (out.map (fun l => l ++ ['\n'])) = some s2' ∧
      Sim m (nextOpen o s1.directives (kindOf raw)) (nextAligned g s1.directives (kindOf raw))
        s1' s2' := by
  have hg' := Good_step h.good hraw hstep
  have hi1 : 0 ≤ s1.indent := h.good.1
  have hFnl : ∀ l ∈ flushLines s1, '\n' ∉ l := fun l hl => (flushLines_ok h.good l hl).2.1
  by_cases hkd : kindOf raw = Kind.directive
  · -- a directive
    have hs1 : s1' = { s1 with
        directives := s1.directives ++ [TrimSpace raw],
        prevType := some Kind.directive, started := true } := by
      rcases step_cases hi1 hstep with ⟨_, hk, _⟩ | ⟨_, e⟩ | ⟨_, hk, _⟩ | ⟨_, hk, _⟩ |
        ⟨hk, _⟩ | ⟨hk, _, _⟩
      · rw [kindOf] at hkd
        rcases hk with hk | hk <;> rw [hk] at hkd <;> exact absurd hkd (by decide)
      · exact e
      · rw [kindOf, hk] at hkd; exact absurd hkd (by decide)
      · rw [kindOf, hk] at hkd; exact absurd hkd (by decide)
      · rw [kindOf, hk] at hkd; exact absurd hkd (by decide)
      · rw [kindOf, hk] at hkd; exact absurd hkd (by decide)
    subst hs1
    rw [hkd]
    refine ⟨[], s2, by simp [render_nil], by simp, rfl, ?_⟩
    exact ⟨hg', h.indent, h.flush, h.pending, h.aligned,
      fun e => absurd e (by simp), fun e => absurd e (by simp), h.minifyPrev,
      fun e => absurd e (by simp), fun _ => Or.inr (by simp), fun _ => rfl,
      h.good2, h.openPending, h.alignedPending⟩
  have hcf : (∃ d ∈ s2.directives, alignable d = true) →
      flushWidth s1.directives s1.maxLength = s1.maxLength := by
    rintro ⟨d, hd, ha⟩
    exact hc (h.pending (List.ne_nil_of_mem hd)).1 (h.aligned d hd ha) hkd
  obtain ⟨s2a, hrunF, hia, hfla, hsame, hnew, hdirs⟩ := read_flush h hcf
  have hia0 : 0 ≤ s2a.indent := by rw [hia]; exact hi1
  have hprevD : s1.prevType ≠ some Kind.directive → s2a = s2 := by
    intro hp
    apply hsame
    by_contra hD
    exact hp (h.prevDirective hD)
  have hstarted : s1.started = true → s2a.started = true := by
    intro hs
    by_cases hD : s1.directives = []
    · rw [hsame hD]
      rcases h.started hs with h' | h'
      · exact h'
      · exact absurd hD h'
    · exact (hnew hD).2
  rcases step_cases hi1 hstep with ⟨hm, hk, rfl⟩ | ⟨hk, rfl⟩ | ⟨hm, hk, rfl⟩ | ⟨hm, hk, rfl⟩ |
    ⟨hk, rfl⟩ | ⟨hk, h1, rfl⟩
  · -- a line that minify skips
    subst hm
    have h2 : s2.directives = [] := by
      by_contra hne
      exact absurd (h.pending hne).1 (by simp)
    refine ⟨[], s2, by simp [render_nil], by simp, rfl, ?_⟩
    exact ⟨h.good, h.indent, h.flush, fun hne => absurd h2 hne,
      fun d hd => absurd hd (by rw [h2]; exact List.not_mem_nil d), h.prevComment, h.prevBlock,
      h.minifyPrev, h.notStarted, h.started, h.prevDirective, h.good2,
      fun hm => absurd hm (by simp), fun hm => absurd hm (by simp)⟩
  · -- a directive
    exact absurd hk hkd
  · -- a blank line
    subst hm
    have hk' : kindOf raw = Kind.newline := hk
    rw [hk']
    refine ⟨flushLines s1, s2a, rfl, hFnl, hrunF, ?_⟩
    refine ⟨hg', hia, hfla, ?_, ?_, fun e => absurd e (by simp),
      fun e => absurd e (by simp), fun hm => absurd hm (by simp), ?_, ?_,
      fun hne => absurd rfl hne, run_good h.good2 hFnl hrunF, ?_, ?_⟩
    · intro hne
      refine ⟨rfl, ?_⟩
      by_cases hD : s1.directives = []
      · rw [hsame hD] at hne
        simp [nextOpen, (h.pending hne).2]
      · cases hDl : s1.directives with
        | nil => exact absurd hDl hD
        | cons d ds => simp [nextOpen]
    · intro d hd ha
      rw [hdirs] at hd
      rcases List.mem_append.1 hd with hd | hd
      · simp [nextAligned, h.aligned d hd ha]
      · obtain ⟨d0, hd0, rfl⟩ := List.mem_map.1 hd
        rw [(alignable_fmtDirective _ d0).1] at ha
        have : s1.directives.any alignable = true := List.any_eq_true.2 ⟨d0, hd0, ha⟩
        simp [nextAligned, this]
    · intro hs
      have := h.notStarted hs
      rw [hsame this.1]
      exact ⟨rfl, this.2.1, this.2.2⟩
    · intro hs
      exact Or.inl (hstarted hs)
    · intro _ ho
      rw [hdirs]
      by_cases hD : s1.directives = []
      · rw [hD] at ho
        have := h.openPending rfl (by simpa [nextOpen] using ho)
        simpa [hD] using this
      · simpa using fun _ => hD
    · intro _ hga
      rw [hdirs]
      simp only [nextAligned, Bool.or_eq_true, List.any_eq_true] at hga
      rcases hga with hga | ⟨d0, hd0, ha⟩
      · obtain ⟨d, hd, ha⟩ := h.alignedPending rfl hga
        exact ⟨d, List.mem_append_left _ hd, ha⟩
      · exact ⟨fmtDirective _ d0, List.mem_append_right _ (List.mem_map_of_mem _ hd0),
          by rw [(alignable_fmtDirective _ d0).1, ha]⟩
  · -- a comment
    subst hm
    have hk' : kindOf raw = Kind.comment := hk
    rw [hk']
    have hb0 : decide (s1.prevType ≠ some Kind.comment ∧ s1.prevType ≠ some Kind.block_start)
        = false → s2a.prevType = some Kind.comment ∨ s2a.prevType = some Kind.block_start := by
      intro hb
      simp only [ne_eq, decide_eq_false_iff_not, not_and_or, not_not] at hb
      rcases hb with hp | hp
      · rw [hprevD (by rw [hp]; simp)]
        exact Or.inl (h.prevComment hp)
      · rw [hprevD (by rw [hp]; simp)]
        exact Or.inr (h.prevBlock hp)
    have hp2 := pass2_comment (TrimSpace raw) _ hfla hia0 hb0
    rw [hia] at hp2
    refine ⟨flushLines s1 ++ (sepLines (decide (s1.prevType ≠ some Kind.comment ∧
        s1.prevType ≠ some Kind.block_start)) ++
        [spaces s1.indent ++ commentText (TrimSpace raw)]), ?s2C, ?hbufC, ?hnlC, ?hrunC, ?hsimC⟩
    case hrunC =>
      rw [List.map_append, run_append, hrunF, Option.some_bind]
      exact hp2
    case hbufC =>
      simp only [List.append_assoc]
    case hnlC =>
      intro l hl
      simp only [List.mem_append, List.mem_singleton] at hl
      rcases hl with hl | hl | hl
      · exact hFnl l hl
      · exact sepLines_noNewline _ l hl
      · rw [hl]
        exact line_noNewline _ (commentText_noNewline hraw)
    case hsimC =>
      refine ⟨hg', rfl, ?_, fun hne => absurd rfl hne,
        fun d hd => absurd hd (List.not_mem_nil d),
        fun _ => rfl, fun e => absurd e (by simp), fun hm => absurd hm (by simp),
        fun e => absurd e (by simp), fun _ => Or.inl rfl, fun hne => absurd rfl hne,
        ⟨hg'.1, fun d hd => absurd hd (List.not_mem_nil d)⟩,
        fun _ e => absurd e (by simp [nextOpen]), fun _ e => absurd e (by simp [nextAligned])⟩
      show flushDirectives _ [] _ _ = _
      rw [flushDirectives_nil]
      simp only [render_append, List.append_assoc]
  · -- a block_start
    have hk' : kindOf raw = Kind.block_start := hk
    rw [hk']
    have hb1 : decide (s1.prevType ≠ some Kind.comment ∧ s1.started = true) = true →
        s2a.started = true ∧ (m = true → s2a.prevType ≠ some Kind.comment) := by
      intro hb
      simp only [ne_eq, decide_eq_true_eq] at hb
      refine ⟨hstarted hb.2, ?_⟩
      intro hm
      by_cases hD : s1.directives = []
      · rw [hsame hD]
        exact h.minifyPrev hm
      · rw [(hnew hD).1]
        simp
    have hb0 : decide (s1.prevType ≠ some Kind.comment ∧ s1.started = true) = false →
        s2a.prevType = some Kind.comment ∨ s2a.started = false := by
      intro hb
      simp only [ne_eq, decide_eq_false_iff_not, not_and_or, not_not, Bool.not_eq_true] at hb
      rcases hb with hp | hp
      · rw [hprevD (by rw [hp]; simp)]
        exact Or.inl (h.prevComment hp)
      · have := h.notStarted hp
        rw [hsame this.1]
        exact Or.inr this.2.1
    have hp2 := pass2_block_start m _ hfla hia0 (TrimSpace_idem raw) hk hb1 hb0
    rw [hia] at hp2
    refine ⟨flushLines s1 ++ (sepLines (decide (s1.prevType ≠ some Kind.comment ∧
        s1.started = true)) ++ [spaces s1.indent ++ TrimSpace raw]), ?s2B, ?hbufB, ?hnlB, ?hrunB, ?hsimB⟩
    case hrunB =>
      rw [List.map_append, run_append, hrunF, Option.some_bind]
      exact hp2
    case hbufB =>
      simp only [List.append_assoc]
    case hnlB =>
      intro l hl
      simp only [List.mem_append, List.mem_singleton] at hl
      rcases hl with hl | hl | hl
      · exact hFnl l hl
      · exact sepLines_noNewline _ l hl
      · rw [hl]
        exact line_noNewline _ hraw
    case hsimB =>
      refine ⟨hg', rfl, ?_,
        fun hne => absurd rfl hne, fun d hd => absurd hd (List.not_mem_nil d),
        fun e => absurd e (by simp), fun _ => rfl, fun _ => by simp,
        fun e => absurd e (by simp), fun _ => Or.inl rfl, fun hne => absurd rfl hne,
        ⟨hg'.1, fun d hd => absurd hd (List.not_mem_nil d)⟩,
        fun _ e => absurd e (by simp [nextOpen]), fun _ e => absurd e (by simp [nextAligned])⟩
      show flushDirectives _ [] _ _ = _
      rw [flushDirectives_nil]
      simp only [render_append, List.append_assoc]
  · -- a block_end
    have hk' : kindOf raw = Kind.block_end := hk
    rw [hk']
    have hp2 := pass2_block_end m hfla (by rw [hia]; exact h1) (TrimSpace_idem raw) hk
    rw [hia] at hp2
    refine ⟨flushLines s1 ++ [spaces (s1.indent - 1) ++ TrimSpace raw], ?s2E, ?hbufE, ?hnlE, ?hrunE,
      ?hsimE⟩
    case hrunE =>
      rw [List.map_append, run_append, hrunF, Option.some_bind]
      exact hp2
    case hbufE => rfl
    case hnlE =>
      intro l hl
      simp only [List.mem_append, List.mem_singleton] at hl
      rcases hl with hl | hl
      · exact hFnl l hl
      · rw [hl]
        exact line_noNewline _ hraw
    case hsimE =>
      refine ⟨hg', rfl, ?_,
        fun hne => absurd rfl hne, fun d hd => absurd hd (List.not_mem_nil d),
        fun e => absurd e (by simp), fun e => absurd e (by simp), fun _ => by simp,
        fun e => absurd e (by simp), fun _ => Or.inl rfl, fun hne => absurd rfl hne,
        ⟨hg'.1, fun d hd => absurd hd (List.not_mem_nil d)⟩,
        fun _ e => absurd e (by simp [nextOpen]), fun _ e => absurd e (by simp [nextAligned])⟩
      show flushDirectives _ [] _ _ = _
      rw [flushDirectives_nil]
      simp only [render_append, List.append_assoc]

theorem Sim_init (m : Bool) : Sim m false false State.init State.init :=
  ⟨Good_init, rfl, rfl, fun h => absurd rfl h, fun d hd => absurd hd (List.not_mem_nil d),
    fun e => absurd e (by simp [State.init]), fun e => absurd e (by simp [State.init]),
    fun _ => by simp [State.init], fun _ => ⟨rfl, rfl, rfl⟩,
    fun e => absurd e (by simp [State.init]), fun h => absurd rfl h, Good_init,
    fun _ e => absurd e (by simp), fun _ e => absurd e (by simp)⟩

/-- The carried width and the pending run after one iteration with minify off. -/
theorem step_track {s s' : State} {raw : Str} (hi : 0 ≤ s.indent)
    (h : step false s raw = some s') :
    s'.maxLength = nextWidth s.maxLength s.directives (kindOf raw) ∧
      s'.directives = nextPending s.directives raw := by
  rcases step_cases hi h with ⟨hm, _, _⟩ | ⟨hk, rfl⟩ | ⟨_, hk, rfl⟩ | ⟨_, hk, rfl⟩ |
    ⟨hk, rfl⟩ | ⟨hk, _, rfl⟩
  · exact absurd hm (by simp)
  all_goals simp [kindOf, hk, nextWidth, nextPending]

/-- The second pass over the buffer of the first reaches the same buffer. -/
theorem sim_run (m : Bool) : ∀ (ls : List Str) (o g : Bool) (s1 s2 s1f : State),
    Sim m o g s1 s2 → (∀ raw ∈ ls, '\n' ∉ TrimSpace raw) →
    (m = false → runsStable o g s1.maxLength s1.directives ls = true) →
    run m s1 ls = some s1f →
    ∃ out s2f, s1f.buf = s1.buf ++ render out ∧ (∀ l ∈ out, '\n' ∉ l) ∧
      run m s2 (out.map (fun l => l ++ ['\n'])) = some s2f ∧ s2f.buf = s1f.buf := by
  intro ls
  induction ls with
  | nil =>
    intro o g s1 s2 s1f h _ hc hrun
    rw [run] at hrun
    have hs := Option.some.inj hrun
    subst hs
    have h2 : s2.directives = [] := by
      by_contra hne
      have hp := h.pending hne
      have := hc hp.1
      simp [runsStable, hp.2] at this
    exact ⟨[], s2, by simp [render_nil], by simp, rfl, (h.flush_nil h2).1⟩
  | cons raw ls ih =>
    intro o g s1 s2 s1f h hraw hc hrun
    rw [run_cons] at hrun
    cases hs : step m s1 raw with
    | none => rw [hs] at hrun; exact absurd hrun (by simp)
    | some s1' =>
      rw [hs, Option.some_bind] at hrun
      have hstab : m = false → g = true → kindOf raw ≠ Kind.directive →
          flushWidth s1.directives s1.maxLength = s1.maxLength := by
        intro hm hg hk
        have := hc hm
        simp only [runsStable, Bool.and_eq_true, Bool.or_eq_true, decide_eq_true_eq,
          Bool.not_eq_true'] at this
        rcases this.1 with (h' | h') | h'
        · exact absurd h' hk
        · rw [hg] at h'; exact absurd h' (by simp)
        · exact h'
      obtain ⟨out1, s2', hbuf1, hnl1, hrun1, hsim⟩ :=
        sim_step h (hraw raw (List.mem_cons_self _ _)) hs hstab
      obtain ⟨out2, s2f, hbuf2, hnl2, hrun2, hfin⟩ :=
        ih _ _ s1' s2' s1f hsim (fun r hr => hraw r (List.mem_cons_of_mem _ hr))
          (fun hm => by
            have := hc hm
            subst hm
            obtain ⟨hw, hd⟩ := step_track h.good.1 hs
            rw [hw, hd]
            simp only [runsStable, Bool.and_eq_true] at this
            exact this.2) hrun
      refine ⟨out1 ++ out2, s2f, ?_, ?_, ?_, hfin⟩
      · rw [hbuf2, hbuf1, render_append, List.append_assoc]
      · intro l hl
        rcases List.mem_append.1 hl with hl | hl
        · exact hnl1 l hl
        · exact hnl2 l hl
      · rw [List.map_append, run_append, hrun1, Option.some_bind, hrun2]

/-! ### The end of the input and the lines minify drops -/

theorem readLines_of_not_mem (t acc : Str) (ht : '\n' ∉ t) : readLines acc t = [] := by
  induction t generalizing acc with
  | nil => rfl
  | cons c t ih =>
    have hc : c ≠ '\n' := fun e => ht (e ▸ List.mem_cons_self _ _)
    rw [readLines, if_neg hc]
    exact ih _ (fun hm => ht (List.mem_cons_of_mem _ hm))

theorem readLines_append_tail (x t acc : Str) (ht : '\n' ∉ t) :
    readLines acc (x ++ t) = readLines acc x := by
  induction x generalizing acc with
  | nil => rw [List.nil_append, readLines_of_not_mem t acc ht]; rfl
  | cons c x ih =>
    rw [List.cons_append, readLines, readLines]
    split_ifs
    · rw [ih]
    · rw [ih]

theorem readLines_flatten (ls : List Str)
    (h : ∀ raw ∈ ls, ∃ a, raw = a ++ ['\n'] ∧ '\n' ∉ a) : readLines [] ls.flatten = ls := by
  induction ls with
  | nil => rfl
  | cons raw ls ih =>
    obtain ⟨a, rfl, ha⟩ := h raw (List.mem_cons_self _ _)
    rw [List.flatten_cons, List.append_assoc, List.singleton_append, readLines_line _ _ _ ha,
      ih (fun r hr => h r (List.mem_cons_of_mem _ hr))]
    rfl

theorem step_of_dropped (s : State) {raw : Str} (h : dropped raw = true) :
    step true s raw = some s := by
  simp only [dropped, Bool.or_eq_true, decide_eq_true_eq] at h
  exact step_skip h

theorem step_of_not_dropped (s : State) {raw : Str} (h : dropped raw = false) :
    step true s raw = step false s raw := by
  simp only [dropped, Bool.or_eq_false_iff, decide_eq_false_iff_not] at h
  cases hk : kindOf raw with
  | comment => exact absurd hk h.1
  | newline => exact absurd hk h.2
  | directive => rw [step_directive true hk, step_directive false hk]
  | block_start => rw [step_block_start true hk, step_block_start false hk]
  | block_end => rw [step_block_end true hk, step_block_end false hk]

theorem run_minify_filter (s : State) (ls : List Str) :
    run true s ls = run false s (ls.filter (fun raw => !dropped raw)) := by
  induction ls generalizing s with
  | nil => rfl
  | cons raw ls ih =>
    rw [run_cons, List.filter_cons]
    cases h : dropped raw
    · simp only [Bool.not_false, if_true]
      rw [run_cons, step_of_not_dropped s h]
      cases step false s raw with
      | none => rfl
      | some s' => simp only [Option.some_bind, ih]
    · simp only [Bool.not_true, Bool.false_eq_true, if_false]
      rw [step_of_dropped s h, Option.some_bind, ih]

/-! ### The width of a run -/

theorem flushDirectives_lines (buf : Str) (ds : List Str) {n : Int} (hn : 0 ≤ n) (w : Int) :
    flushDirectives buf ds n w
      = some (buf ++ (ds.map (directiveLine n (alignWidth w ds))).flatten, alignWidth w ds) := by
  rw [flushDirectives_of_nonneg buf ds hn, flushWidth_eq, render_map_eq]
  rfl

theorem flushDirectives_snd {buf : Str} {ds : List Str} {n w : Int} {r : Str × Int}
    (h : flushDirectives buf ds n w = some r) : r.2 = alignWidth w ds := by
  unfold flushDirectives at h
  cases hw : flushWrite (flushWidth ds w) n ds buf with
  | none => simp [hw] at h
  | some b =>
    simp only [hw, Option.some.injEq] at h
    rw [← h, flushWidth_eq]

theorem alignWidth_append (w : Int) (ds es : List Str) :
    alignWidth w (ds ++ es) = alignWidth (alignWidth w ds) es := by
  simp [alignWidth, List.filter_append, List.foldl_append]

theorem not_alignable_of {d : Str}
    (hd : ' ' ∉ d ∨ firstToken d = [] ∨
      ∃ c ∈ firstToken d, (c.isAlpha || c == '_') = false) : alignable d = false := by
  cases h : alignable d with
  | false => rfl
  | true =>
    simp only [alignable, Bool.and_eq_true, decide_eq_true_eq, List.all_eq_true,
      Bool.not_eq_true', List.isEmpty_eq_false] at h
    rcases hd with hd | hd | ⟨c, hc, hd⟩
    · exact absurd h.1.1 hd
    · exact absurd hd h.1.2
    · rw [h.2 c hc] at hd
      exact absurd hd (by simp)

/-- Directive lines only extend the pending run. -/
theorem run_directives (m : Bool) : ∀ (ls : List Str) (s : State),
    (∀ r ∈ ls, kindOf r = Kind.directive) →
    ∃ s', run m s ls = some s' ∧ s'.directives = s.directives ++ ls.map TrimSpace ∧
      s'.maxLength = s.maxLength ∧ s'.indent = s.indent ∧ s'.buf = s.buf := by
  intro ls
  induction ls with
  | nil => intro s _; exact ⟨s, rfl, by simp, rfl, rfl, rfl⟩
  | cons raw ls ih =>
    intro s h
    have hk : getType (TrimSpace raw) = Kind.directive := h raw (List.mem_cons_self _ _)
    obtain ⟨s', h1, h2, h3, h4, h5⟩ :=
      ih { s with directives := s.directives ++ [TrimSpace raw],
                  prevType := some Kind.directive, started := true }
        (fun r hr => h r (List.mem_cons_of_mem _ hr))
    refine ⟨s', ?_, ?_, h3, h4, h5⟩
    · rw [run_cons, step_directive m hk, Option.some_bind, h1]
    · rw [h2]
      simp

theorem step_comment_width {s s' : State} {raw : Str} (hk : kindOf raw = Kind.comment)
    (h : step false s raw = some s') :
    s'.maxLength = alignWidth s.maxLength s.directives ∧ s'.directives = [] := by
  rw [step_comment hk] at h
  cases hf : flushDirectives s.buf s.directives s.indent s.maxLength with
  | none => rw [hf] at h; exact absurd h (by simp)
  | some r =>
    rw [hf, Option.some_bind] at h
    obtain ⟨b, _, rfl⟩ := Option.map_eq_some'.1 h
    exact ⟨flushDirectives_snd hf, rfl⟩

theorem step_block_reset {m : Bool} {s s' : State} {raw : Str}
    (hk : kindOf raw = Kind.block_start ∨ kindOf raw = Kind.block_end)
    (h : step m s raw = some s') :
    s'.maxLength = 0 ∧ s'.directives = [] ∧ 0 ≤ s'.indent := by
  rcases hk with hk | hk
  · rw [step_block_start m hk] at h
    cases hf : flushDirectives s.buf s.directives s.indent s.maxLength with
    | none => rw [hf] at h; exact absurd h (by simp)
    | some r =>
      rw [hf, Option.some_bind] at h
      obtain ⟨b, hb, rfl⟩ := Option.map_eq_some'.1 h
      refine ⟨rfl, rfl, ?_⟩
      by_contra hneg
      have hlt : s.indent < 0 := by
        have : ¬ (0 ≤ s.indent + 1) := hneg
        omega
      rw [writeString_of_neg _ _ hlt] at hb
      exact absurd hb (by simp)
  · rw [step_block_end m hk] at h
    cases hf : flushDirectives s.buf s.directives s.indent s.maxLength with
    | none => rw [hf] at h; exact absurd h (by simp)
    | some r =>
      rw [hf, Option.some_bind] at h
      obtain ⟨b, hb, rfl⟩ := Option.map_eq_some'.1 h
      refine ⟨rfl, rfl, ?_⟩
      by_contra hneg
      have hlt : s.indent - 1 < 0 := not_le.1 hneg
      rw [writeString_of_neg _ _ hlt] at hb
      exact absurd hb (by simp)

/-- Over comment and directive lines the width at which the pending run is flushed does
not decrease. -/
theorem width_mono : ∀ (ls : List Str) (s s' : State),
    (∀ raw ∈ ls, kindOf raw = Kind.comment ∨ kindOf raw = Kind.directive) →
    run false s ls = some s' →
    alignWidth s.maxLength s.directives ≤ alignWidth s'.maxLength s'.directives := by
  intro ls
  induction ls with
  | nil =>
    intro s s' _ h
    rw [run] at h
    rw [Option.some.inj h]
  | cons raw ls ih =>
    intro s s' hk h
    rw [run_cons] at h
    cases hs : step false s raw with
    | none => rw [hs] at h; exact absurd h (by simp)
    | some s1 =>
      rw [hs, Option.some_bind] at h
      refine le_trans ?_ (ih s1 s' (fun r hr => hk r (List.mem_cons_of_mem _ hr)) h)
      rcases hk raw (List.mem_cons_self _ _) with hc | hd
      · obtain ⟨h1, h2⟩ := step_comment_width hc hs
        rw [h2, h1]
        exact le_refl _
      · rw [step_directive false hd] at hs
        rw [← Option.some.inj hs]
        show alignWidth s.maxLength s.directives
          ≤ alignWidth s.maxLength (s.directives ++ [TrimSpace raw])
        rw [alignWidth_append]
        exact le_alignWidth _ _

/-! ### The steps on a comment, a block_start and a block_end line -/

theorem reach_good {m : Bool} {x : Str} {s : State}
    (h : run m State.init (readLines [] x) = some s) : Good s :=
  run_invariant (P := Good) (fun _ _ _ hP hraw hs => Good_step hP hraw hs)
    (readLines [] x) State.init s (fun _ hr => readLines_noNewline hr) Good_init h

theorem render_sep_line (b : Bool) (line : Str) :
    render (sepLines b ++ [line]) = (if b = true then ['\n'] else []) ++ line ++ ['\n'] := by
  cases b <;> simp [sepLines, render]

theorem comment_step_eq {s : State} {raw : Str} (hi : 0 ≤ s.indent)
    (hk : kindOf raw = Kind.comment) :
    step false s raw = some { s with
      buf := s.buf ++ render (flushLines s) ++
        (if s.prevType ≠ some Kind.comment ∧ s.prevType ≠ some Kind.block_start
          then ['\n'] else []) ++
        List.replicate (2 * s.indent.toNat) ' ' ++
        (['#', ' '] ++ TrimSpace ((TrimSpace raw).drop 1)) ++ ['\n'],
      maxLength := flushWidth s.directives s.maxLength, directives := [],
      prevType := some Kind.comment, started := true } := by
  rw [step_comment_eq hi hk, List.append_assoc (flushLines s), render_append, render_sep_line]
  simp only [decide_eq_true_eq, spaces, commentText, List.append_assoc]

theorem block_start_step_eq (m : Bool) {s : State} {raw : Str} (hi : 0 ≤ s.indent)
    (hk : kindOf raw = Kind.block_start) :
    step m s raw = some { s with
      buf := s.buf ++ render (flushLines s) ++
        (if s.prevType ≠ some Kind.comment ∧ s.started = true then ['\n'] else []) ++
        List.replicate (2 * s.indent.toNat) ' ' ++ TrimSpace raw ++ ['\n'],
      maxLength := 0, directives := [], indent := s.indent + 1,
      prevType := some Kind.block_start, started := true } := by
  rw [step_block_start_eq m hi hk, List.append_assoc (flushLines s), render_append,
    render_sep_line]
  simp only [decide_eq_true_eq, spaces, List.append_assoc]

theorem block_end_step_eq (m : Bool) {s : State} {raw : Str} (hi : 1 ≤ s.indent)
    (hk : kindOf raw = Kind.block_end) :
    step m s raw = some { s with
      buf := s.buf ++ render (flushLines s) ++
        List.replicate (2 * (s.indent - 1).toNat) ' ' ++ ['}', '\n'],
      maxLength := 0, directives := [], indent := s.indent - 1,
      prevType := some Kind.block_end, started := true } := by
  have hl : TrimSpace raw = ['}'] := (getType_block_end_iff _).1 hk
  rw [step_block_end_eq m hi hk, render_append, hl]
  simp [render, spaces]

/-! ### The blank lines of the output -/

theorem LinesSep_nil : LinesSep [] := ⟨by simp, by simp, List.chain'_nil⟩

theorem LinesSep_snoc {ls : List Str} {f : Str} (h : LinesSep ls) (hne : f ≠ [])
    (hnl : '\n' ∉ f) : LinesSep (ls ++ [f]) := by
  obtain ⟨h1, h3, h4⟩ := h
  refine ⟨?_, ?_, ?_⟩
  · intro l hl
    rcases List.mem_append.1 hl with hl | hl
    · exact h1 l hl
    · rw [List.mem_singleton] at hl
      subst hl
      exact hnl
  · rw [List.getLast?_concat]
    simpa using fun e => hne e
  · rw [List.chain'_append]
    refine ⟨h4, List.chain'_singleton _, ?_⟩
    intro a ha y _ hae
    rw [Option.mem_def] at ha
    rw [hae] at ha
    exact absurd ha h3

theorem LinesSep_append {ls fs : List Str} (h : LinesSep ls)
    (hf : ∀ f ∈ fs, f ≠ [] ∧ '\n' ∉ f) : LinesSep (ls ++ fs) := by
  induction fs generalizing ls with
  | nil => simpa using h
  | cons f fs ih =>
    have hf1 := hf f (List.mem_cons_self _ _)
    have := ih (LinesSep_snoc h hf1.1 hf1.2) (fun g hg => hf g (List.mem_cons_of_mem _ hg))
    simpa using this

theorem LinesSep_sep {ls : List Str} {f : Str} (h : LinesSep ls) (hne : f ≠ [])
    (hnl : '\n' ∉ f) (hk : kindOf f = Kind.comment ∨ kindOf f = Kind.block_start) :
    LinesSep (ls ++ [[], f]) := by
  obtain ⟨h1, h3, h4⟩ := h
  refine ⟨?_, ?_, ?_⟩
  · intro l hl
    rcases List.mem_append.1 hl with hl | hl
    · exact h1 l hl
    · simp only [List.mem_cons, List.mem_singleton, List.not_mem_nil, or_false] at hl
      rcases hl with rfl | rfl
      · simp
      · exact hnl
  · have : ls ++ [[], f] = (ls ++ [[]]) ++ [f] := by simp
    rw [this, List.getLast?_concat]
    simpa using fun e => hne e
  · rw [List.chain'_append]
    refine ⟨h4, ?_, ?_⟩
    · rw [List.chain'_cons]
      exact ⟨fun _ => hk, List.chain'_singleton _⟩
    · intro a ha y _ hae
      rw [Option.mem_def] at ha
      rw [hae] at ha
      exact absurd ha h3

theorem LinesSep_sepLines {ls : List Str} {f : Str} (b : Bool) (h : LinesSep ls)
    (hne : f ≠ []) (hnl : '\n' ∉ f)
    (hk : kindOf f = Kind.comment ∨ kindOf f = Kind.block_start) :
    LinesSep (ls ++ (sepLines b ++ [f])) := by
  cases b
  · exact LinesSep_snoc h hne hnl
  · exact LinesSep_sep h hne hnl hk

theorem kindOf_spaces_append (n : Int) (l : Str) : kindOf (spaces n ++ l) = getType (TrimSpace l) := by
  rw [kindOf, TrimSpace_spaces_append (spaces_isSpace n)]

theorem OutInv_init : OutInv State.init := ⟨Good_init, [], rfl, LinesSep_nil⟩

theorem OutInv_step {m : Bool} {s s' : State} {raw : Str} (hinv : OutInv s)
    (hraw : '\n' ∉ TrimSpace raw) (h : step m s raw = some s') : OutInv s' := by
  obtain ⟨hg, ls, hbuf, hls⟩ := hinv
  refine ⟨Good_step hg hraw h, ?_⟩
  have hF : ∀ f ∈ flushLines s, f ≠ [] ∧ '\n' ∉ f :=
    fun f hf => ⟨(flushLines_ok hg f hf).1, (flushLines_ok hg f hf).2.1⟩
  rcases step_cases hg.1 h with ⟨_, _, rfl⟩ | ⟨hk, rfl⟩ | ⟨_, _, rfl⟩ | ⟨_, hk, rfl⟩ | ⟨hk, rfl⟩ |
    ⟨hk, h1, rfl⟩
  · exact ⟨ls, hbuf, hls⟩
  · exact ⟨ls, hbuf, hls⟩
  · exact ⟨ls ++ flushLines s, by simp [hbuf, render_append], LinesSep_append hls hF⟩
  · refine ⟨(ls ++ flushLines s) ++ (sepLines (decide (s.prevType ≠ some Kind.comment ∧
        s.prevType ≠ some Kind.block_start)) ++
        [spaces s.indent ++ commentText (TrimSpace raw)]), ?_, ?_⟩
    · simp only [hbuf, render_append, List.append_assoc]
    · refine LinesSep_sepLines _ (LinesSep_append hls hF) (by simp [commentText])
        (line_noNewline _ (commentText_noNewline hraw)) (Or.inl ?_)
      rw [kindOf_spaces_append]
      exact (commentText_readback _).1
  · have hne : TrimSpace raw ≠ [] := by
      intro e
      rw [e] at hk
      exact absurd hk (by decide)
    refine ⟨(ls ++ flushLines s) ++ (sepLines (decide (s.prevType ≠ some Kind.comment ∧
        s.started = true)) ++ [spaces s.indent ++ TrimSpace raw]), ?_, ?_⟩
    · simp only [hbuf, render_append, List.append_assoc]
    · refine LinesSep_sepLines _ (LinesSep_append hls hF) (by simp [hne])
        (line_noNewline _ hraw) (Or.inr ?_)
      rw [kindOf_spaces_append, TrimSpace_idem]
      exact hk
  · have hne : TrimSpace raw ≠ [] := by
      intro e
      rw [e] at hk
      exact absurd hk (by decide)
    refine ⟨(ls ++ flushLines s) ++ [spaces (s.indent - 1) ++ TrimSpace raw], ?_, ?_⟩
    · simp only [hbuf, render_append, List.append_assoc]
    · exact LinesSep_snoc (LinesSep_append hls hF) (by simp [hne]) (line_noNewline _ hraw)

/-- The buffer of a completed pass is a sequence of lines in which an empty line is
followed by a comment or a block_start line and the last line is not empty. -/
theorem output_lines {m : Bool} {x out : Str} (h : fmtFile m x = some out) :
    ∃ ls, out = render ls ∧ LinesSep ls := by
  unfold fmtFile at h
  cases hr : run m State.init (readLines [] x) with
  | none => rw [hr] at h; exact absurd h (by simp)
  | some sf =>
    rw [hr] at h
    simp only [Option.map_some', Option.some.injEq] at h
    obtain ⟨_, ls, hbuf, hls⟩ :=
      run_invariant (P := OutInv) (fun s raw s' hP hraw hs => OutInv_step hP hraw hs)
        (readLines [] x) State.init sf (fun raw hr => readLines_noNewline hr) OutInv_init hr
    exact ⟨ls, by rw [← h, hbuf], hls⟩

theorem neverNegative_prefix {ks : List Kind} (h : neverNegative ks = true) :
    ∀ i ≤ ks.length, (ks.take i).count Kind.block_end ≤ (ks.take i).count Kind.block_start := by
  intro i hi
  simp only [neverNegative, List.all_eq_true, List.mem_range, decide_eq_true_eq] at h
  exact h i (by omega)

/-- When the nesting depth never goes negative the pass completes. -/
theorem fmtFile_completes (m : Bool) {x : Str} (h : neverNegative (lineKinds x) = true) :
    ∃ out, fmtFile m x = some out := by
  obtain ⟨s', _, hrun, _⟩ :=
    run_indented m (readLines [] x) State.init 0 (fun raw hr => readLines_noNewline hr)
      Good_init rfl (by simpa [lineKinds] using neverNegative_prefix h)
  exact ⟨s'.buf, by rw [fmtFile, hrun]; rfl⟩

theorem render_eq_newline_cons {ls : List Str} (hnl : ∀ l ∈ ls, '\n' ∉ l) {t : Str}
    (h : render ls = '\n' :: t) : ∃ ls', ls = [] :: ls' ∧ t = render ls' := by
  cases ls with
  | nil => simp [render_nil] at h
  | cons l ls' =>
    rw [render_cons] at h
    cases l with
    | nil =>
      simp only [List.nil_append, List.cons.injEq, true_and] at h
      exact ⟨ls', rfl, h.symm⟩
    | cons c l' =>
      simp only [List.cons_append, List.cons.injEq] at h
      exact absurd (h.1 ▸ List.mem_cons_self c l') (hnl _ (List.mem_cons_self _ _))

theorem split_at_newline {l : Str} (hl : '\n' ∉ l) {a r t : Str}
    (h : l ++ '\n' :: r = a ++ '\n' :: t) :
    (a = l ∧ r = t) ∨ ∃ a', a = l ++ '\n' :: a' ∧ r = a' ++ '\n' :: t := by
  induction l generalizing a with
  | nil =>
    cases a with
    | nil =>
      simp only [List.nil_append, List.cons.injEq, true_and] at h
      exact Or.inl ⟨rfl, h⟩
    | cons c a' =>
      simp only [List.nil_append, List.cons_append, List.cons.injEq] at h
      exact Or.inr ⟨a', by rw [h.1]; rfl, h.2⟩
  | cons c l ih =>
    cases a with
    | nil =>
      simp only [List.nil_append, List.cons_append, List.cons.injEq] at h
      exact absurd (h.1 ▸ List.mem_cons_self c l) hl
    | cons d a' =>
      simp only [List.cons_append, List.cons.injEq] at h
      rcases ih (fun hm => hl (List.mem_cons_of_mem _ hm)) h.2 with ⟨e1, e2⟩ | ⟨a'', e1, e2⟩
      · exact Or.inl ⟨by rw [h.1, e1], e2⟩
      · exact Or.inr ⟨a'', by rw [h.1, e1]; rfl, e2⟩

/-- A text made of lines among which no two successive ones are empty has no three
successive newlines. -/
theorem no_triple_newline : ∀ (ls : List Str), (∀ l ∈ ls, '\n' ∉ l) →
    ls.Chain' (fun a b => a = [] → b ≠ []) →
    ∀ a b, render ls ≠ a ++ '\n' :: '\n' :: '\n' :: b := by
  intro ls
  induction ls with
  | nil =>
    intro _ _ a b h
    rw [render_nil] at h
    simp at h
  | cons l ls ih =>
    intro hnl hch a b h
    rw [render_cons] at h
    have hnl' : ∀ x ∈ ls, '\n' ∉ x := fun x hx => hnl x (List.mem_cons_of_mem _ hx)
    have hch' : ls.Chain' (fun a b => a = [] → b ≠ []) := (List.chain'_cons'.1 hch).2
    rcases split_at_newline (hnl l (List.mem_cons_self _ _)) h with ⟨_, e⟩ | ⟨a', _, e⟩
    · obtain ⟨ls1, rfl, e1⟩ := render_eq_newline_cons hnl' e
      obtain ⟨ls2, rfl, _⟩ := render_eq_newline_cons
        (fun x hx => hnl' x (List.mem_cons_of_mem _ hx)) e1.symm
      exact (List.chain'_cons.1 hch').1 rfl rfl
    · exact ih hnl' hch' a' b e

theorem render_getLast {ls : List Str} (h : ls ≠ []) : (render ls).getLast? = some '\n' := by
  rcases List.eq_nil_or_concat ls with e | ⟨p, l, e⟩
  · exact absurd e h
  · rw [List.concat_eq_append] at e
    rw [e, render_append, render_cons, render_nil,
      show render p ++ (l ++ ['\n']) = (render p ++ l) ++ ['\n'] by simp]
    exact List.getLast?_concat _

theorem render_ends {ls : List Str} (hnl : ∀ l ∈ ls, '\n' ∉ l) (hlast : ls.getLast? ≠ some []) :
    render ls = [] ∨ ∃ p l, render ls = p ++ l ++ ['\n'] ∧ l ≠ [] ∧ '\n' ∉ l ∧
      (p = [] ∨ p.getLast? = some '\n') := by
  rcases List.eq_nil_or_concat ls with e | ⟨p, l, e⟩
  · rw [e]
    exact Or.inl rfl
  · rw [List.concat_eq_append] at e
    subst e
    refine Or.inr ⟨render p, l, ?_, ?_, hnl l (by simp), ?_⟩
    · rw [render_append, render_cons, render_nil]
      simp
    · rintro rfl
      exact hlast (List.getLast?_concat _)
    · cases hp : p with
      | nil => exact Or.inl rfl
      | cons q qs =>
        rw [← hp]
        exact Or.inr (render_getLast (by rw [hp]; simp))

theorem kindOf_block_end_line (k : Nat) : kindOf (List.replicate k ' ' ++ ['}']) = Kind.block_end := by
  rw [kindOf, TrimSpace_spaces_append (fun c hc => by
    rw [List.mem_replicate] at hc
    rw [hc.2]; exact isSpace_space)]
  decide

theorem kindOf_nil : kindOf [] = Kind.newline := by decide

/-! ### What remains when white space is deleted -/

theorem strip_append (a b : Str) : strip (a ++ b) = strip a ++ strip b := by
  simp [strip]

theorem strip_of_spaces {a : Str} (h : ∀ c ∈ a, isSpace c = true) : strip a = [] := by
  rw [strip, List.filter_eq_nil_iff]
  intro c hc
  simp [h c hc]

theorem strip_dropWhile (s : Str) : strip (s.dropWhile isSpace) = strip s := by
  induction s with
  | nil => rfl
  | cons c s ih =>
    rw [List.dropWhile_cons]
    cases hc : isSpace c
    · simp
    · simp only [if_true, ih]
      simp [strip, hc]

theorem strip_rdropWhile (s : Str) : strip (s.rdropWhile isSpace) = strip s := by
  induction s using List.reverseRecOn with
  | nil => rfl
  | append_singleton s c ih =>
    rw [List.rdropWhile_concat]
    cases hc : isSpace c
    · simp
    · simp only [if_true, ih, strip_append]
      rw [strip_of_spaces (a := [c]) (by simp [hc])]
      simp

theorem strip_TrimSpace (s : Str) : strip (TrimSpace s) = strip s := by
  rw [TrimSpace, strip_rdropWhile, strip_dropWhile]

theorem strip_spaces (n : Int) : strip (spaces n) = [] :=
  strip_of_spaces (spaces_isSpace n)

theorem strip_replicate (k : Nat) : strip (List.replicate k ' ') = [] :=
  strip_of_spaces (fun c hc => by
    rw [List.mem_replicate] at hc
    rw [hc.2]; exact isSpace_space)

theorem strip_render (ls : List Str) : strip (render ls) = strip ls.flatten := by
  induction ls with
  | nil => rfl
  | cons l ls ih =>
    rw [render_cons, List.flatten_cons, strip_append, strip_append, ← ih,
      show '\n' :: render ls = ['\n'] ++ render ls by rfl, strip_append,
      strip_of_spaces (a := ['\n']) (by simp [isSpace_newline])]
    rfl

theorem strip_fmtDirective (W : Int) (d : Str) : strip (fmtDirective W d) = strip d := by
  cases h : alignable d
  · rw [fmtDirective_of_not_alignable W h]
  · rw [fmtDirective_of_alignable W h]
    conv_rhs => rw [afterToken_spec (alignable_mem h)]
    rw [show firstToken d ++ ' ' :: afterToken d = firstToken d ++ ([' '] ++ afterToken d) by rfl]
    simp only [strip_append, strip_replicate, strip_TrimSpace,
      strip_of_spaces (a := [' ']) (by simp [isSpace_space]), List.append_nil, List.nil_append]

theorem strip_commentText {l : Str} (h : getType l = Kind.comment) :
    strip (commentText l) = strip l := by
  rw [getType_comment_iff] at h
  cases l with
  | nil => simp at h
  | cons c t =>
    simp only [List.head?_cons, Option.some.injEq] at h
    subst h
    rw [commentText, List.drop_succ_cons, List.drop_zero,
      show ['#', ' '] ++ TrimSpace t = ['#'] ++ ([' '] ++ TrimSpace t) by rfl,
      show '#' :: t = ['#'] ++ t by rfl]
    simp only [strip_append, strip_TrimSpace,
      strip_of_spaces (a := [' ']) (by simp [isSpace_space]), List.nil_append]

theorem strip_flushLines (s : State) : strip (render (flushLines s)) = strip s.directives.flatten := by
  rw [strip_render, flushLines]
  generalize flushWidth s.directives s.maxLength = W
  induction s.directives with
  | nil => rfl
  | cons d ds ih =>
    rw [List.map_cons, List.flatten_cons, List.flatten_cons, strip_append, strip_append, ih,
      strip_append, strip_spaces, strip_fmtDirective]
    rfl

theorem strip_sepLines (b : Bool) : strip (render (sepLines b)) = [] := by
  cases b
  · rfl
  · decide

/-- One iteration keeps the text without white space: that of the buffer and of the
pending run grows by that of the line read. -/
theorem step_strip {s s' : State} {raw : Str} (hi : 0 ≤ s.indent)
    (h : step false s raw = some s') :
    strip s'.buf ++ strip s'.directives.flatten
      = strip s.buf ++ strip s.directives.flatten ++ strip raw := by
  rcases step_cases hi h with ⟨hm, _, _⟩ | ⟨_, rfl⟩ | ⟨_, hk, rfl⟩ | ⟨_, hk, rfl⟩ | ⟨hk, rfl⟩ |
    ⟨hk, _, rfl⟩
  · exact absurd hm (by simp)
  · simp only [List.flatten_append, List.flatten_cons, List.flatten_nil, List.append_nil,
      strip_append, strip_TrimSpace, List.append_assoc]
  · have hr : strip raw = [] := by
      rw [← strip_TrimSpace, (getType_newline_iff _).1 hk]
      rfl
    simp only [strip_append, strip_flushLines, List.flatten_nil, hr, List.append_nil]
    simp [strip]
  · simp only [render_append, strip_append, strip_flushLines, strip_sepLines, render_cons,
      render_nil, strip_spaces, strip_commentText hk, strip_TrimSpace, List.flatten_nil,
      List.append_nil, List.nil_append, List.append_assoc]
    rw [show ['\n'] = ([] : Str) ++ ['\n'] by rfl,
      strip_of_spaces (a := [] ++ ['\n']) (by simp [isSpace_newline])]
    simp [strip]
  · simp only [render_append, strip_append, strip_flushLines, strip_sepLines, render_cons,
      render_nil, strip_spaces, strip_TrimSpace, List.flatten_nil,
      List.append_nil, List.nil_append, List.append_assoc]
    rw [show ['\n'] = ([] : Str) ++ ['\n'] by rfl,
      strip_of_spaces (a := [] ++ ['\n']) (by simp [isSpace_newline])]
    simp [strip]
  · simp only [render_append, strip_append, strip_flushLines, render_cons,
      render_nil, strip_spaces, strip_TrimSpace, List.flatten_nil,
      List.append_nil, List.nil_append, List.append_assoc]
    rw [show ['\n'] = ([] : Str) ++ ['\n'] by rfl,
      strip_of_spaces (a := [] ++ ['\n']) (by simp [isSpace_newline])]
    simp [strip]

theorem run_strip : ∀ (ls : List Str) (s s' : State), Good s →
    (∀ raw ∈ ls, '\n' ∉ TrimSpace raw) → run false s ls = some s' →
    strip s'.buf ++ strip s'.directives.flatten
      = strip s.buf ++ strip s.directives.flatten ++ strip ls.flatten := by
  intro ls
  induction ls with
  | nil =>
    intro s s' _ _ h
    rw [run] at h
    rw [← Option.some.inj h]
    simp [strip]
  | cons raw ls ih =>
    intro s s' hg hraw h
    rw [run_cons] at h
    cases hs : step false s raw with
    | none => rw [hs] at h; exact absurd h (by simp)
    | some s1 =>
      rw [hs, Option.some_bind] at h
      rw [ih s1 s' (Good_step hg (hraw raw (List.mem_cons_self _ _)) hs)
        (fun r hr => hraw r (List.mem_cons_of_mem _ hr)) h, step_strip hg.1 hs,
        List.flatten_cons, strip_append]
      simp only [List.append_assoc]

theorem step_directives_nil {s s' : State} {raw : Str} (hk : kindOf raw ≠ Kind.directive)
    (h : step false s raw = some s') : s'.directives = [] := by
  cases hk' : kindOf raw with
  | directive => exact absurd hk' hk
  | newline =>
    rw [step_newline hk'] at h
    obtain ⟨r, _, rfl⟩ := Option.map_eq_some'.1 h
    rfl
  | comment =>
    rw [step_comment hk'] at h
    obtain ⟨r, _, h2⟩ := Option.bind_eq_some.1 h
    obtain ⟨b, _, rfl⟩ := Option.map_eq_some'.1 h2
    rfl
  | block_start =>
    rw [step_block_start false hk'] at h
    obtain ⟨r, _, h2⟩ := Option.bind_eq_some.1 h
    obtain ⟨b, _, rfl⟩ := Option.map_eq_some'.1 h2
    rfl
  | block_end =>
    rw [step_block_end false hk'] at h
    obtain ⟨r, _, h2⟩ := Option.bind_eq_some.1 h
    obtain ⟨b, _, rfl⟩ := Option.map_eq_some'.1 h2
    rfl

/-- With minify off no run is pending after the loop unless the last line read is a
directive. -/
theorem final_directives_nil {ls : List Str} {s s' : State} (hs : s.directives = [])
    (hl : (ls.map kindOf).getLast? ≠ some Kind.directive) (h : run false s ls = some s') :
    s'.directives = [] := by
  rcases List.eq_nil_or_concat ls with e | ⟨p, last, e⟩
  · subst e
    rw [run] at h
    rw [← Option.some.inj h]
    exact hs
  · rw [List.concat_eq_append] at e
    subst e
    rw [run_append] at h
    obtain ⟨s1, _, h2⟩ := Option.bind_eq_some.1 h
    rw [run_one] at h2
    refine step_directives_nil ?_ h2
    intro hk
    apply hl
    rw [List.map_append, List.map_cons, List.map_nil, List.getLast?_concat, hk]

theorem getLast?_filter_of {ks : List Kind}
    (h : (ks.filter (fun k => decide (k ≠ Kind.newline))).getLast? ≠ some Kind.directive) :
    ks.getLast? ≠ some Kind.directive := by
  intro hk
  obtain ⟨p, rfl⟩ := List.getLast?_eq_some_iff.1 hk
  apply h
  rw [List.filter_append]
  simp

theorem readLines_flatten_eq (p acc : Str) :
    (readLines acc (p ++ ['\n'])).flatten = acc ++ p ++ ['\n'] := by
  induction p generalizing acc with
  | nil => simp [readLines]
  | cons c p ih =>
    rw [List.cons_append, readLines]
    split_ifs with hc
    · rw [List.flatten_cons, ih]
      simp
    · rw [ih]
      simp

theorem readLines_flatten_of {x : Str} (hx : x = [] ∨ x.getLast? = some '\n') :
    (readLines [] x).flatten = x := by
  rcases hx with rfl | hx
  · rfl
  · obtain ⟨p, rfl⟩ := List.getLast?_eq_some_iff.1 hx
    rw [readLines_flatten_eq]
    rfl

/-! ### Inputs whose runs are not stable -/

/-- The lines one iteration writes: with minify off, a line that is not a directive
writes the pending run first. -/
theorem step_lines {m : Bool} {s s' : State} {raw : Str} (hg : Good s)
    (hraw : '\n' ∉ TrimSpace raw) (h : step m s raw = some s') :
    ∃ out, s'.buf = s.buf ++ render out ∧ (∀ l ∈ out, '\n' ∉ l) ∧
      (m = false → kindOf raw ≠ Kind.directive → ∃ out', out = flushLines s ++ out') := by
  have hF : ∀ l ∈ flushLines s, '\n' ∉ l := fun l hl => (flushLines_ok hg l hl).2.1
  rcases step_cases hg.1 h with ⟨hm, _, rfl⟩ | ⟨hk, rfl⟩ | ⟨_, _, rfl⟩ | ⟨_, _, rfl⟩ |
    ⟨_, rfl⟩ | ⟨_, _, rfl⟩
  · exact ⟨[], by simp [render_nil], by simp, fun e => absurd (hm.symm.trans e) (by simp)⟩
  · exact ⟨[], by simp [render_nil], by simp, fun _ e => absurd hk e⟩
  · exact ⟨flushLines s, rfl, hF, fun _ _ => ⟨[], by simp⟩⟩
  · refine ⟨_, rfl, ?_, fun _ _ => ⟨_, List.append_assoc _ _ _⟩⟩
    intro l hl
    simp only [List.mem_append, List.mem_singleton] at hl
    rcases hl with (hl | hl) | hl
    · exact hF l hl
    · exact sepLines_noNewline _ l hl
    · rw [hl]
      exact line_noNewline _ (commentText_noNewline hraw)
  · refine ⟨_, rfl, ?_, fun _ _ => ⟨_, List.append_assoc _ _ _⟩⟩
    intro l hl
    simp only [List.mem_append, List.mem_singleton] at hl
    rcases hl with (hl | hl) | hl
    · exact hF l hl
    · exact sepLines_noNewline _ l hl
    · rw [hl]
      exact line_noNewline _ hraw
  · refine ⟨_, rfl, ?_, fun _ _ => ⟨_, rfl⟩⟩
    intro l hl
    simp only [List.mem_append, List.mem_singleton] at hl
    rcases hl with hl | hl
    · exact hF l hl
    · rw [hl]
      exact line_noNewline _ hraw

/-- The lines the loop writes. -/
theorem run_lines {m : Bool} : ∀ (ls : List Str) (s sf : State), Good s →
    (∀ raw ∈ ls, '\n' ∉ TrimSpace raw) → run m s ls = some sf →
    ∃ out, sf.buf = s.buf ++ render out ∧ ∀ l ∈ out, '\n' ∉ l := by
  intro ls
  induction ls with
  | nil =>
    intro s sf _ _ h
    rw [run] at h
    rw [← Option.some.inj h]
    exact ⟨[], by simp [render_nil], by simp⟩
  | cons raw ls ih =>
    intro s sf hg hraw h
    rw [run_cons] at h
    cases hs : step m s raw with
    | none => rw [hs] at h; exact absurd h (by simp)
    | some s' =>
      rw [hs, Option.some_bind] at h
      have hr := hraw raw (List.mem_cons_self _ _)
      obtain ⟨o1, hb1, hn1, _⟩ := step_lines hg hr hs
      obtain ⟨o2, hb2, hn2⟩ :=
        ih s' sf (Good_step hg hr hs) (fun r hr => hraw r (List.mem_cons_of_mem _ hr)) h
      refine ⟨o1 ++ o2, by rw [hb2, hb1, render_append, List.append_assoc], ?_⟩
      intro l hl
      rcases List.mem_append.1 hl with hl | hl
      · exact hn1 l hl
      · exact hn2 l hl

/-- With minify off, what the loop writes first, if it writes, is its pending run,
extended with the directives read before the flush. -/
theorem first_flush : ∀ (ls : List Str) (s sf : State), Good s →
    (∀ raw ∈ ls, '\n' ∉ TrimSpace raw) → run false s ls = some sf →
    sf.buf = s.buf ∨ ∃ Q tail, sf.buf = s.buf ++
      render ((s.directives ++ Q).map (fun d => spaces s.indent ++
        fmtDirective (flushWidth (s.directives ++ Q) s.maxLength) d)) ++ tail := by
  intro ls
  induction ls with
  | nil =>
    intro s sf _ _ h
    rw [run] at h
    rw [← Option.some.inj h]
    exact Or.inl rfl
  | cons raw ls ih =>
    intro s sf hg hraw h
    rw [run_cons] at h
    cases hs : step false s raw with
    | none => rw [hs] at h; exact absurd h (by simp)
    | some s' =>
      rw [hs, Option.some_bind] at h
      have hr := hraw raw (List.mem_cons_self _ _)
      have hg' := Good_step hg hr hs
      have hrest := fun r hr => hraw r (List.mem_cons_of_mem _ hr)
      by_cases hk : kindOf raw = Kind.directive
      · rw [step_directive false hk] at hs
        have hs' := Option.some.inj hs
        subst hs'
        rcases ih _ sf hg' hrest h with hl | ⟨Q, tail, hb⟩
        · exact Or.inl hl
        · refine Or.inr ⟨TrimSpace raw :: Q, tail, ?_⟩
          rw [hb]
          simp only [List.append_assoc, List.singleton_append]
      · obtain ⟨o1, hb1, _, hfl⟩ := step_lines hg hr hs
        obtain ⟨o1', rfl⟩ := hfl rfl hk
        obtain ⟨o2, hb2, _⟩ := run_lines ls s' sf hg' hrest h
        refine Or.inr ⟨[], render o1' ++ render o2, ?_⟩
        rw [hb2, hb1, render_append, List.append_nil]
        simp only [flushLines, List.append_assoc]

/-- An alignable directive is not written the same at two widths that hold its name. -/
theorem fmtDirective_width_ne {w W : Int} {d : Str} (ha : alignable d = true)
    (hl : ((firstToken d).length : Int) ≤ w) (hw : w < W) :
    fmtDirective w d ≠ fmtDirective W d := by
  rw [fmtDirective_of_alignable w ha, fmtDirective_of_alignable W ha]
  intro e
  have := congrArg List.length e
  simp only [List.length_append, List.length_replicate, List.length_singleton] at this
  omega

/-- A run with an alignable directive is not written the same at two widths that hold its
names, whatever follows. -/
theorem render_width_ne (n : Int) {w W : Int} (hw : w < W) : ∀ (G : List Str) (R1 R2 : Str),
    (∀ d ∈ G, '\n' ∉ d) →
    (∀ d ∈ G, alignable d = true → ((firstToken d).length : Int) ≤ w) →
    (∃ d ∈ G, alignable d = true) →
    render (G.map (fun d => spaces n ++ fmtDirective w d)) ++ R1
      ≠ render (G.map (fun d => spaces n ++ fmtDirective W d)) ++ R2 := by
  intro G
  induction G with
  | nil =>
    intro _ _ _ _ h
    obtain ⟨d, hd, _⟩ := h
    exact absurd hd (List.not_mem_nil d)
  | cons d G ih =>
    intro R1 R2 hnl hlen hex e
    simp only [List.map_cons, render_cons, List.append_assoc, List.cons_append] at e
    have e' := List.append_cancel_left e
    have hd := hnl d (List.mem_cons_self _ _)
    rcases split_at_newline (fmtDirective_noNewline w hd) e' with ⟨h1, h2⟩ | ⟨a, h1, _⟩
    · cases ha : alignable d
      · refine ih R1 R2 (fun x hx => hnl x (List.mem_cons_of_mem _ hx))
          (fun x hx => hlen x (List.mem_cons_of_mem _ hx)) ?_ h2
        obtain ⟨x, hx, hax⟩ := hex
        rcases List.mem_cons.1 hx with rfl | hx
        · rw [ha] at hax; exact absurd hax (by simp)
        · exact ⟨x, hx, hax⟩
      · exact fmtDirective_width_ne ha (hlen d (List.mem_cons_self _ _) ha) hw h1.symm
    · apply fmtDirective_noNewline W hd
      rw [h1]
      simp

/-- The second pass reads the run that the first pass flushes: its buffer and width do
not change and the run is added to its pending run. -/
theorem read_run {m o g : Bool} {s1 s2 : State} (h : Sim m o g s1 s2) :
    ∃ s2a, run m s2 ((flushLines s1).map (fun l => l ++ ['\n'])) = some s2a ∧
      s2a.buf = s2.buf ∧ s2a.indent = s2.indent ∧ s2a.maxLength = s2.maxLength ∧
      s2a.directives = s2.directives ++
        s1.directives.map (fmtDirective (flushWidth s1.directives s1.maxLength)) := by
  by_cases hD : s1.directives = []
  · exact ⟨s2, by simp [flushLines, hD, run], rfl, rfl, rfl, by simp [hD]⟩
  · have hfs : ∀ f ∈ s1.directives.map (fmtDirective (flushWidth s1.directives s1.maxLength)),
        IsDir f := by
      intro f hf
      obtain ⟨d, hd, rfl⟩ := List.mem_map.1 hf
      exact IsDir_fmtDirective _ (h.good.2 d hd)
    have hrun := run_directive_lines m s1.indent _ s2 hfs (by simpa using hD)
    refine ⟨{ s2 with
        directives := s2.directives ++
          s1.directives.map (fmtDirective (flushWidth s1.directives s1.maxLength)),
        prevType := some Kind.directive, started := true }, ?_, rfl, rfl, rfl, rfl⟩
    rw [← hrun, flushLines, List.map_map, List.map_map]
    rfl

/-- When the first pass flushes a run that widens the column of an alignable directive
that a blank line has flushed, the second pass does not reach the same buffer. -/
theorem diverge_flush {o g : Bool} {s1 s2 : State} (h : Sim false o g s1 s2)
    (hg : g = true) (hne : flushWidth s1.directives s1.maxLength ≠ s1.maxLength)
    (out : List Str) (hnl : ∀ l ∈ out, '\n' ∉ l) (s2f : State)
    (hrun : run false s2 ((flushLines s1 ++ out).map (fun l => l ++ ['\n'])) = some s2f) :
    s2f.buf ≠ s1.buf ++ render (flushLines s1 ++ out) := by
  have hi2 : 0 ≤ s2.indent := h.good2.1
  have hfl := h.flush
  rw [flushDirectives_of_nonneg _ _ hi2] at hfl
  simp only [Option.some.injEq, Prod.mk.injEq] at hfl
  obtain ⟨hb, hw⟩ := hfl
  obtain ⟨d0, hd0, ha0⟩ := h.alignedPending rfl hg
  obtain ⟨s2a, hrunF, hba, hia, hwa, hda⟩ := read_run h
  have hFnl : ∀ l ∈ flushLines s1, '\n' ∉ l := fun l hl => (flushLines_ok h.good l hl).2.1
  have hga : Good s2a := run_good h.good2 hFnl hrunF
  rw [List.map_append, run_append, hrunF, Option.some_bind] at hrun
  have hraw : ∀ raw ∈ out.map (fun l => l ++ ['\n']), '\n' ∉ TrimSpace raw := by
    intro raw hr
    obtain ⟨l, hl, rfl⟩ := List.mem_map.1 hr
    rw [TrimSpace_concat_space isSpace_newline]
    exact fun hm => hnl l hl (mem_of_mem_TrimSpace hm)
  intro e
  rw [← hb] at e
  rcases first_flush _ s2a s2f hga hraw hrun with hl | ⟨Q, tail, hq⟩
  · rw [hl, hba] at e
    have e2 := List.self_eq_append_right.1 (by simpa only [List.append_assoc] using e)
    obtain ⟨a, b, hab⟩ := List.append_of_mem hd0
    rw [hab] at e2
    simp [render] at e2
  · rw [hq, hba, hia, hwa, hda] at e
    simp only [List.append_assoc, List.map_append, render_append] at e
    have e' := List.append_cancel_left e
    have hlt : s1.maxLength < flushWidth (s2.directives ++
        (s1.directives.map (fmtDirective (flushWidth s1.directives s1.maxLength)) ++ Q))
        s2.maxLength := by
      have happ : ∀ (w : Int) (ds es : List Str),
          alignWidth w (ds ++ es) = alignWidth (alignWidth w ds) es := by
        intro w ds es
        simp [alignWidth, List.filter_append, List.foldl_append]
      rw [flushWidth_eq, happ, happ, ← flushWidth_eq s2.directives, hw,
        alignWidth_map_fmtDirective]
      have h1 := le_alignWidth (alignWidth s1.maxLength s1.directives) Q
      have h2 := le_alignWidth s1.maxLength s1.directives
      rw [flushWidth_eq] at hne
      omega
    rw [hw] at e'
    exact render_width_ne s2.indent hlt s2.directives _ _
      (fun d hd => (h.good2.2 d hd).2.1)
      (fun d hd ha => by
        have := length_le_alignWidth s2.maxLength hd ha
        rw [← flushWidth_eq, hw] at this
        exact this)
      ⟨d0, hd0, ha0⟩ e'.symm

/-- With minify off, when the runs that blank lines flush are not stable, the second pass
over the buffer of the first does not reach the same buffer. -/
theorem diverge_run : ∀ (ls : List Str) (o g : Bool) (s1 s2 s1f : State),
    Sim false o g s1 s2 → (∀ raw ∈ ls, '\n' ∉ TrimSpace raw) →
    runsStable o g s1.maxLength s1.directives ls = false →
    run false s1 ls = some s1f →
    ∃ out, s1f.buf = s1.buf ++ render out ∧ (∀ l ∈ out, '\n' ∉ l) ∧
      ∀ s2f, run false s2 (out.map (fun l => l ++ ['\n'])) = some s2f →
        s2f.buf ≠ s1f.buf := by
  intro ls
  induction ls with
  | nil =>
    intro o g s1 s2 s1f h _ hc hrun
    rw [run] at hrun
    have hs := Option.some.inj hrun
    subst hs
    have ho : o = true := by simpa [runsStable] using hc
    have hne := h.openPending rfl ho
    refine ⟨[], by simp [render_nil], by simp, ?_⟩
    intro s2f h2 e
    simp only [List.map_nil, run, Option.some.injEq] at h2
    subst h2
    have hfl := h.flush
    rw [flushDirectives_of_nonneg _ _ h.good2.1] at hfl
    simp only [Option.some.injEq, Prod.mk.injEq] at hfl
    rw [e] at hfl
    have e2 := List.append_right_eq_self.1 hfl.1
    cases hd : s2.directives with
    | nil => exact hne hd
    | cons d ds =>
      rw [hd] at e2
      simp [render] at e2
  | cons raw ls ih =>
    intro o g s1 s2 s1f h hraw hc hrun
    rw [run_cons] at hrun
    cases hs : step false s1 raw with
    | none => rw [hs] at hrun; exact absurd hrun (by simp)
    | some s1' =>
      rw [hs, Option.some_bind] at hrun
      have hr := hraw raw (List.mem_cons_self _ _)
      have hrest := fun r hr => hraw r (List.mem_cons_of_mem _ hr)
      by_cases hstab : g = true → kindOf raw ≠ Kind.directive →
          flushWidth s1.directives s1.maxLength = s1.maxLength
      · obtain ⟨out1, s2', hbuf1, hnl1, hrun1, hsim⟩ := sim_step h hr hs (fun _ => hstab)
        obtain ⟨hw, hd⟩ := step_track h.good.1 hs
        have hc' : runsStable (nextOpen o s1.directives (kindOf raw))
            (nextAligned g s1.directives (kindOf raw)) s1'.maxLength s1'.directives ls
            = false := by
          rw [hw, hd]
          simp only [runsStable, Bool.and_eq_false_iff, Bool.or_eq_false_iff,
            decide_eq_false_iff_not, Bool.not_eq_false'] at hc
          rcases hc with ⟨⟨hk, hg⟩, hne⟩ | hc
          · exact absurd (hstab hg hk) hne
          · exact hc
        obtain ⟨out2, hbuf2, hnl2, hfin⟩ := ih _ _ s1' s2' s1f hsim hrest hc' hrun
        refine ⟨out1 ++ out2, by rw [hbuf2, hbuf1, render_append, List.append_assoc], ?_, ?_⟩
        · intro l hl
          rcases List.mem_append.1 hl with hl | hl
          · exact hnl1 l hl
          · exact hnl2 l hl
        · intro s2f h2
          rw [List.map_append, run_append, hrun1, Option.some_bind] at h2
          exact hfin s2f h2
      · simp only [not_forall] at hstab
        obtain ⟨hg, hk, hne⟩ := hstab
        obtain ⟨o1, hb1, hn1, hfl⟩ := step_lines h.good hr hs
        obtain ⟨o1', rfl⟩ := hfl rfl hk
        obtain ⟨o2, hb2, hn2⟩ := run_lines ls s1' s1f (Good_step h.good hr hs) hrest hrun
        have hn1' : ∀ l ∈ o1', '\n' ∉ l := fun l hl => hn1 l (List.mem_append_right _ hl)
        have hnl : ∀ l ∈ o1' ++ o2, '\n' ∉ l := by
          intro l hl
          rcases List.mem_append.1 hl with hl | hl
          · exact hn1' l hl
          · exact hn2 l hl
        have hbuf : s1f.buf = s1.buf ++ render (flushLines s1 ++ (o1' ++ o2)) := by
          rw [hb2, hb1, ← List.append_assoc (flushLines s1), render_append (flushLines s1 ++ o1'),
            List.append_assoc]
        refine ⟨flushLines s1 ++ (o1' ++ o2), hbuf, ?_, ?_⟩
        · intro l hl
          rcases List.mem_append.1 hl with hl | hl
          · exact (flushLines_ok h.good l hl).2.1
          · exact hnl l hl
        · intro s2f h2
          rw [hbuf]
          exact diverge_flush h hg hne (o1' ++ o2) hnl s2f h2

/-- With minify off, when a pass completes with a buffer that the same pass leaves as it
is, the runs that blank lines flush in the input are stable: stability leaves out no
input whose output the second pass keeps. -/
theorem stable_of_fixed {x y : Str} (h : fmtFile false x = some y)
    (hy : fmtFile false y = some y) :
    runsStable false false 0 [] (readLines [] x) = true := by
  by_contra hc
  rw [Bool.not_eq_true] at hc
  unfold fmtFile at h
  cases hr : run false State.init (readLines [] x) with
  | none => rw [hr] at h; exact absurd h (by simp)
  | some s1f =>
    rw [hr] at h
    simp only [Option.map_some', Option.some.injEq] at h
    obtain ⟨out, hbuf, hnl, hfin⟩ :=
      diverge_run (readLines [] x) false false State.init State.init s1f (Sim_init false)
        (fun raw hraw => readLines_noNewline hraw) hc hr
    have hyo : y = render out := by
      rw [← h, hbuf]
      rfl
    rw [fmtFile, hyo, readLines_render out hnl] at hy
    cases hr2 : run false State.init (out.map (fun l => l ++ ['\n'])) with
    | none => rw [hr2] at hy; exact absurd hy (by simp)
    | some s2f =>
      rw [hr2] at hy
      simp only [Option.map_some', Option.some.injEq] at hy
      exact hfin s2f hr2 (by rw [hy, ← hyo, h])

/-! ## The claims -/

/-- C1 (as stated): with minify off, formatting `a 1`, blank, `bbb 2`, `#c` gives
`a 1`, `bbb 2`, blank, `# c`, and formatting that gives `a   1`, `bbb 2`, blank, `# c`:
the two runs that the blank line separated are one run in the output. -/
theorem format_not_idempotent :
    fmtFile false "a 1\n\nbbb 2\n#c\n".toList = some "a 1\nbbb 2\n\n# c\n".toList ∧
    fmtFile false "a 1\nbbb 2\n\n# c\n".toList = some "a   1\nbbb 2\n\n# c\n".toList ∧
    fmtFile false "a 1\nbbb 2\n\n# c\n".toList ≠ some "a 1\nbbb 2\n\n# c\n".toList := by
  decide

/-- C1 (amended): when a pass completes with buffer `y`, the same pass on `y` gives `y`
again, provided that, with minify off, the runs that blank lines of the input flush are
stable: once a blank line has flushed an alignable directive, every flush up to and
including the one of the next comment, block_start or block_end line leaves the carried
width as it is; and the input does not end while directives that a blank line has flushed
are the last lines written, that is before a comment, block_start or block_end line has
followed them. -/
theorem format_idempotent (m : Bool) (x y : Str) (h : fmtFile m x = some y)
    (hc : m = false → runsStable false false 0 [] (readLines [] x) = true) :
    fmtFile m y = some y := by
  unfold fmtFile at h
  cases hr : run m State.init (readLines [] x) with
  | none => rw [hr] at h; exact absurd h (by simp)
  | some s1f =>
    rw [hr] at h
    simp only [Option.map_some', Option.some.injEq] at h
    obtain ⟨out, s2f, hbuf, hnl, hrun2, hfin⟩ :=
      sim_run m (readLines [] x) false false State.init State.init s1f (Sim_init m)
        (fun raw hraw => readLines_noNewline hraw) hc hr
    have hy : y = render out := by
      rw [← h, hbuf]
      rfl
    rw [fmtFile, hy, readLines_render out hnl, hrun2]
    simp [hfin, ← hy, h]

/-- C1 (amended), on the input `server {`, `listen 80;`, blank, `root /var/www;`, `}` with
minify off: the blank line flushes `listen 80;` at width 6, which `root` does not
widen. -/
theorem format_idempotent_witness :
    fmtFile false "server \x7b\nlisten 80;\n\nroot /var/www;\n\x7d\n".toList
      = some "server \x7b\n  listen 80;\n  root   /var/www;\n\x7d\n".toList ∧
    (false = false → runsStable false false 0 []
      (readLines [] "server \x7b\nlisten 80;\n\nroot /var/www;\n\x7d\n".toList) = true) ∧
    fmtFile false "server \x7b\n  listen 80;\n  root   /var/www;\n\x7d\n".toList
      = some "server \x7b\n  listen 80;\n  root   /var/www;\n\x7d\n".toList :=
  ⟨by decide, fun _ => by decide,
    format_idempotent false "server \x7b\nlisten 80;\n\nroot /var/www;\n\x7d\n".toList
      "server \x7b\n  listen 80;\n  root   /var/www;\n\x7d\n".toList (by decide)
      (fun _ => by decide)⟩

/-- C3: on a well-formed input the pass completes, and the non-empty lines of the buffer
are, in order, the lines of the input that reach the output, each written as exactly
`2 * d` spaces followed by a character that is not white space, `d` being the nesting
depth of the input line. -/
theorem indent_matches_depth (m : Bool) (x : Str) (hwf : wellFormed (lineKinds x) = true) :
    ∃ out, fmtFile m x = some out ∧
      List.Forall₂
        (fun line i => ∃ c t,
          line = List.replicate (2 * depthOf (lineKinds x) i) ' ' ++ c :: t ∧ isSpace c = false)
        ((outLines out).filter (fun l => !l.isEmpty))
        ((List.range (lineKinds x).length).filter (emittedAt m (lineKinds x))) := by
  have hpre := wellFormed_prefix hwf
  obtain ⟨s', out, hrun, hbuf, hnl, hall⟩ :=
    run_indented m (readLines [] x) State.init 0 (fun raw hr => readLines_noNewline hr)
      Good_init rfl (by simpa [lineKinds] using hpre)
  refine ⟨render out, ?_, ?_⟩
  · rw [fmtFile, hrun]
    simp [hbuf, State.init]
  · rw [outLines_render out hnl]
    have e := emitted_indices m (lineKinds x) [] (le_refl _) (by simpa using hpre)
    simp only [List.length_nil, List.nil_append, List.count_nil, Nat.sub_self] at e
    simp only [State.init, List.length_nil, List.replicate_zero, ite_self,
      List.nil_append] at hall
    rw [List.range_eq_range']
    have hall' : List.Forall₂ Indented (out.filter (fun l => !l.isEmpty))
        (((List.range' 0 (lineKinds x).length).filter (emittedAt m (lineKinds x))).map
          (depthOf (lineKinds x))) := by
      rw [e]
      exact hall
    exact List.forall₂_map_right_iff.1 hall'

/-- C3, on the input `a {`, `# c`, `b 1;`, `}`. -/
theorem indent_matches_depth_witness :
    wellFormed (lineKinds "a \x7b\n# c\nb 1;\n\x7d\n".toList) = true ∧
    ∃ out, fmtFile false "a \x7b\n# c\nb 1;\n\x7d\n".toList = some out ∧
      List.Forall₂
        (fun line i => ∃ c t,
          line = List.replicate (2 * depthOf (lineKinds "a \x7b\n# c\nb 1;\n\x7d\n".toList) i) ' '
              ++ c :: t ∧ isSpace c = false)
        ((outLines out).filter (fun l => !l.isEmpty))
        ((List.range (lineKinds "a \x7b\n# c\nb 1;\n\x7d\n".toList).length).filter
          (emittedAt false (lineKinds "a \x7b\n# c\nb 1;\n\x7d\n".toList))) :=
  ⟨by decide, indent_matches_depth false "a \x7b\n# c\nb 1;\n\x7d\n".toList (by decide)⟩

/-- C6 (as stated): with minify on, the input `a {`, `b {`, `}`, `}` yields a buffer whose
second line is empty. -/
theorem minify_blank_line_before_block :
    fmtFile true "a \x7b\nb \x7b\n\x7d\n\x7d\n".toList
      = some "a \x7b\n\n  b \x7b\n  \x7d\n\x7d\n".toList ∧
    ([] : Str) ∈ outLines "a \x7b\n\n  b \x7b\n  \x7d\n\x7d\n".toList := by
  decide

/-- C6 (amended): the buffer of a minify pass does not begin with a newline, each of its
empty lines is directly followed by a line that ends with `{`, and its last line is not
empty. -/
theorem minify_blank_lines_only_before_blocks (x out : Str) (h : fmtFile true x = some out) :
    out.head? ≠ some '\n' ∧
    (outLines out).Chain' (fun a b => a = [] → b.getLast? = some '{') ∧
    (outLines out).getLast? ≠ some [] := by
  obtain ⟨ls, rfl, h1, h2, h3, h4⟩ := minify_lines h
  rw [outLines_render ls (fun l hl => (h1 l hl).1)]
  exact ⟨head_render_ne_newline (fun l hl => (h1 l hl).1) h2, h4, h3⟩

/-- C6 (amended), on the input `a {`, `x 1;`, `b {`, `}`, `}`. -/
theorem minify_blank_lines_only_before_blocks_witness :
    fmtFile true "a \x7b\nx 1;\nb \x7b\n\x7d\n\x7d\n".toList
      = some "a \x7b\n  x 1;\n\n  b \x7b\n  \x7d\n\x7d\n".toList ∧
    ("a \x7b\n  x 1;\n\n  b \x7b\n  \x7d\n\x7d\n".toList.head? ≠ some '\n' ∧
    (outLines "a \x7b\n  x 1;\n\n  b \x7b\n  \x7d\n\x7d\n".toList).Chain'
      (fun a b => a = [] → b.getLast? = some '{') ∧
    (outLines "a \x7b\n  x 1;\n\n  b \x7b\n  \x7d\n\x7d\n".toList).getLast? ≠ some []) :=
  ⟨by decide,
    minify_blank_lines_only_before_blocks "a \x7b\nx 1;\nb \x7b\n\x7d\n\x7d\n".toList
      "a \x7b\n  x 1;\n\n  b \x7b\n  \x7d\n\x7d\n".toList (by decide)⟩

/-- C7: no line of the buffer of a minify pass begins with `#`, at column 0 or after its
leading spaces. -/
theorem minify_no_comment_lines (x out : Str) (h : fmtFile true x = some out) :
    ∀ line ∈ outLines out,
      line.head? ≠ some '#' ∧ (line.dropWhile (fun c => c == ' ')).head? ≠ some '#' := by
  obtain ⟨ls, rfl, h1, _⟩ := minify_lines h
  rw [outLines_render ls (fun l hl => (h1 l hl).1)]
  intro line hl
  have hh : NoHash line := (h1 line hl).2
  refine ⟨?_, hh⟩
  intro h0
  cases line with
  | nil => simp at h0
  | cons c t =>
    simp only [List.head?_cons, Option.some.injEq] at h0
    subst h0
    exact hh (by simp [List.dropWhile_cons])

/-- C7, on the input `# c`, `a {`, `  # d {`, `b 1;`, `}`. -/
theorem minify_no_comment_lines_witness :
    fmtFile true "# c\na \x7b\n  # d \x7b\nb 1;\n\x7d\n".toList
      = some "a \x7b\n  b 1;\n\x7d\n".toList ∧
    ∀ line ∈ outLines "a \x7b\n  b 1;\n\x7d\n".toList,
      line.head? ≠ some '#' ∧ (line.dropWhile (fun c => c == ' ')).head? ≠ some '#' :=
  ⟨by decide,
    minify_no_comment_lines "# c\na \x7b\n  # d \x7b\nb 1;\n\x7d\n".toList
      "a \x7b\n  b 1;\n\x7d\n".toList (by decide)⟩

/-- C8: `getType` decides the kind in the order comment, block_start, block_end, newline,
directive, the first match winning; a line is a comment exactly when its first character
is `#`, and `# foo {` is a comment. -/
theorem getType_classification (l : Str) :
    (getType l =
      if l.head? = some '#' then Kind.comment
      else if l.getLast? = some '{' then Kind.block_start
      else if l = ['}'] then Kind.block_end
      else if l = [] then Kind.newline
      else Kind.directive) ∧
    (getType l = Kind.comment ↔ l.head? = some '#') ∧
    getType "# foo \x7b".toList = Kind.comment :=
  ⟨getType_eq l, getType_comment_iff l, by decide⟩

/-- C9: at an indent `n ≥ 0`, `flushDirectives` appends to the buffer, for each directive
of the run in order, the line of an alignable directive (indentation, name, padding up to
the width `W` of the run, one space, trimmed rest, newline) or the directive as it is, and
returns `W`, the maximum of the carried-in width and of the name lengths of the alignable
directives; the rest of every alignable directive starts at column `2 * n + W + 1`. -/
theorem flushDirectives_alignment (buf : Str) (ds : List Str) (n w : Int) (hn : 0 ≤ n) :
    flushDirectives buf ds n w
      = some (buf ++ (ds.map (fun d => if alignable d = true
                                        then alignedLine n (alignWidth w ds) d
                                        else verbatimLine n d)).flatten,
              alignWidth w ds) ∧
    ∀ d ∈ ds, alignable d = true →
      ((List.replicate (2 * n.toNat) ' ' ++ firstToken d ++
          List.replicate (alignWidth w ds - (firstToken d).length).toNat ' ' ++
          [' ']).length : Int) = 2 * n + alignWidth w ds + 1 := by
  constructor
  · rw [flushDirectives_of_nonneg buf ds hn, flushWidth_eq, render_map_eq]
  · intro d hd ha
    have h := length_le_alignWidth w hd ha
    simp only [List.length_append, List.length_replicate, List.length_singleton, Nat.cast_add,
      Nat.cast_mul, Nat.cast_ofNat, Nat.cast_one]
    rw [Int.toNat_of_nonneg hn, Int.toNat_of_nonneg (by omega)]
    omega

/-- C9, on the run `listen 80;`, `root /var/www;` at indent 1 with carried-in width 0. -/
theorem flushDirectives_alignment_witness :
    (0 : Int) ≤ 1 ∧
    (flushDirectives [] ["listen 80;".toList, "root /var/www;".toList] 1 0
      = some ([] ++ (["listen 80;".toList, "root /var/www;".toList].map
                (fun d => if alignable d = true
                  then alignedLine 1
                    (alignWidth 0 ["listen 80;".toList, "root /var/www;".toList]) d
                  else verbatimLine 1 d)).flatten,
              alignWidth 0 ["listen 80;".toList, "root /var/www;".toList]) ∧
    ∀ d ∈ ["listen 80;".toList, "root /var/www;".toList], alignable d = true →
      ((List.replicate (2 * (1 : Int).toNat) ' ' ++ firstToken d ++
          List.replicate (alignWidth 0 ["listen 80;".toList, "root /var/www;".toList]
            - (firstToken d).length).toNat ' ' ++
          [' ']).length : Int)
        = 2 * 1 + alignWidth 0 ["listen 80;".toList, "root /var/www;".toList] + 1) :=
  ⟨by decide,
    flushDirectives_alignment [] ["listen 80;".toList, "root /var/www;".toList] 1 0 (by decide)⟩

/-- C10 (as stated): the output of scenario 2 is not the text printed in the
specification, in which `root` is followed by four spaces. -/
theorem scenario2_not_four_spaces :
    fmtFile false "server \x7b\nlisten 80;\nroot /var/www;\n\x7d\n".toList
      ≠ some "server \x7b\n  listen 80;\n  root    /var/www;\n\x7d\n".toList := by
  decide

/-- C10 (amended): formatting scenario 2 yields `server {`, two spaces and `listen 80;`,
two spaces and `root` followed by three spaces and `/var/www;`, and `}`. -/
theorem scenario2_output :
    fmtFile false "server \x7b\nlisten 80;\nroot /var/www;\n\x7d\n".toList
      = some "server \x7b\n  listen 80;\n  root   /var/www;\n\x7d\n".toList := by
  decide

/-- C4: at the end of the input the pending run is not flushed: `a 1` alone yields an
empty buffer, and so does the minify scenario `# drop me`, blank, `foo bar;`. -/
theorem pending_run_dropped_at_eof :
    fmtFile false "a 1\n".toList = some [] ∧
    fmtFile true "# drop me\n\nfoo bar;\n".toList = some [] := by
  decide

/-- C5: when the first line of the input is a comment the buffer begins with a newline:
`# note`, `foo bar` yields a blank line and `# note`. -/
theorem leading_blank_before_first_comment :
    fmtFile false "# note\nfoo bar\n".toList = some "\n# note\n".toList := by
  decide

/-- C2: on the single line `}` the indent becomes negative and `strings.Repeat` panics,
in both modes. -/
theorem panic_on_unmatched_block_end :
    fmtFile false "\x7d\n".toList = none ∧ fmtFile true "\x7d\n".toList = none := by
  decide

/-- C11: text after the last newline of the input is not processed: appending to a text
that is empty or ends with a newline a text without newline does not change the result of
the pass. -/
theorem unterminated_tail_ignored (m : Bool) (x t : Str)
    (_hx : x = [] ∨ x.getLast? = some '\n') (ht : '\n' ∉ t) :
    fmtFile m (x ++ t) = fmtFile m x := by
  unfold fmtFile
  rw [readLines_append_tail x t [] ht]

/-- C11, on the input `a {`, `}` followed by the unterminated text `b 1`. -/
theorem unterminated_tail_ignored_witness :
    ("a \x7b\n\x7d\n".toList = [] ∨ "a \x7b\n\x7d\n".toList.getLast? = some '\n') ∧
    '\n' ∉ "b 1".toList ∧
    fmtFile false ("a \x7b\n\x7d\n".toList ++ "b 1".toList)
      = fmtFile false "a \x7b\n\x7d\n".toList :=
  ⟨by decide, by decide,
    unterminated_tail_ignored false "a \x7b\n\x7d\n".toList "b 1".toList (by decide)
      (by decide)⟩

/-- C12: a line that minify drops leaves the state of the loop as it is, any other line
is processed as with minify off; so the loop with minify on does what the loop with
minify off does on the lines that are not dropped, and the pass with minify on gives the
buffer of the pass with minify off on the text made of these lines. -/
theorem minify_is_filtering (s : State) (raw : Str) (ls : List Str) (x : Str) :
    step true s raw = (if dropped raw = true then some s else step false s raw) ∧
    run true s ls = run false s (ls.filter (fun r => !dropped r)) ∧
    fmtFile true x
      = fmtFile false ((readLines [] x).filter (fun r => !dropped r)).flatten := by
  refine ⟨?_, run_minify_filter s ls, ?_⟩
  · cases h : dropped raw
    · simp only [Bool.false_eq_true, if_false]
      exact step_of_not_dropped s h
    · simp only [if_true]
      exact step_of_dropped s h
  · unfold fmtFile
    rw [readLines_flatten, run_minify_filter]
    intro r hr
    exact readLines_mem (List.mem_filter.1 hr).1 (by simp)

/-- C13: with minify off, on an input that is empty or ends with a newline, whose nesting
depth never goes negative and whose last line that is not blank is not a directive, the
pass completes and the buffer without its white space is the input without its white
space. -/
theorem whitespace_only (x : Str) (hx : x = [] ∨ x.getLast? = some '\n')
    (hn : neverNegative (lineKinds x) = true)
    (hl : ((lineKinds x).filter (fun k => decide (k ≠ Kind.newline))).getLast?
      ≠ some Kind.directive) :
    ∃ out, fmtFile false x = some out ∧ strip out = strip x := by
  obtain ⟨out, hout⟩ := fmtFile_completes false hn
  refine ⟨out, hout, ?_⟩
  unfold fmtFile at hout
  cases hr : run false State.init (readLines [] x) with
  | none => rw [hr] at hout; exact absurd hout (by simp)
  | some sf =>
    rw [hr] at hout
    simp only [Option.map_some', Option.some.injEq] at hout
    have h1 := run_strip (readLines [] x) State.init sf Good_init
      (fun raw hraw => readLines_noNewline hraw) hr
    have h2 : sf.directives = [] :=
      final_directives_nil rfl (getLast?_filter_of hl) hr
    rw [h2, readLines_flatten_of hx] at h1
    rw [← hout]
    simpa [strip, State.init] using h1

/-- C13, on the input `a  {`, `# c`, `listen   80;`, `root /x;`, blank, `}`. -/
theorem whitespace_only_witness :
    (("a  \x7b\n#c\nlisten   80;\nroot /x;\n\n\x7d\n".toList = [] ∨
        "a  \x7b\n#c\nlisten   80;\nroot /x;\n\n\x7d\n".toList.getLast? = some '\n') ∧
      neverNegative (lineKinds "a  \x7b\n#c\nlisten   80;\nroot /x;\n\n\x7d\n".toList) = true ∧
      ((lineKinds "a  \x7b\n#c\nlisten   80;\nroot /x;\n\n\x7d\n".toList).filter
          (fun k => decide (k ≠ Kind.newline))).getLast? ≠ some Kind.directive) ∧
    ∃ out, fmtFile false "a  \x7b\n#c\nlisten   80;\nroot /x;\n\n\x7d\n".toList = some out ∧
      strip out = strip "a  \x7b\n#c\nlisten   80;\nroot /x;\n\n\x7d\n".toList :=
  ⟨⟨by decide, by decide, by decide⟩,
    whitespace_only "a  \x7b\n#c\nlisten   80;\nroot /x;\n\n\x7d\n".toList (by decide)
      (by decide) (by decide)⟩

/-- C14: at an indent `n ≥ 0`, `flushDirectives` returns the maximum of the carried-in
width and of the name lengths of the alignable directives of the run, as it does at any
indent at which it returns, and this is at least the carried-in width; after a comment
line the carried width is the width of the run flushed at this line; and over comment and
directive lines the width at which the pending run is flushed never decreases. -/
theorem width_never_shrinks (buf : Str) (ds : List Str) (n w : Int) (hn : 0 ≤ n)
    (s s' : State) (ls : List Str)
    (hk : ∀ raw ∈ ls, kindOf raw = Kind.comment ∨ kindOf raw = Kind.directive)
    (hrun : run false s ls = some s') :
    (∃ b, flushDirectives buf ds n w = some (b, alignWidth w ds)) ∧
    (∀ i r, flushDirectives buf ds i w = some r → r.2 = alignWidth w ds) ∧
    w ≤ alignWidth w ds ∧
    (∀ raw s1, kindOf raw = Kind.comment → step false s raw = some s1 →
      s1.maxLength = alignWidth s.maxLength s.directives ∧ s1.directives = []) ∧
    alignWidth s.maxLength s.directives ≤ alignWidth s'.maxLength s'.directives :=
  ⟨⟨_, flushDirectives_lines buf ds hn w⟩, fun _ _ h => flushDirectives_snd h,
    le_alignWidth w ds, fun _ _ hc hs => step_comment_width hc hs,
    width_mono ls s s' hk hrun⟩

/-- C14, for the run `listen 80;`, `root /x;` and for the lines `a 1`, `#c` read from the
initial state. -/
theorem width_never_shrinks_witness :
    ((0 : Int) ≤ 0 ∧
      (∀ raw ∈ ["a 1\n".toList, "#c\n".toList],
        kindOf raw = Kind.comment ∨ kindOf raw = Kind.directive) ∧
      run false State.init ["a 1\n".toList, "#c\n".toList]
        = some { buf := "a 1\n\n# c\n".toList, indent := 0, prevType := some Kind.comment,
                 started := true, directives := [], maxLength := 1 }) ∧
    ((∃ b, flushDirectives [] ["listen 80;".toList, "root /x;".toList] 0 0
        = some (b, alignWidth 0 ["listen 80;".toList, "root /x;".toList])) ∧
    (∀ i r, flushDirectives [] ["listen 80;".toList, "root /x;".toList] i 0 = some r →
      r.2 = alignWidth 0 ["listen 80;".toList, "root /x;".toList]) ∧
    (0 : Int) ≤ alignWidth 0 ["listen 80;".toList, "root /x;".toList] ∧
    (∀ raw s1, kindOf raw = Kind.comment → step false State.init raw = some s1 →
      s1.maxLength = alignWidth State.init.maxLength State.init.directives ∧
        s1.directives = []) ∧
    alignWidth State.init.maxLength State.init.directives
      ≤ alignWidth
          ({ buf := "a 1\n\n# c\n".toList, indent := 0, prevType := some Kind.comment,
             started := true, directives := [], maxLength := 1 } : State).maxLength
          ({ buf := "a 1\n\n# c\n".toList, indent := 0, prevType := some Kind.comment,
             started := true, directives := [], maxLength := 1 } : State).directives) :=
  ⟨⟨by decide, by decide, by decide⟩,
    width_never_shrinks [] ["listen 80;".toList, "root /x;".toList] 0 0 (by decide)
      State.init
      { buf := "a 1\n\n# c\n".toList, indent := 0, prevType := some Kind.comment,
        started := true, directives := [], maxLength := 1 }
      ["a 1\n".toList, "#c\n".toList] (by decide) (by decide)⟩

/-- C15: after a block_start or block_end line the carried width is 0 and no run is
pending, so the directive lines that follow form a run that is flushed at the width of
its own longest alignable name. -/
theorem width_resets_at_block (m : Bool) (s s' : State) (raw : Str) (ls : List Str)
    (hk : kindOf raw = Kind.block_start ∨ kindOf raw = Kind.block_end)
    (hs : step m s raw = some s') (hd : ∀ r ∈ ls, kindOf r = Kind.directive) :
    s'.maxLength = 0 ∧ s'.directives = [] ∧
    ∃ s'', run m s' ls = some s'' ∧ s''.directives = ls.map TrimSpace ∧
      flushDirectives s''.buf s''.directives s''.indent s''.maxLength
        = some (s''.buf ++ ((ls.map TrimSpace).map
              (directiveLine s''.indent (alignWidth 0 (ls.map TrimSpace)))).flatten,
            alignWidth 0 (ls.map TrimSpace)) := by
  obtain ⟨h1, h2, h3⟩ := step_block_reset hk hs
  obtain ⟨s'', r1, r2, r3, r4, _⟩ := run_directives m ls s' hd
  rw [h2, List.nil_append] at r2
  refine ⟨h1, h2, s'', r1, r2, ?_⟩
  rw [r2, r3, h1]
  exact flushDirectives_lines _ _ (by rw [r4]; exact h3) 0

/-- C15, for the line `a {` read from the initial state and the lines `x 1`, `yy 2`
after it. -/
theorem width_resets_at_block_witness :
    ((kindOf "a \x7b\n".toList = Kind.block_start ∨ kindOf "a \x7b\n".toList = Kind.block_end) ∧
      step false State.init "a \x7b\n".toList
        = some { buf := "a \x7b\n".toList, indent := 1, prevType := some Kind.block_start,
                 started := true, directives := [], maxLength := 0 } ∧
      ∀ r ∈ ["x 1\n".toList, "yy 2\n".toList], kindOf r = Kind.directive) ∧
    (({ buf := "a \x7b\n".toList, indent := 1, prevType := some Kind.block_start,
        started := true, directives := [], maxLength := 0 } : State).maxLength = 0 ∧
    ({ buf := "a \x7b\n".toList, indent := 1, prevType := some Kind.block_start,
       started := true, directives := [], maxLength := 0 } : State).directives = [] ∧
    ∃ s'', run false { buf := "a \x7b\n".toList, indent := 1,
                       prevType := some Kind.block_start, started := true, directives := [],
                       maxLength := 0 } ["x 1\n".toList, "yy 2\n".toList] = some s'' ∧
      s''.directives = ["x 1\n".toList, "yy 2\n".toList].map TrimSpace ∧
      flushDirectives s''.buf s''.directives s''.indent s''.maxLength
        = some (s''.buf ++ ((["x 1\n".toList, "yy 2\n".toList].map TrimSpace).map
              (directiveLine s''.indent
                (alignWidth 0 (["x 1\n".toList, "yy 2\n".toList].map TrimSpace)))).flatten,
            alignWidth 0 (["x 1\n".toList, "yy 2\n".toList].map TrimSpace))) :=
  ⟨⟨by decide, by decide, by decide⟩,
    width_resets_at_block false State.init
      { buf := "a \x7b\n".toList, indent := 1, prevType := some Kind.block_start,
        started := true, directives := [], maxLength := 0 }
      "a \x7b\n".toList ["x 1\n".toList, "yy 2\n".toList] (by decide) (by decide)
      (by decide)⟩

/-- C16: at an indent `n ≥ 0`, a directive of the run that has no space, or whose text
before the first space is empty or has a character other than an ASCII letter or an
underscore, is written as `2 * n` spaces, the directive as it is and a newline, between
the lines of the directives before it and after it, whatever the width. -/
theorem nonalignable_verbatim (buf : Str) (before after : List Str) (d : Str) (n w : Int)
    (hn : 0 ≤ n)
    (hd : ' ' ∉ d ∨ firstToken d = [] ∨
      ∃ c ∈ firstToken d, (c.isAlpha || c == '_') = false) :
    flushDirectives buf (before ++ d :: after) n w
      = some (buf ++
          (before.map (directiveLine n (alignWidth w (before ++ d :: after)))).flatten ++
          (List.replicate (2 * n.toNat) ' ' ++ d ++ ['\n']) ++
          (after.map (directiveLine n (alignWidth w (before ++ d :: after)))).flatten,
        alignWidth w (before ++ d :: after)) := by
  rw [flushDirectives_lines _ _ hn]
  have h : directiveLine n (alignWidth w (before ++ d :: after)) d
      = List.replicate (2 * n.toNat) ' ' ++ d ++ ['\n'] := by
    rw [directiveLine, not_alignable_of hd]
    rfl
  simp only [List.map_append, List.map_cons, List.flatten_append, List.flatten_cons, h,
    List.append_assoc]

/-- C16, for the run `a 1`, `80` at indent 1. -/
theorem nonalignable_verbatim_witness :
    ((0 : Int) ≤ 1 ∧
      (' ' ∉ "80".toList ∨ firstToken "80".toList = [] ∨
        ∃ c ∈ firstToken "80".toList, (c.isAlpha || c == '_') = false)) ∧
    flushDirectives [] (["a 1".toList] ++ "80".toList :: []) 1 0
      = some ([] ++
          (["a 1".toList].map
            (directiveLine 1 (alignWidth 0 (["a 1".toList] ++ "80".toList :: [])))).flatten ++
          (List.replicate (2 * (1 : Int).toNat) ' ' ++ "80".toList ++ ['\n']) ++
          (([] : List Str).map
            (directiveLine 1 (alignWidth 0 (["a 1".toList] ++ "80".toList :: [])))).flatten,
        alignWidth 0 (["a 1".toList] ++ "80".toList :: [])) :=
  ⟨⟨by decide, Or.inl (by decide)⟩,
    nonalignable_verbatim [] ["a 1".toList] [] "80".toList 1 0 (by decide)
      (Or.inl (by decide))⟩

/-- C17: with minify off, on a comment line read after some line that is not blank, the
loop flushes the pending run and then writes, after a newline exactly when the previous
line was neither a comment nor a block_start, the indentation, `# `, the trimmed text
after the `#`, and a newline. -/
theorem comment_step (x : Str) (s : State) (raw : Str)
    (hreach : run false State.init (readLines [] x) = some s) (_hst : s.started = true)
    (hk : kindOf raw = Kind.comment) :
    ∃ b W, flushDirectives s.buf s.directives s.indent s.maxLength = some (b, W) ∧
      step false s raw = some { s with
        buf := b ++
          (if s.prevType ≠ some Kind.comment ∧ s.prevType ≠ some Kind.block_start
            then ['\n'] else []) ++
          List.replicate (2 * s.indent.toNat) ' ' ++
          (['#', ' '] ++ TrimSpace ((TrimSpace raw).drop 1)) ++ ['\n'],
        maxLength := W, directives := [], prevType := some Kind.comment, started := true } :=
  ⟨_, _, flushDirectives_state (reach_good hreach).1,
    comment_step_eq (reach_good hreach).1 hk⟩

/-- C17, for the line `#c` read after the input `a 1`. -/
theorem comment_step_witness :
    (run false State.init (readLines [] "a 1\n".toList)
        = some { buf := [], indent := 0, prevType := some Kind.directive, started := true,
                 directives := ["a 1".toList], maxLength := 0 } ∧
      ({ buf := [], indent := 0, prevType := some Kind.directive, started := true,
         directives := ["a 1".toList], maxLength := 0 } : State).started = true ∧
      kindOf "#c\n".toList = Kind.comment) ∧
    ∃ b W, flushDirectives [] ["a 1".toList] 0 0 = some (b, W) ∧
      step false { buf := [], indent := 0, prevType := some Kind.directive, started := true,
                   directives := ["a 1".toList], maxLength := 0 } "#c\n".toList
        = some { buf := b ++
                   (if some Kind.directive ≠ some Kind.comment ∧
                       some Kind.directive ≠ some Kind.block_start then ['\n'] else []) ++
                   List.replicate (2 * (0 : Int).toNat) ' ' ++
                   (['#', ' '] ++ TrimSpace ((TrimSpace "#c\n".toList).drop 1)) ++ ['\n'],
                 indent := 0, prevType := some Kind.comment, started := true,
                 directives := [], maxLength := W } :=
  ⟨⟨by decide, by decide, by decide⟩,
    comment_step "a 1\n".toList
      { buf := [], indent := 0, prevType := some Kind.directive, started := true,
        directives := ["a 1".toList], maxLength := 0 }
      "#c\n".toList (by decide) (by decide) (by decide)⟩

/-- C18: on a block_start line at an indent `n ≥ 0`, the loop flushes the pending run and
then writes, after a newline exactly when the previous line was not a comment and some
line that is not blank has been processed, `2 * n` spaces, the trimmed line as it is, and
a newline; the indent becomes `n + 1`. -/
theorem block_start_step (m : Bool) (s : State) (raw : Str) (hn : 0 ≤ s.indent)
    (hk : kindOf raw = Kind.block_start) :
    ∃ b W, flushDirectives s.buf s.directives s.indent s.maxLength = some (b, W) ∧
      step m s raw = some { s with
        buf := b ++
          (if s.prevType ≠ some Kind.comment ∧ s.started = true then ['\n'] else []) ++
          List.replicate (2 * s.indent.toNat) ' ' ++ TrimSpace raw ++ ['\n'],
        maxLength := 0, directives := [], indent := s.indent + 1,
        prevType := some Kind.block_start, started := true } :=
  ⟨_, _, flushDirectives_state hn, block_start_step_eq m hn hk⟩

/-- C18, for the line `  b {` read at indent 1 after the directive `a 1`. -/
theorem block_start_step_witness :
    ((0 : Int) ≤ 1 ∧ kindOf "  b \x7b\n".toList = Kind.block_start) ∧
    ∃ b W, flushDirectives [] ["a 1".toList] 1 0 = some (b, W) ∧
      step false { buf := [], indent := 1, prevType := some Kind.directive, started := true,
                   directives := ["a 1".toList], maxLength := 0 } "  b \x7b\n".toList
        = some { buf := b ++
                   (if some Kind.directive ≠ some Kind.comment ∧ true = true
                     then ['\n'] else []) ++
                   List.replicate (2 * (1 : Int).toNat) ' ' ++
                   TrimSpace "  b \x7b\n".toList ++ ['\n'],
                 indent := 1 + 1, prevType := some Kind.block_start, started := true,
                 directives := [], maxLength := 0 } :=
  ⟨⟨by decide, by decide⟩,
    block_start_step false
      { buf := [], indent := 1, prevType := some Kind.directive, started := true,
        directives := ["a 1".toList], maxLength := 0 }
      "  b \x7b\n".toList (by decide) (by decide)⟩

/-- C19: when the nesting depth never goes negative the pass completes and no empty line
of the buffer is directly followed by a line made of spaces and `}`; on a block_end line
at an indent of at least 1 the loop flushes the pending run and then writes the
decremented indentation, `}` and a newline, with nothing between the flushed run and
this line. -/
theorem no_blank_before_block_end (m : Bool) (x : Str)
    (hn : neverNegative (lineKinds x) = true) :
    ∃ out, fmtFile m x = some out ∧
      (outLines out).Chain' (fun a b => a = [] → ∀ k, b ≠ List.replicate k ' ' ++ ['}']) ∧
      ∀ (s : State) (raw : Str), 1 ≤ s.indent → kindOf raw = Kind.block_end →
        ∃ b W, flushDirectives s.buf s.directives s.indent s.maxLength = some (b, W) ∧
          step m s raw = some { s with
            buf := b ++ List.replicate (2 * (s.indent - 1).toNat) ' ' ++ ['}', '\n'],
            maxLength := 0, directives := [], indent := s.indent - 1,
            prevType := some Kind.block_end, started := true } := by
  obtain ⟨out, hout⟩ := fmtFile_completes m hn
  obtain ⟨ls, rfl, h1, _, h3⟩ := output_lines hout
  refine ⟨_, hout, ?_, ?_⟩
  · rw [outLines_render ls h1]
    refine h3.imp ?_
    intro a b hab ha k hb
    rcases hab ha with h | h
    · rw [hb, kindOf_block_end_line] at h
      exact absurd h (by decide)
    · rw [hb, kindOf_block_end_line] at h
      exact absurd h (by decide)
  · intro s raw hi hk
    exact ⟨_, _, flushDirectives_state (by omega), block_end_step_eq m hi hk⟩

/-- C19, on the input `a {`, `x 1;`, blank, `}`. -/
theorem no_blank_before_block_end_witness :
    neverNegative (lineKinds "a \x7b\nx 1;\n\n\x7d\n".toList) = true ∧
    ∃ out, fmtFile false "a \x7b\nx 1;\n\n\x7d\n".toList = some out ∧
      (outLines out).Chain' (fun a b => a = [] → ∀ k, b ≠ List.replicate k ' ' ++ ['}']) ∧
      ∀ (s : State) (raw : Str), 1 ≤ s.indent → kindOf raw = Kind.block_end →
        ∃ b W, flushDirectives s.buf s.directives s.indent s.maxLength = some (b, W) ∧
          step false s raw = some { s with
            buf := b ++ List.replicate (2 * (s.indent - 1).toNat) ' ' ++ ['}', '\n'],
            maxLength := 0, directives := [], indent := s.indent - 1,
            prevType := some Kind.block_end, started := true } :=
  ⟨by decide, no_blank_before_block_end false "a \x7b\nx 1;\n\n\x7d\n".toList (by decide)⟩

/-- C20: when the nesting depth never goes negative the pass completes and, in the
buffer, no two successive lines are empty, there are no three successive newlines, every
empty line is directly followed by a comment line or a block_start line, and the buffer,
when it is not empty, ends with a line that is not empty and its newline. -/
theorem blank_lines_isolated (m : Bool) (x : Str) (hn : neverNegative (lineKinds x) = true) :
    ∃ out, fmtFile m x = some out ∧
      (outLines out).Chain' (fun a b => ¬ (a = [] ∧ b = [])) ∧
      (∀ a b, out ≠ a ++ ['\n', '\n', '\n'] ++ b) ∧
      (outLines out).Chain'
        (fun a b => a = [] → kindOf b = Kind.comment ∨ kindOf b = Kind.block_start) ∧
      (outLines out).getLast? ≠ some [] ∧
      (out = [] ∨ ∃ p l, out = p ++ l ++ ['\n'] ∧ l ≠ [] ∧ '\n' ∉ l ∧
        (p = [] ∨ p.getLast? = some '\n')) := by
  obtain ⟨out, hout⟩ := fmtFile_completes m hn
  obtain ⟨ls, rfl, h1, h2, h3⟩ := output_lines hout
  have hne : ls.Chain' (fun a b => a = [] → b ≠ []) := by
    refine h3.imp ?_
    intro a b hab ha hb
    rcases hab ha with h | h <;>
    · rw [hb, kindOf_nil] at h
      exact absurd h (by decide)
  refine ⟨_, hout, ?_, ?_, ?_, ?_, render_ends h1 h2⟩
  · rw [outLines_render ls h1]
    exact hne.imp (fun a b hab hh => hab hh.1 hh.2)
  · intro a b hab
    exact no_triple_newline ls h1 hne a b (by simpa using hab)
  · rw [outLines_render ls h1]
    exact h3
  · rw [outLines_render ls h1]
    exact h2

/-- C20, on the input `a 1`, three blank lines, `# c`, blank, `b {`, `}`. -/
theorem blank_lines_isolated_witness :
    neverNegative (lineKinds "a 1\n\n\n\n# c\n\nb \x7b\n\x7d\n".toList) = true ∧
    ∃ out, fmtFile false "a 1\n\n\n\n# c\n\nb \x7b\n\x7d\n".toList = some out ∧
      (outLines out).Chain' (fun a b => ¬ (a = [] ∧ b = [])) ∧
      (∀ a b, out ≠ a ++ ['\n', '\n', '\n'] ++ b) ∧
      (outLines out).Chain'
        (fun a b => a = [] → kindOf b = Kind.comment ∨ kindOf b = Kind.block_start) ∧
      (outLines out).getLast? ≠ some [] ∧
      (out = [] ∨ ∃ p l, out = p ++ l ++ ['\n'] ∧ l ≠ [] ∧ '\n' ∉ l ∧
        (p = [] ∨ p.getLast? = some '\n')) :=
  ⟨by decide,
    blank_lines_isolated false "a 1\n\n\n\n# c\n\nb \x7b\n\x7d\n".toList (by decide)⟩

end Nginxfmt
